import Mathlib

/-!
# Verification of the `cardgames` rule engines

A shallow embedding of the pure card-game rule engines of the repository
(`src/types/card.ts`, `src/lib/engine/deck.ts`, and the game modules
`blackjack.ts`, `solitaire.ts`, `hearts.ts` — the latter source file also
contains the President/"Asshole" engine and the Texas Hold'em engine),
together with theorems checking the specification's claims against it.

Modelling conventions, used consistently below:

* A TypeScript card object becomes the structure `Card`.  The `uuid` string
  identifier is modelled as a `Nat`: the cards of one deck instantiation get
  the identifiers `0..51` in construction order (the spec only relies on
  identifiers being unique within one deck instantiation).
* The TypeScript `Deck` record is a single-field wrapper `{ cards }`; it is
  flattened to `List Card`.
* `shuffleDeck` uses the ambient `Math.random`; it is modelled by
  quantifying over an arbitrary permutation of the freshly created deck.
* Action functions that return `State | null` become `State → ... → Option State`.
* In-place array writes on a copied array (`const a = [...xs]; a[i] = v`)
  become `List.set`.
* JS `Array.prototype.slice` becomes `take`/`drop`; JS stable `sort` with a
  comparator becomes a stable insertion sort with the same order.
-/

namespace CardGames

/-- Card suits (`src/types/card.ts`). -/
inductive Suit where
  | hearts
  | diamonds
  | clubs
  | spades
deriving DecidableEq, Repr, Inhabited

/-- Card ranks `'A' | '2' | ... | '10' | 'J' | 'Q' | 'K'` (`src/types/card.ts`). -/
inductive Rank where
  | A
  | N2
  | N3
  | N4
  | N5
  | N6
  | N7
  | N8
  | N9
  | N10
  | J
  | Q
  | K
deriving DecidableEq, Repr, Inhabited

/-- The shared rank-to-value mapping of `deck.ts` (`getRankValue`): Ace is 1,
numeric ranks are face value, J/Q/K are 11/12/13. -/
def getRankValue : Rank → Nat
  | .A => 1
  | .N2 => 2
  | .N3 => 3
  | .N4 => 4
  | .N5 => 5
  | .N6 => 6
  | .N7 => 7
  | .N8 => 8
  | .N9 => 9
  | .N10 => 10
  | .J => 11
  | .Q => 12
  | .K => 13

/-- A card (`src/types/card.ts`): suit, rank, the shared numeric value,
face-up flag and unique identifier. -/
structure Card where
  suit : Suit
  rank : Rank
  value : Nat
  faceUp : Bool
  id : Nat
deriving DecidableEq, Repr, Inhabited

/-- `createCard` of `deck.ts`; the uuid is supplied as a `Nat`. -/
def createCard (suit : Suit) (rank : Rank) (id : Nat) (faceUp : Bool) : Card :=
  { suit := suit, rank := rank, value := getRankValue rank, faceUp := faceUp, id := id }

/-- Suit enumeration order of `deck.ts` (`SUITS`). -/
def SUITS : List Suit := [.hearts, .diamonds, .clubs, .spades]

/-- Rank enumeration order of `deck.ts` (`RANKS`). -/
def RANKS : List Rank :=
  [.A, .N2, .N3, .N4, .N5, .N6, .N7, .N8, .N9, .N10, .J, .Q, .K]

/-- Index of a suit in `SUITS` (`SUITS.indexOf`, used by `sortCards`). -/
def suitIndex : Suit → Nat
  | .hearts => 0
  | .diamonds => 1
  | .clubs => 2
  | .spades => 3

/-- `createDeck` of `deck.ts`: 52 cards, suits outer loop, ranks inner loop,
face-down, each with a fresh identifier (modelled as the construction index). -/
def createDeck : List Card :=
  (List.range 4).flatMap fun si =>
    (List.range 13).map fun ri =>
      createCard (SUITS.getD si .hearts) (RANKS.getD ri .A) (13 * si + ri) false

/-- `drawCards` of `deck.ts`: first `count` cards and the remaining deck. -/
def drawCards (deck : List Card) (count : Nat) : List Card × List Card :=
  (deck.take count, deck.drop count)

/-- The comparator of `sortCards` in `deck.ts`: by suit order first, then by
value, ascending. `cardLE a b` holds when `a` need not be placed after `b`. -/
def cardLE (a b : Card) : Bool :=
  if suitIndex a.suit = suitIndex b.suit then decide (a.value ≤ b.value)
  else decide (suitIndex a.suit < suitIndex b.suit)

/-- Stable insertion into a sorted list, realising the JS stable `sort`. -/
def insertCard (c : Card) : List Card → List Card
  | [] => [c]
  | d :: ds => if cardLE c d then c :: d :: ds else d :: insertCard c ds

/-- `sortCards` of `deck.ts` (only the fact that it permutes its input
matters to the claims below). -/
def sortCards (cards : List Card) : List Card :=
  cards.foldr insertCard []

/-- The card identifiers of a pile. -/
def idsOf (cards : List Card) : List Nat := cards.map (·.id)

/-- Identifiers of one full deck instantiation. -/
def deckIds : List Nat := List.range 52

/-- `PlayerType` of `src/types/card.ts`. -/
inductive PlayerType where
  | human
  | computer
deriving DecidableEq, Repr, Inhabited

/-! ## Blackjack engine (`src/lib/games/blackjack.ts`) -/

namespace Blackjack

/-- `BlackjackPlayer` of `blackjack.ts`.  Chips and bets are JS numbers that
only ever take part in exact halves (the 3:2 blackjack payout), modelled by
`Rat`. -/
structure BlackjackPlayer where
  id : String
  name : String
  hand : List Card
  bet : Rat
  chips : Rat
  hasStood : Bool
  hasBusted : Bool
  hasBlackjack : Bool
  isDealer : Bool
deriving DecidableEq, Repr, Inhabited

/-- Blackjack phases. -/
inductive BJPhase where
  | betting
  | dealing
  | playing
  | dealer
  | settlement
  | finished
deriving DecidableEq, Repr, Inhabited

/-- `BlackjackState` of `blackjack.ts`. -/
structure BlackjackState where
  deck : List Card
  players : List BlackjackPlayer
  dealer : BlackjackPlayer
  currentPlayerIndex : Nat
  phase : BJPhase
  roundNumber : Nat
deriving DecidableEq, Repr, Inhabited

/-- Per-card contribution of `getHandValue`'s loop: Ace adds 11 initially,
K/Q/J add 10, and a numeric rank adds `parseInt(rank)`, which coincides with
the shared rank value. -/
def bjCardValue (c : Card) : Nat :=
  match c.rank with
  | .A => 11
  | .K => 10
  | .Q => 10
  | .J => 10
  | r => getRankValue r

/-- The raw sum accumulated by `getHandValue`'s loop before ace adjustment. -/
def bjRawValue (hand : List Card) : Nat := (hand.map bjCardValue).sum

/-- The ace count accumulated by `getHandValue`'s loop. -/
def bjAces (hand : List Card) : Nat := hand.countP (fun c => c.rank = Rank.A)

/-- The `while (value > 21 && aces > 0) { value -= 10; aces--; }` loop of
`getHandValue`, returning the final `(value, aces)`. -/
def adjustAces : Nat → Nat → Nat × Nat
  | value, 0 => (value, 0)
  | value, aces + 1 =>
    if 21 < value then adjustAces (value - 10) aces else (value, aces + 1)

/-- The `{ value, isSoft }` result of `getHandValue`. -/
structure HandValue where
  value : Nat
  isSoft : Bool
deriving DecidableEq, Repr, Inhabited

/-- `getHandValue` of `blackjack.ts`. -/
def getHandValue (hand : List Card) : HandValue :=
  let adjusted := adjustAces (bjRawValue hand) (bjAces hand)
  { value := adjusted.1, isSoft := decide (0 < adjusted.2) && decide (adjusted.1 ≤ 21) }

/-- `isBlackjack` of `blackjack.ts`: exactly two cards valuing 21. -/
def isBlackjack (hand : List Card) : Bool :=
  hand.length == 2 && (getHandValue hand).value == 21

/-- `isBusted` of `blackjack.ts`. -/
def isBusted (hand : List Card) : Bool :=
  decide (21 < (getHandValue hand).value)

/-- Closed form for the number of 10-point deductions the ace-adjustment
loop performs: one per ace, while the running value still exceeds 21. -/
def bjDrops (value aces : Nat) : Nat :=
  min aces (if value ≤ 21 then 0 else (value - 12) / 10)

/-- `createBlackjackGame` of `blackjack.ts`.  The shuffled deck is passed in
(`shuffleDeck(createDeck())` draws on the ambient RNG).  The dealer's
`chips: Infinity` is modelled as `0`: no transition ever reads the dealer's
chip count. -/
def createBlackjackGame (deck : List Card) (playerNames : List String)
    (startingChips : Rat) : BlackjackState :=
  { deck := deck,
    players := playerNames.mapIdx fun index name =>
      { id := s!"player-{index}", name := name, hand := [], bet := 0,
        chips := startingChips, hasStood := false, hasBusted := false,
        hasBlackjack := false, isDealer := false },
    dealer := { id := "dealer", name := "Dealer", hand := [], bet := 0, chips := 0,
                hasStood := false, hasBusted := false, hasBlackjack := false,
                isDealer := true },
    currentPlayerIndex := 0, phase := .betting, roundNumber := 1 }

/-- `placeBet` of `blackjack.ts`. -/
def placeBet (s : BlackjackState) (playerId : String) (amount : Rat) :
    Option BlackjackState :=
  match s.players.findIdx? (fun p => p.id == playerId) with
  | none => none
  | some playerIndex =>
    let player := s.players.getD playerIndex default
    if amount > player.chips ∨ amount < 1 then none
    else some { s with players := s.players.set playerIndex { player with bet := amount } }

/-- One pass of the dealing loop of `dealInitialCards`: each player in order
draws one card face-up.  When the deck runs dry, `drawCards` returns no card
and JS would append a malformed card-less object (the spread of `undefined`);
that object carries no identifier, so it is modelled by appending nothing. -/
def dealToEach : List Card → List BlackjackPlayer → List Card × List BlackjackPlayer
  | deck, [] => (deck, [])
  | deck, p :: ps =>
    let drawn := (drawCards deck 1).1
    let rest := (drawCards deck 1).2
    let r := dealToEach rest ps
    (r.1, { p with hand := p.hand ++ drawn.map (fun c => { c with faceUp := true }) } :: r.2)

/-- `dealInitialCards` of `blackjack.ts`: two rounds of one card per player,
one to the dealer per round (the dealer's second card face-down), then the
blackjack flags, then phase `playing`. -/
def dealInitialCards (s : BlackjackState) : BlackjackState :=
  let r0 := dealToEach s.deck s.players
  let d0 := drawCards r0.1 1
  let dealer0 := { s.dealer with
    hand := s.dealer.hand ++ d0.1.map (fun (c : Card) => { c with faceUp := true }) }
  let r1 := dealToEach d0.2 r0.2
  let d1 := drawCards r1.1 1
  let dealer1 := { dealer0 with
    hand := dealer0.hand ++ d1.1.map (fun (c : Card) => { c with faceUp := false }) }
  let players2 := r1.2.map fun p =>
    if isBlackjack p.hand then { p with hasBlackjack := true, hasStood := true } else p
  let dealer2 :=
    if isBlackjack dealer1.hand then { dealer1 with hasBlackjack := true } else dealer1
  { s with deck := d1.2, players := players2, dealer := dealer2,
           phase := .playing, currentPlayerIndex := 0 }

/-- `findNextActivePlayer` of `blackjack.ts`: the first index after
`currentIndex` whose player has neither stood nor busted; JS returns `-1`
when there is none, modelled by `none`. -/
def findNextActivePlayer (players : List BlackjackPlayer) (currentIndex : Nat) :
    Option Nat :=
  (List.range players.length).find? fun i =>
    decide (currentIndex < i) &&
      !(players.getD i default).hasStood && !(players.getD i default).hasBusted

/-- `hit` of `blackjack.ts`.  Note that it checks neither the phase nor whose
turn it is — only that the player exists and has not stood or busted.  On an
empty deck JS would append a malformed card-less object (spread of
`undefined`); that case is modelled as a rejection and every theorem about
`hit` assumes a nonempty deck. -/
def hit (s : BlackjackState) (playerId : String) : Option BlackjackState :=
  match s.players.findIdx? (fun p => p.id == playerId) with
  | none => none
  | some playerIndex =>
    let player := s.players.getD playerIndex default
    if player.hasStood || player.hasBusted then none
    else
      match s.deck with
      | [] => none
      | drawn :: remainingDeck =>
        let newHand := player.hand ++ [{ drawn with faceUp := true }]
        let busted := isBusted newHand
        let p' := { player with
          hand := newHand
          hasBusted := busted
          hasStood := if busted then true else player.hasStood }
        let newPlayers := s.players.set playerIndex p'
        let np : Nat × BJPhase :=
          if busted then
            match findNextActivePlayer newPlayers s.currentPlayerIndex with
            | none => (s.currentPlayerIndex, .dealer)
            | some next => (next, s.phase)
          else (s.currentPlayerIndex, s.phase)
        some { s with deck := remainingDeck, players := newPlayers,
                      currentPlayerIndex := np.1, phase := np.2 }

/-- `stand` of `blackjack.ts`. -/
def stand (s : BlackjackState) (playerId : String) : Option BlackjackState :=
  match s.players.findIdx? (fun p => p.id == playerId) with
  | none => none
  | some playerIndex =>
    let player := s.players.getD playerIndex default
    let newPlayers := s.players.set playerIndex { player with hasStood := true }
    match findNextActivePlayer newPlayers s.currentPlayerIndex with
    | none => some { s with players := newPlayers, phase := .dealer }
    | some next => some { s with players := newPlayers, currentPlayerIndex := next }

/-- The dealer's `while (getHandValue(dealer.hand).value < 17)` drawing loop.
On an empty deck JS appends one malformed card-less object (whose `NaN`
value then exits the loop); it carries no identifier, so the model halts
without appending. -/
def dealerHits (deck hand : List Card) : List Card × List Card :=
  if (getHandValue hand).value < 17 then
    match deck with
    | [] => (deck, hand)
    | c :: rest => dealerHits rest (hand ++ [{ c with faceUp := true }])
  else (deck, hand)

/-- `dealerPlay` of `blackjack.ts`: reveal the hole card, hit below 17,
then settle flags and move to settlement. -/
def dealerPlay (s : BlackjackState) : BlackjackState :=
  let revealed := s.dealer.hand.map (fun c => { c with faceUp := true })
  let r := dealerHits s.deck revealed
  let dealer := { s.dealer with hand := r.2, hasBusted := isBusted r.2, hasStood := true }
  { s with deck := r.1, dealer := dealer, phase := .settlement }

/-- `settleRound` of `blackjack.ts`. -/
def settleRound (s : BlackjackState) : BlackjackState :=
  let dealerValue := (getHandValue s.dealer.hand).value
  let dealerBusted := s.dealer.hasBusted
  let newPlayers := s.players.map fun player =>
    let playerValue := (getHandValue player.hand).value
    let chipChange : Rat :=
      if player.hasBusted then -player.bet
      else if player.hasBlackjack && !s.dealer.hasBlackjack then player.bet * (3 / 2)
      else if s.dealer.hasBlackjack && !player.hasBlackjack then -player.bet
      else if dealerBusted then player.bet
      else if dealerValue < playerValue then player.bet
      else if playerValue < dealerValue then -player.bet
      else 0
    { player with chips := player.chips + chipChange }
  { s with players := newPlayers, phase := .finished }

/-- `startNewRound` of `blackjack.ts`: reshuffle only when fewer than 15
cards remain (the fresh shuffled deck is passed in); hands are emptied
without returning their cards to the kept deck. -/
def bjStartNewRound (s : BlackjackState) (freshDeck : List Card) : BlackjackState :=
  let deck := if s.deck.length < 15 then freshDeck else s.deck
  { s with
    deck := deck
    players := s.players.map fun (p : BlackjackPlayer) =>
      { p with
        hand := []
        bet := 0
        hasStood := false
        hasBusted := false
        hasBlackjack := false }
    dealer := { s.dealer with
                hand := []
                hasStood := false
                hasBusted := false
                hasBlackjack := false }
    currentPlayerIndex := 0
    phase := .betting
    roundNumber := s.roundNumber + 1 }

/-- A concrete two-player Blackjack state in the playing phase: it is
player-0's turn, and player-1 (who has neither stood nor busted) is not the
current player. -/
def bjDemoState : BlackjackState :=
  { deck := [createCard .clubs .N5 40 false, createCard .diamonds .N6 41 false],
    players :=
      [{ id := "player-0", name := "P0",
         hand := [createCard .spades .K 0 true, createCard .hearts .N9 1 true],
         bet := 10, chips := 990, hasStood := false, hasBusted := false,
         hasBlackjack := false, isDealer := false },
       { id := "player-1", name := "P1",
         hand := [createCard .diamonds .N7 2 true, createCard .clubs .N8 3 true],
         bet := 10, chips := 990, hasStood := false, hasBusted := false,
         hasBlackjack := false, isDealer := false }],
    dealer := { id := "dealer", name := "Dealer",
                hand := [createCard .spades .N4 4 true, createCard .hearts .J 5 false],
                bet := 0, chips := 0, hasStood := false, hasBusted := false,
                hasBlackjack := false, isDealer := true },
    currentPlayerIndex := 0, phase := .playing, roundNumber := 1 }

end Blackjack

/-! ## Solitaire engine (`src/lib/games/solitaire.ts`) -/

namespace Solitaire

/-- `SolitaireState` of `solitaire.ts`.  The `startTime: Date` field is
omitted: no transition reads it. -/
structure SolitaireState where
  tableau : List (List Card)
  foundation : List (List Card)
  stock : List Card
  waste : List Card
  moves : Nat
  isWon : Bool
deriving DecidableEq, Repr, Inhabited

/-- `createSolitaireGame` of `solitaire.ts` applied to an already shuffled
deck: seven tableau columns of sizes 1..7 dealt left to right (running card
index `col*(col+1)/2 + row`), only the last card of each column face-up; the
remaining 24 cards form the face-down stock. -/
def createSolitaireGame (deck : List Card) : SolitaireState :=
  { tableau := (List.range 7).map fun col =>
      (List.range (col + 1)).map fun row =>
        { deck.getD (col * (col + 1) / 2 + row) default with faceUp := row == col },
    foundation := [[], [], [], []],
    stock := (deck.drop 28).map fun c => { c with faceUp := false },
    waste := [], moves := 0, isWon := false }

/-- `canMoveToFoundation` of `solitaire.ts`: an Ace on an empty pile, else
same suit and exactly one value higher than the top card.  (`card.value ===
top.value + 1` is stated as `card.value = top.value + 1` over `Nat`.) -/
def canMoveToFoundation (card : Card) (foundation : List Card) : Bool :=
  match foundation.getLast? with
  | none => decide (card.rank = Rank.A)
  | some topCard =>
    decide (card.suit = topCard.suit) && decide (card.value = topCard.value + 1)

/-- `canMoveToTableau` of `solitaire.ts`: a King on an empty column, else
alternating colour and one value lower than the top card (`card.value ===
top.value - 1` is stated subtraction-free as `card.value + 1 = top.value`,
which agrees with the JS arithmetic for every rank value). -/
def canMoveToTableau (card : Card) (column : List Card) : Bool :=
  match column.getLast? with
  | none => decide (card.rank = Rank.K)
  | some topCard =>
    let cardRed := decide (card.suit = Suit.hearts) || decide (card.suit = Suit.diamonds)
    let topRed := decide (topCard.suit = Suit.hearts) || decide (topCard.suit = Suit.diamonds)
    (cardRed != topRed) && decide (card.value + 1 = topCard.value)

/-- `drawFromStock` of `solitaire.ts`.  With an empty stock the waste is sent
back face-down **reversed**; otherwise the first stock card is turned face-up
onto the waste. -/
def drawFromStock (s : SolitaireState) : SolitaireState :=
  match s.stock with
  | [] =>
    { s with stock := (s.waste.map fun c => { c with faceUp := false }).reverse,
             waste := [], moves := s.moves + 1 }
  | card :: restStock =>
    { s with stock := restStock,
             waste := s.waste ++ [{ card with faceUp := true }],
             moves := s.moves + 1 }

/-- The "flip the newly exposed top card" step shared by `moveToFoundation`
and `moveCardsInTableau`. -/
def flipLast (column : List Card) : List Card :=
  match column.getLast? with
  | none => column
  | some top =>
    if top.faceUp then column else column.dropLast ++ [{ top with faceUp := true }]

/-- The `source` argument of `moveToFoundation`. -/
inductive SolSource where
  | waste
  | tableau
deriving DecidableEq, Repr

/-- `moveToFoundation` of `solitaire.ts`.  A tableau `columnIndex` outside
`0..6` would make JS dereference `undefined`; it is modelled by `getD _ []`,
which likewise yields no movable card. -/
def moveToFoundation (s : SolitaireState) (source : SolSource)
    (columnIndex : Option Nat) : Option SolitaireState :=
  match source with
  | .waste =>
    match s.waste.getLast? with
    | none => none
    | some card =>
      let fi := suitIndex card.suit
      if canMoveToFoundation card (s.foundation.getD fi []) then
        let s2 := { s with
          waste := s.waste.dropLast
          foundation := s.foundation.set fi (s.foundation.getD fi [] ++ [card])
          moves := s.moves + 1 }
        some { s2 with isWon := s2.foundation.all fun pile => pile.length == 13 }
      else none
  | .tableau =>
    match columnIndex with
    | none => none
    | some ci =>
      match (s.tableau.getD ci []).getLast? with
      | none => none
      | some card =>
        let fi := suitIndex card.suit
        if canMoveToFoundation card (s.foundation.getD fi []) then
          let column2 := flipLast ((s.tableau.getD ci []).dropLast)
          let s2 := { s with
            tableau := s.tableau.set ci column2
            foundation := s.foundation.set fi (s.foundation.getD fi [] ++ [card])
            moves := s.moves + 1 }
          some { s2 with isWon := s2.foundation.all fun pile => pile.length == 13 }
        else none

/-- `moveCardsInTableau` of `solitaire.ts`.  The two sequential array writes
are modelled by two `List.set`s, so — exactly as in JS — a call with
`fromColumn = toColumn` would let the second write clobber the first. -/
def moveCardsInTableau (s : SolitaireState) (fromColumn toColumn cardIndex : Nat) :
    Option SolitaireState :=
  let sourceColumn := s.tableau.getD fromColumn []
  let targetColumn := s.tableau.getD toColumn []
  let cardsToMove := sourceColumn.drop cardIndex
  match cardsToMove with
  | [] => none
  | firstCard :: _ =>
    if !firstCard.faceUp then none
    else if !canMoveToTableau firstCard targetColumn then none
    else
      let newSourceColumn := flipLast (sourceColumn.take cardIndex)
      some { s with
        tableau := (s.tableau.set fromColumn newSourceColumn).set toColumn
          (targetColumn ++ cardsToMove),
        moves := s.moves + 1 }

/-- `moveWasteToTableau` of `solitaire.ts`. -/
def moveWasteToTableau (s : SolitaireState) (toColumn : Nat) : Option SolitaireState :=
  match s.waste.getLast? with
  | none => none
  | some card =>
    let targetColumn := s.tableau.getD toColumn []
    if !canMoveToTableau card targetColumn then none
    else
      some { s with
        tableau := s.tableau.set toColumn (targetColumn ++ [card]),
        waste := s.waste.dropLast,
        moves := s.moves + 1 }

/-- `checkAutoComplete` of `solitaire.ts`. -/
def checkAutoComplete (s : SolitaireState) : Bool :=
  s.tableau.all (fun column => column.all (·.faceUp)) &&
    s.stock.isEmpty && s.waste.isEmpty

/-- One pass of `autoComplete`'s inner `for` loop: the first column 0..6
whose top card moves to a foundation. -/
def tryCols (s : SolitaireState) : List Nat → Option SolitaireState
  | [] => none
  | c :: cs =>
    match moveToFoundation s .tableau (some c) with
    | some s2 => some s2
    | none => tryCols s cs

/-- `autoComplete` of `solitaire.ts`: repeat single foundation moves until
none applies.  The JS `while` terminates because every successful move
shrinks the tableau; the model makes that explicit with fuel (52 always
suffices). -/
def autoComplete : Nat → SolitaireState → SolitaireState
  | 0, s => s
  | fuel + 1, s =>
    match tryCols s (List.range 7) with
    | none => s
    | some s2 => autoComplete fuel s2

/-- Iterated `drawFromStock`. -/
def drawN : Nat → SolitaireState → SolitaireState
  | 0, s => s
  | n + 1, s => drawN n (drawFromStock s)

/-- A concrete Solitaire position: stock exhausted, waste holding three cards
in the order they were drawn (identifier 0 entered the waste first). -/
def solDemoState : SolitaireState :=
  { tableau := [[], [], [], [], [], [], []],
    foundation := [[], [], [], []],
    stock := [],
    waste := [createCard .hearts .N2 0 true, createCard .clubs .N7 1 true,
              createCard .spades .J 2 true],
    moves := 3, isWon := false }

end Solitaire

/-! ## President/"Asshole" engine (second part of `src/lib/games/hearts.ts`,
exported as `asshole.ts`) -/

namespace Asshole

/-- The social ranks of `AssholePlayer.rank`. -/
inductive ARank where
  | president
  | vicePresident
  | neutral
  | viceAsshole
  | asshole
deriving DecidableEq, Repr, Inhabited

/-- `AssholePlayer`. -/
structure AssholePlayer where
  id : String
  name : String
  type : PlayerType
  hand : List Card
  rank : Option ARank
  finishOrder : Option Nat
  hasPassed : Bool
deriving DecidableEq, Repr, Inhabited

/-- President phases. -/
inductive APhase where
  | trading
  | playing
  | roundEnd
  | gameEnd
deriving DecidableEq, Repr, Inhabited

/-- `AssholeState`. -/
structure AssholeState where
  players : List AssholePlayer
  currentPlayerIndex : Nat
  pile : List (List Card)
  lastPlayedBy : Option String
  currentRank : Option Nat
  currentCount : Nat
  consecutivePasses : Nat
  phase : APhase
  roundNumber : Nat
  finishCount : Nat
deriving DecidableEq, Repr, Inhabited

/-- `CARD_RANKS` / `getCardRank`: the President-specific rank hierarchy,
3 lowest through Ace = 14, with 2 highest at 15. -/
def getCardRank (card : Card) : Nat :=
  match card.rank with
  | .N3 => 3
  | .N4 => 4
  | .N5 => 5
  | .N6 => 6
  | .N7 => 7
  | .N8 => 8
  | .N9 => 9
  | .N10 => 10
  | .J => 11
  | .Q => 12
  | .K => 13
  | .A => 14
  | .N2 => 15

/-- `createAssholeGame` applied to an already shuffled deck: each of the `n`
players receives `⌊52/n⌋` cards (consecutive slices of the shuffled deck);
any remainder cards are silently dropped.  The holder of the 3♣ starts. -/
def createAssholeGame (deck : List Card) (playerNames : List String)
    (playerTypes : List PlayerType) : AssholeState :=
  let playerCount := playerNames.length
  let cardsPerPlayer := 52 / playerCount
  let players := playerNames.mapIdx fun index name =>
    { id := s!"player-{index}", name := name,
      type := playerTypes.getD index .computer,
      hand := sortCards (((deck.drop (index * cardsPerPlayer)).take cardsPerPlayer).map
        fun (c : Card) => { c with faceUp := true }),
      rank := none, finishOrder := none, hasPassed := false }
  let starterIndex := players.findIdx? fun p =>
    p.hand.any fun c => decide (c.suit = Suit.clubs) && decide (c.rank = Rank.N3)
  { players := players, currentPlayerIndex := starterIndex.getD 0, pile := [],
    lastPlayedBy := none, currentRank := none, currentCount := 0,
    consecutivePasses := 0, phase := .playing, roundNumber := 1, finishCount := 0 }

/-- `isValidPlay` of the President engine: a nonempty same-rank set of cards
the player holds; anything on an empty pile, otherwise exactly
`currentCount` cards of a rank strictly above `currentRank`. -/
def isValidPlay (s : AssholeState) (playerId : String) (cards : List Card) : Bool :=
  match s.players.find? (fun p => p.id == playerId) with
  | none => false
  | some player =>
    match cards with
    | [] => false
    | c0 :: _ =>
      let rank := getCardRank c0
      if !(cards.all fun c => getCardRank c == rank) then false
      else if !(cards.all fun card => player.hand.any fun h => h.id == card.id) then false
      else
        match s.currentRank with
        | none => true
        | some cr =>
          if cards.length != s.currentCount then false
          else decide (cr < rank)

/-- The bounded scan of `findNextPlayer`: advance cyclically while the
candidate's hand is empty and the attempt budget (`players.length` minus the
attempts made so far, here a structural fuel argument) is not exhausted. -/
def findNextLoop (players : List AssholePlayer) : Nat → Nat → Nat
  | next, 0 => next
  | next, fuel + 1 =>
    if (players.getD next default).hand = [] then
      findNextLoop players ((next + 1) % players.length) fuel
    else next

/-- `findNextPlayer`: the next index (cyclically after `currentIndex`) whose
player still holds cards, scanning at most `players.length` candidates.
`currentIndex` is an `Int` because `pass` calls this with
`lastPlayedIndex - 1`, which JS evaluates with possibly negative
intermediate values. -/
def findNextPlayer (players : List AssholePlayer) (currentIndex : Int) : Nat :=
  findNextLoop players (((currentIndex + 1) % (players.length : Int)).toNat)
    players.length

/-- `playCards` of the President engine. -/
def playCards (s : AssholeState) (playerId : String) (cards : List Card) :
    Option AssholeState :=
  if !isValidPlay s playerId cards then none
  else
    match s.players.findIdx? (fun p => p.id == playerId) with
    | none => none
    | some playerIndex =>
      let player := s.players.getD playerIndex default
      let removed := { player with
        hand := player.hand.filter fun h => !(cards.any fun c => c.id == h.id)
        hasPassed := false }
      let rank := getCardRank (cards.headD default)
      let finished := removed.hand.isEmpty
      let removed2 :=
        if finished then
          let finishOrder := s.finishCount + 1
          let totalPlayers := s.players.length
          let arank : ARank :=
            if finishOrder = 1 then .president
            else if finishOrder = 2 ∧ 4 ≤ totalPlayers then .vicePresident
            else if finishOrder = totalPlayers - 1 ∧ 4 ≤ totalPlayers then .viceAsshole
            else if finishOrder = totalPlayers then .asshole
            else .neutral
          { removed with finishOrder := some finishOrder, rank := some arank }
        else removed
      let newPlayers := s.players.set playerIndex removed2
      let clearedByTwo := rank = 15
      let activePlayers := newPlayers.filter fun p => !p.hand.isEmpty
      if activePlayers.length ≤ 1 then
        let newPlayers2 :=
          match activePlayers with
          | [lastP] =>
            match newPlayers.findIdx? (fun p => p.id == lastP.id) with
            | some li =>
              newPlayers.set li { newPlayers.getD li default with
                finishOrder := some s.players.length, rank := some .asshole }
            | none => newPlayers
          | _ => newPlayers
        some { s with players := newPlayers2, phase := .roundEnd }
      else
        let nextIndex := findNextPlayer newPlayers (playerIndex : Int)
        some { s with
          players := newPlayers
          pile := s.pile ++ [cards]
          lastPlayedBy := some playerId
          currentRank := if clearedByTwo then none else some rank
          currentCount := if clearedByTwo then 0 else cards.length
          consecutivePasses := 0
          currentPlayerIndex := if clearedByTwo then playerIndex else nextIndex
          finishCount := if removed2.hand.isEmpty then s.finishCount + 1 else s.finishCount }

/-- `pass` of the President engine. -/
def pass (s : AssholeState) (playerId : String) : Option AssholeState :=
  match s.players.findIdx? (fun p => p.id == playerId) with
  | none => none
  | some playerIndex =>
    match s.currentRank with
    | none => none
    | some _ =>
      let newPlayers :=
        s.players.set playerIndex { s.players.getD playerIndex default with hasPassed := true }
      let newConsecutivePasses := s.consecutivePasses + 1
      let activePlayers := newPlayers.filter fun p => !p.hand.isEmpty
      if activePlayers.length - 1 ≤ newConsecutivePasses then
        let lastPlayedIndex : Int :=
          match s.lastPlayedBy with
          | none => -1
          | some lpid =>
            match s.players.findIdx? (fun p => p.id == lpid) with
            | some i => (i : Int)
            | none => -1
        let nextIndex := findNextPlayer newPlayers (lastPlayedIndex - 1)
        some { s with
          players := newPlayers.map fun (p : AssholePlayer) => { p with hasPassed := false }
          pile := []
          currentRank := none
          currentCount := 0
          consecutivePasses := 0
          currentPlayerIndex := nextIndex }
      else
        some { s with
          players := newPlayers
          consecutivePasses := newConsecutivePasses
          currentPlayerIndex := findNextPlayer newPlayers (playerIndex : Int) }

/-- `startNewRound` of the President engine with the fresh shuffled deck
passed in; the previous round's Asshole starts, otherwise the 3♣ holder. -/
def startNewRound (s : AssholeState) (deck : List Card) : AssholeState :=
  let playerCount := s.players.length
  let cardsPerPlayer := 52 / playerCount
  let newPlayers : List AssholePlayer := s.players.mapIdx fun index (p : AssholePlayer) =>
    { p with
      hand := sortCards (((deck.drop (index * cardsPerPlayer)).take cardsPerPlayer).map
        fun (c : Card) => { c with faceUp := true })
      finishOrder := none
      hasPassed := false }
  let assholeP := newPlayers.find? fun (p : AssholePlayer) => p.rank == some ARank.asshole
  let starterIndex :=
    match assholeP with
    | some ap => newPlayers.findIdx? fun (p : AssholePlayer) => p.id == ap.id
    | none => newPlayers.findIdx? fun (p : AssholePlayer) =>
        p.hand.any fun c => decide (c.suit = Suit.clubs) && decide (c.rank = Rank.N3)
  { s with players := newPlayers, currentPlayerIndex := starterIndex.getD 0,
           pile := [], lastPlayedBy := none, currentRank := none, currentCount := 0,
           consecutivePasses := 0, phase := .playing,
           roundNumber := s.roundNumber + 1, finishCount := 0 }

/-- The backtracking `combine` of `getCombinations`: all selections of `k`
cards in index order. -/
def chooseK : Nat → List Card → List (List Card)
  | 0, _ => [[]]
  | _ + 1, [] => []
  | k + 1, c :: cs => (chooseK k cs).map (fun t => c :: t) ++ chooseK (k + 1) cs

/-- `getCombinations` of the President engine, with its three short-circuit
branches ahead of the general backtracking search. -/
def getCombinations (cards : List Card) (k : Nat) : List (List Card) :=
  if cards.length < k then []
  else if k = cards.length then [cards]
  else if k = 1 then cards.map fun c => [c]
  else chooseK k cards

/-- Key insertion for the `Map<number, Card[]>` grouping of `getValidPlays`:
JS `Map` iterates keys in insertion order, i.e. first-occurrence order. -/
def insertKey (ks : List Nat) (r : Nat) : List Nat :=
  if ks.contains r then ks else ks ++ [r]

/-- The key list of the rank grouping, in first-occurrence order. -/
def rankKeys (hand : List Card) : List Nat :=
  hand.foldl (fun ks c => insertKey ks (getCardRank c)) []

/-- `getValidPlays` of the President engine: group the hand by rank, then on
an empty pile every combination of every size from each group, otherwise the
`currentCount`-sized combinations of each strictly higher rank group. -/
def getValidPlays (s : AssholeState) (playerId : String) : List (List Card) :=
  match s.players.find? (fun p => p.id == playerId) with
  | none => []
  | some player =>
    let hand := player.hand
    (rankKeys hand).flatMap fun r =>
      let cards := hand.filter fun c => getCardRank c == r
      match s.currentRank with
      | none => (List.range cards.length).flatMap fun i => getCombinations cards (i + 1)
      | some cr =>
        if cr < r ∧ s.currentCount ≤ cards.length then getCombinations cards s.currentCount
        else []

/-- Four 3s — all four cards of one rank, none of them a 2. -/
def fourThrees : List Card :=
  [createCard .clubs .N3 0 true, createCard .diamonds .N3 1 true,
   createCard .hearts .N3 2 true, createCard .spades .N3 3 true]

/-- A three-player President position with an empty pile: player-0 holds all
four 3s plus a 5, the others hold one card each. -/
def asDemo1 : AssholeState :=
  { players :=
      [{ id := "player-0", name := "P0", type := .human,
         hand := fourThrees ++ [createCard .clubs .N5 4 true],
         rank := none, finishOrder := none, hasPassed := false },
       { id := "player-1", name := "P1", type := .computer,
         hand := [createCard .diamonds .N7 5 true],
         rank := none, finishOrder := none, hasPassed := false },
       { id := "player-2", name := "P2", type := .computer,
         hand := [createCard .diamonds .N8 6 true],
         rank := none, finishOrder := none, hasPassed := false }],
    currentPlayerIndex := 0, pile := [], lastPlayedBy := none, currentRank := none,
    currentCount := 0, consecutivePasses := 0, phase := .playing,
    roundNumber := 1, finishCount := 0 }

/-- A one-player President position with an empty pile and a hand holding a
pair of 3s and a 5. -/
def asDemo2 : AssholeState :=
  { players :=
      [{ id := "player-0", name := "P0", type := .human,
         hand := [createCard .clubs .N3 0 true, createCard .diamonds .N3 1 true,
                  createCard .spades .N5 2 true],
         rank := none, finishOrder := none, hasPassed := false }],
    currentPlayerIndex := 0, pile := [], lastPlayedBy := none, currentRank := none,
    currentCount := 0, consecutivePasses := 0, phase := .playing,
    roundNumber := 1, finishCount := 0 }

/-- A degenerate President state whose `currentRank` is set while
`currentCount` is `0` — a combination no reachable game state exhibits. -/
def asDemo3 : AssholeState :=
  { players :=
      [{ id := "player-0", name := "P0", type := .human,
         hand := [createCard .clubs .N4 0 true],
         rank := none, finishOrder := none, hasPassed := false }],
    currentPlayerIndex := 0, pile := [], lastPlayedBy := none, currentRank := some 3,
    currentCount := 0, consecutivePasses := 0, phase := .playing,
    roundNumber := 1, finishCount := 0 }

end Asshole

/-! ## Hearts engine (first part of `src/lib/games/hearts.ts`) -/

namespace Hearts

/-- `HeartsPlayer`. -/
structure HeartsPlayer where
  id : String
  name : String
  type : PlayerType
  hand : List Card
  tricks : List (List Card)
  score : Nat
  roundScore : Nat
  passedCards : List Card
  receivedCards : List Card
deriving DecidableEq, Repr, Inhabited

/-- Hearts phases. -/
inductive HPhase where
  | passing
  | playing
  | roundEnd
  | gameEnd
deriving DecidableEq, Repr, Inhabited

/-- Passing directions. -/
inductive PassDirection where
  | left
  | right
  | across
  | none
deriving DecidableEq, Repr, Inhabited

/-- One entry of `currentTrick`: `{ playerId, card }`. -/
structure TrickEntry where
  playerId : String
  card : Card
deriving DecidableEq, Repr, Inhabited

/-- `HeartsState`. -/
structure HeartsState where
  players : List HeartsPlayer
  currentPlayerIndex : Nat
  currentTrick : List TrickEntry
  leadSuit : Option Suit
  heartsBroken : Bool
  phase : HPhase
  passDirection : PassDirection
  roundNumber : Nat
  gameScore : Nat
deriving DecidableEq, Repr, Inhabited

/-- `PASS_DIRECTIONS`. -/
def PASS_DIRECTIONS : List PassDirection := [.left, .right, .across, .none]

/-- `findTwoOfClubs`: index of the player holding the 2♣ (0 if none). -/
def findTwoOfClubs (players : List HeartsPlayer) : Nat :=
  (players.findIdx? fun p =>
    p.hand.any fun c => decide (c.suit = Suit.clubs) && decide (c.rank = Rank.N2)).getD 0

/-- `createHeartsGame` applied to an already shuffled deck: exactly four
players (the code indexes `players[0..3]` unconditionally, so callers supply
at least four names), 13 sorted face-up cards each. -/
def createHeartsGame (deck : List Card) (playerNames : List String)
    (playerTypes : List PlayerType) : HeartsState :=
  let players : List HeartsPlayer := (playerNames.take 4).mapIdx fun index name =>
    { id := s!"player-{index}", name := name,
      type := playerTypes.getD index .computer,
      hand := sortCards (((deck.drop (index * 13)).take 13).map
        fun (c : Card) => { c with faceUp := true }),
      tricks := [], score := 0, roundScore := 0, passedCards := [], receivedCards := [] }
  { players := players, currentPlayerIndex := findTwoOfClubs players,
    currentTrick := [], leadSuit := none, heartsBroken := false,
    phase := .passing, passDirection := .left, roundNumber := 1, gameScore := 100 }

/-- `passCards`: a player selects exactly three of their cards to pass. -/
def passCards (s : HeartsState) (playerId : String) (cards : List Card) :
    Option HeartsState :=
  if cards.length ≠ 3 then none
  else if s.passDirection = .none then none
  else
    match s.players.findIdx? (fun p => p.id == playerId) with
    | none => none
    | some playerIndex =>
      let player := s.players.getD playerIndex default
      if !(cards.all fun card => player.hand.any fun h => h.id == card.id) then none
      else
        let p2 := { player with
          passedCards := cards
          hand := player.hand.filter fun h => !(cards.any fun c => c.id == h.id) }
        some { s with players := s.players.set playerIndex p2 }

/-- The per-direction target index of the pass redistribution loop. -/
def passTarget (dir : PassDirection) (i : Nat) : Nat :=
  match dir with
  | .left => (i + 1) % 4
  | .right => (i + 3) % 4
  | .across => (i + 2) % 4
  | .none => i

/-- `executePassPhase`: once all four players have selected three cards,
redistribute them (reading each source's `passedCards` from the pre-pass
state, exactly like the JS loop over `state.players[i]`), then clear
`passedCards`, enter play with the 2♣ holder leading. -/
def executePassPhase (s : HeartsState) : HeartsState :=
  if !(s.players.all fun p => p.passedCards.length == 3) then s
  else
    let np1 := (List.range 4).foldl (fun acc i =>
      let t := passTarget s.passDirection i
      acc.set t
        { acc.getD t default with
          receivedCards := (s.players.getD i default).passedCards
          hand := sortCards ((acc.getD t default).hand ++
            (s.players.getD i default).passedCards) }) s.players
    let np2 := (List.range 4).foldl (fun acc i =>
      acc.set i { acc.getD i default with passedCards := [] }) np1
    { s with players := np2, phase := .playing,
             currentPlayerIndex := findTwoOfClubs np2 }

/-- `isValidPlay` of the Hearts engine.  The TS source re-computes
`isFirstTrick` (identically) inside the first-trick branch; the redundant
duplicate check is collapsed here. -/
def isValidPlay (s : HeartsState) (playerId : String) (card : Card) : Bool :=
  match s.players.findIdx? (fun p => p.id == playerId) with
  | none => false
  | some playerIndex =>
    let player := s.players.getD playerIndex default
    if !(player.hand.any fun h => h.id == card.id) then false
    else if s.currentTrick.isEmpty && s.roundNumber == 1 &&
        (s.players.all fun p => p.tricks.isEmpty) &&
        !(decide (card.suit = Suit.clubs) && decide (card.rank = Rank.N2)) &&
        (player.hand.any fun c =>
          decide (c.suit = Suit.clubs) && decide (c.rank = Rank.N2)) then false
    else if (match s.leadSuit with
        | Option.none => false
        | Option.some ls => decide (card.suit ≠ ls) &&
            player.hand.any fun c => decide (c.suit = ls)) then false
    else if s.currentTrick.isEmpty && decide (card.suit = Suit.hearts) &&
        !s.heartsBroken &&
        (player.hand.any fun c => decide (c.suit ≠ Suit.hearts)) then false
    else if (s.players.all fun p => p.tricks.isEmpty) &&
        (decide (card.suit = Suit.hearts) ||
          (decide (card.suit = Suit.spades) && decide (card.rank = Rank.Q))) &&
        (player.hand.any fun c => decide (c.suit ≠ Suit.hearts) &&
          !(decide (c.suit = Suit.spades) && decide (c.rank = Rank.Q))) then false
    else true

/-- `calculateTrickPoints`: one per heart, thirteen for the Q♠. -/
def calculateTrickPoints (cards : List Card) : Nat :=
  cards.foldl (fun points card =>
    if card.suit = Suit.hearts then points + 1
    else if card.suit = Suit.spades ∧ card.rank = Rank.Q then points + 13
    else points) 0

/-- The winner-finding scan of `completeTrick`: running `(winnerIndex,
highestValue)` over the trick, updated on a strictly higher card of the lead
suit (`highestValue` starts at 0, `winnerIndex` at 0). -/
def trickScan : List TrickEntry → Suit → Nat → Nat → Nat → Nat × Nat
  | [], _, _, wIdx, hv => (wIdx, hv)
  | e :: rest, lead, i, wIdx, hv =>
    if e.card.suit = lead ∧ hv < e.card.value then
      trickScan rest lead (i + 1) i e.card.value
    else trickScan rest lead (i + 1) wIdx hv

/-- The trick winner: index of the highest lead-suit card (first one on
value ties, index 0 when no lead-suit card has positive value). -/
def trickWinnerIdx (trick : List TrickEntry) (leadSuit : Suit) : Nat :=
  (trickScan trick leadSuit 0 0 0).1

/-- `startNewRound` of the Hearts engine (fresh shuffled deck passed in):
13 sorted cards each (face-up only for humans), pass direction cycling
left → right → across → none by round number. -/
def startNewRound (s : HeartsState) (deck : List Card) : HeartsState :=
  let newPlayers : List HeartsPlayer := s.players.mapIdx fun index (p : HeartsPlayer) =>
    { p with
      hand := sortCards (((deck.drop (index * 13)).take 13).map
        fun (c : Card) => { c with faceUp := p.type = .human })
      tricks := []
      roundScore := 0
      passedCards := []
      receivedCards := [] }
  let dir := PASS_DIRECTIONS.getD (s.roundNumber % 4) .none
  { s with players := newPlayers, currentTrick := [], leadSuit := Option.none,
           heartsBroken := false,
           phase := if dir = .none then .playing else .passing,
           passDirection := dir, roundNumber := s.roundNumber + 1,
           currentPlayerIndex := findTwoOfClubs newPlayers }

/-- `completeRound`: "shooting the moon" hands 26 to everyone but the
shooter (matched by id); otherwise round scores are added.  Then either the
game ends (someone reached `gameScore`) or a fresh round is dealt from
`freshDeck`. -/
def completeRound (s : HeartsState) (freshDeck : List Card) : HeartsState :=
  let moonShooter := s.players.find? fun p => p.roundScore == 26
  let newPlayers := match moonShooter with
    | Option.some shooter =>
      s.players.map fun (p : HeartsPlayer) =>
        if p.id = shooter.id then { p with score := p.score + 0 }
        else { p with score := p.score + 26 }
    | Option.none =>
      s.players.map fun (p : HeartsPlayer) => { p with score := p.score + p.roundScore }
  let maxScore := (newPlayers.map (·.score)).foldl max 0
  if s.gameScore ≤ maxScore then
    { s with players := newPlayers, phase := .gameEnd }
  else
    startNewRound { s with players := newPlayers } freshDeck

/-- `completeTrick`: credit the trick to the winner, then finish the round
when all hands are empty, else the winner leads next.  The JS non-null
assertion on `leadSuit` is modelled by returning the state unchanged on
`none` (unreachable from `playCard`); likewise a `winnerId` not among the
players (JS would write to array index `-1`) cannot arise because every
trick entry's `playerId` came from a successful player lookup, and is
modelled by crediting index 0. -/
def completeTrick (s : HeartsState) (freshDeck : List Card) : HeartsState :=
  match s.leadSuit with
  | Option.none => s
  | Option.some leadSuit =>
    let winnerIndex := trickWinnerIdx s.currentTrick leadSuit
    let winnerId := (s.currentTrick.getD winnerIndex default).playerId
    let winnerPlayerIndex := (s.players.findIdx? (fun p => p.id == winnerId)).getD 0
    let trickCards := s.currentTrick.map (·.card)
    let wp := s.players.getD winnerPlayerIndex default
    let newPlayers := s.players.set winnerPlayerIndex
      { wp with
        tricks := wp.tricks ++ [trickCards]
        roundScore := wp.roundScore + calculateTrickPoints trickCards }
    if newPlayers.all (fun p => p.hand.isEmpty) then
      completeRound { s with players := newPlayers } freshDeck
    else
      { s with players := newPlayers, currentTrick := [], leadSuit := Option.none,
               currentPlayerIndex := winnerPlayerIndex }

/-- `playCard`: remove the card from the hand, extend the trick, track lead
suit and hearts-broken, and complete the trick after the fourth card.
`freshDeck` feeds the deal of the next round in case this play finishes the
round without ending the game. -/
def playCard (s : HeartsState) (playerId : String) (card : Card)
    (freshDeck : List Card) : Option HeartsState :=
  if !isValidPlay s playerId card then none
  else
    match s.players.findIdx? (fun p => p.id == playerId) with
    | Option.none => none
    | Option.some playerIndex =>
      let player := s.players.getD playerIndex default
      let newPlayers := s.players.set playerIndex
        { player with hand := player.hand.filter fun h => !(h.id == card.id) }
      let newTrick := s.currentTrick ++ [{ playerId := playerId, card := card }]
      let newLeadSuit := if newTrick.length = 1 then Option.some card.suit else s.leadSuit
      let broken := if card.suit = Suit.hearts then true else s.heartsBroken
      if newTrick.length = 4 then
        some (completeTrick
          { s with players := newPlayers, currentTrick := newTrick,
                   leadSuit := newLeadSuit, heartsBroken := broken } freshDeck)
      else
        some { s with players := newPlayers, currentTrick := newTrick,
                      leadSuit := newLeadSuit, heartsBroken := broken,
                      currentPlayerIndex := (playerIndex + 1) % 4 }

/-- A completed concrete trick, all clubs, led by an Ace of clubs. -/
def aceTrickDemo : List TrickEntry :=
  [{ playerId := "player-0", card := createCard .clubs .A 0 true },
   { playerId := "player-1", card := createCard .clubs .N5 1 true },
   { playerId := "player-2", card := createCard .clubs .K 2 true },
   { playerId := "player-3", card := createCard .clubs .N9 3 true }]

/-- A concrete end-of-round Hearts position: player-0 shot the moon
(roundScore 26), everyone else took nothing. -/
def moonDemo : HeartsState :=
  { players :=
      [{ id := "player-0", name := "P0", type := .human, hand := [], tricks := [],
         score := 10, roundScore := 26, passedCards := [], receivedCards := [] },
       { id := "player-1", name := "P1", type := .computer, hand := [], tricks := [],
         score := 20, roundScore := 0, passedCards := [], receivedCards := [] },
       { id := "player-2", name := "P2", type := .computer, hand := [], tricks := [],
         score := 30, roundScore := 0, passedCards := [], receivedCards := [] },
       { id := "player-3", name := "P3", type := .computer, hand := [], tricks := [],
         score := 40, roundScore := 0, passedCards := [], receivedCards := [] }],
    currentPlayerIndex := 0, currentTrick := [], leadSuit := Option.none,
    heartsBroken := true, phase := .playing, passDirection := .left,
    roundNumber := 1, gameScore := 100 }

end Hearts

/-! ## Texas Hold'em engine (third part of `src/lib/games/hearts.ts`) -/

namespace Poker

/-- `PokerPlayer`. -/
structure PokerPlayer where
  id : String
  name : String
  type : PlayerType
  hand : List Card
  chips : Int
  currentBet : Int
  totalBet : Int
  hasFolded : Bool
  hasActed : Bool
  isAllIn : Bool
  isDealer : Bool
deriving DecidableEq, Repr, Inhabited

/-- Poker phases. -/
inductive PPhase where
  | preflop
  | flop
  | turn
  | river
  | showdown
  | finished
deriving DecidableEq, Repr, Inhabited

/-- One entry of the optional `winners` array. -/
structure Winner where
  playerId : String
  amount : Int
  hand : String
deriving DecidableEq, Repr, Inhabited

/-- `HandRank`. -/
inductive HandRank where
  | highCard
  | pair
  | twoPair
  | threeOfAKind
  | straight
  | flush
  | fullHouse
  | fourOfAKind
  | straightFlush
  | royalFlush
deriving DecidableEq, Repr, Inhabited

/-- `HAND_RANK_VALUES`. -/
def HAND_RANK_VALUES : HandRank → Nat
  | .highCard => 1
  | .pair => 2
  | .twoPair => 3
  | .threeOfAKind => 4
  | .straight => 5
  | .flush => 6
  | .fullHouse => 7
  | .fourOfAKind => 8
  | .straightFlush => 9
  | .royalFlush => 10

/-- The UI description attached to each rank by `evaluateFiveCards`. -/
def rankDescription : HandRank → String
  | .highCard => "High Card"
  | .pair => "Pair"
  | .twoPair => "Two Pair"
  | .threeOfAKind => "Three of a Kind"
  | .straight => "Straight"
  | .flush => "Flush"
  | .fullHouse => "Full House"
  | .fourOfAKind => "Four of a Kind"
  | .straightFlush => "Straight Flush"
  | .royalFlush => "Royal Flush"

/-- `HandEvaluation`. -/
structure HandEvaluation where
  rank : HandRank
  rankValue : Nat
  cards : List Card
  description : String
deriving DecidableEq, Repr, Inhabited

/-- `PokerState`. `sidePots` entries are `{ amount, playerIds }` pairs; the
engine only ever creates the empty array. Chip quantities are `Int`, as JS
numbers may go negative through the unguarded arithmetic. -/
structure PokerState where
  deck : List Card
  players : List PokerPlayer
  communityCards : List Card
  pot : Int
  sidePots : List (Int × List String)
  currentBet : Int
  dealerIndex : Nat
  currentPlayerIndex : Nat
  phase : PPhase
  smallBlind : Int
  bigBlind : Int
  minRaise : Int
  roundNumber : Nat
  winners : Option (List Winner)
deriving DecidableEq, Repr, Inhabited

/-- `createPokerGame` applied to an already shuffled deck (the source shuffles
internally; shuffling is modelled by quantifying over permutations of
`createDeck`). The source's default arguments are passed explicitly. -/
def createPokerGame (deck : List Card) (playerNames : List String)
    (playerTypes : List PlayerType) (startingChips smallBlind bigBlind : Int) :
    PokerState :=
  let players : List PokerPlayer := playerNames.mapIdx fun index name =>
    { id := s!"player-{index}", name := name,
      type := playerTypes.getD index .computer,
      hand := [], chips := startingChips, currentBet := 0, totalBet := 0,
      hasFolded := false, hasActed := false, isAllIn := false,
      isDealer := index == 0 }
  { deck := deck, players := players, communityCards := [], pot := 0,
    sidePots := [], currentBet := bigBlind, dealerIndex := 0,
    currentPlayerIndex := (if players.length > 2 then 3 else 0) % players.length,
    phase := .preflop, smallBlind := smallBlind, bigBlind := bigBlind,
    minRaise := bigBlind, roundNumber := 1, winners := none }

/-- `postBlinds`. The JS object literals read the pre-assignment player, so
each `isAllIn` compares the pre-deduction chip count with the blind, and the
big blind is read from the array already updated with the small blind. -/
def postBlinds (s : PokerState) : PokerState :=
  let n := s.players.length
  let smallBlindIndex := (s.dealerIndex + 1) % n
  let bigBlindIndex := (s.dealerIndex + 2) % n
  let sbPlayer := s.players.getD smallBlindIndex default
  let sbAmount := min s.smallBlind sbPlayer.chips
  let players1 := s.players.set smallBlindIndex
    { sbPlayer with
      chips := sbPlayer.chips - sbAmount
      currentBet := sbAmount
      totalBet := sbAmount
      isAllIn := sbPlayer.chips == sbAmount }
  let bbPlayer := players1.getD bigBlindIndex default
  let bbAmount := min s.bigBlind bbPlayer.chips
  let players2 := players1.set bigBlindIndex
    { bbPlayer with
      chips := bbPlayer.chips - bbAmount
      currentBet := bbAmount
      totalBet := bbAmount
      isAllIn := bbPlayer.chips == bbAmount }
  { s with players := players2, pot := sbAmount + bbAmount, currentBet := bbAmount }

/-- One step of the `dealHoleCards` loop: draw two cards for player `i`. -/
def dealHole2 (acc : List Card × List PokerPlayer) (i : Nat) :
    List Card × List PokerPlayer :=
  let p := acc.2.getD i default
  ((drawCards acc.1 2).2,
   acc.2.set i { p with
     hand := (drawCards acc.1 2).1.map fun (c : Card) =>
       { c with faceUp := p.type == PlayerType.human } })

/-- `dealHoleCards`. -/
def dealHoleCards (s : PokerState) : PokerState :=
  let res := (List.range s.players.length).foldl dealHole2 (s.deck, s.players)
  { s with deck := res.1, players := res.2 }

/-- Stable insertion for the descending-by-value sort
`[...cards].sort((a, b) => b.value - a.value)` of `evaluateFiveCards`:
a card is placed before the first strictly smaller value, so equal values
keep their original relative order exactly as in the JS stable sort. -/
def insertDesc (c : Card) : List Card → List Card
  | [] => [c]
  | d :: ds => if d.value ≤ c.value then c :: d :: ds else d :: insertDesc c ds

/-- The descending-by-value stable sort of `evaluateFiveCards`. -/
def sortByValueDesc (cards : List Card) : List Card :=
  cards.foldr insertDesc []

/-- `checkStraight` on the descending value list: the Ace-high straight
`[13,12,11,10,1]`, the Ace-low straight `[5,4,3,2,1]`, else four consecutive
descending differences of exactly 1 (computed in `Int` as in JS; an absent
index yields `false` either way, as NaN comparisons do). -/
def checkStraight (values : List Nat) : Bool :=
  if values.getD 0 0 == 13 && values.getD 1 0 == 12 && values.getD 2 0 == 11 &&
      values.getD 3 0 == 10 && values.getD 4 0 == 1 then true
  else if values.getD 0 0 == 5 && values.getD 1 0 == 4 && values.getD 2 0 == 3 &&
      values.getD 3 0 == 2 && values.getD 4 0 == 1 then true
  else
    (List.range 4).all fun i =>
      (values.getD i 0 : Int) - (values.getD (i + 1) 0 : Int) == 1

/-- Distinct values in order of first appearance: the key set of the
`getValueCounts` record. The subsequent sort is by count alone and counts are
bare numbers, so the enumeration order of the keys cannot affect the sorted
count list below. -/
def distinctVals (values : List Nat) : List Nat :=
  values.foldl (fun ks v => if ks.contains v then ks else ks ++ [v]) []

/-- Stable descending insertion on naturals, for
`Object.values(...).sort((a, b) => b - a)`. -/
def insertNatDesc (c : Nat) : List Nat → List Nat
  | [] => [c]
  | d :: ds => if d ≤ c then c :: d :: ds else d :: insertNatDesc c ds

/-- `Object.values(getValueCounts(values)).sort((a, b) => b - a)`: per-value
multiplicities in descending order. -/
def sortedCounts (values : List Nat) : List Nat :=
  ((distinctVals values).map fun v => values.count v).foldr insertNatDesc []

/-- `evaluateFiveCards`. -/
def evaluateFiveCards (cards : List Card) : HandEvaluation :=
  let sorted := sortByValueDesc cards
  let values := sorted.map (·.value)
  let suits := sorted.map (·.suit)
  let isFlush := suits.all fun su => su == suits.getD 0 default
  let isStraight := checkStraight values
  let isRoyal := isStraight && values.getD 0 0 == 13 && values.getD 4 0 == 1 &&
    values.getD 1 0 == 12
  let counts := sortedCounts values
  let rank : HandRank :=
    if isRoyal && isFlush then .royalFlush
    else if isStraight && isFlush then .straightFlush
    else if counts.getD 0 0 == 4 then .fourOfAKind
    else if counts.getD 0 0 == 3 && counts.getD 1 0 == 2 then .fullHouse
    else if isFlush then .flush
    else if isStraight then .straight
    else if counts.getD 0 0 == 3 then .threeOfAKind
    else if counts.getD 0 0 == 2 && counts.getD 1 0 == 2 then .twoPair
    else if counts.getD 0 0 == 2 then .pair
    else .highCard
  { rank := rank, rankValue := HAND_RANK_VALUES rank, cards := sorted,
    description := rankDescription rank }

/-- The depth-first `getCombinations` of the poker evaluator (`(cards, k)` in
the source, `k` first here for structural recursion): all `k`-element
subsequences in depth-first index order. -/
def getCombinations : Nat → List Card → List (List Card)
  | 0, _ => [[]]
  | _ + 1, [] => []
  | k + 1, c :: cs => (getCombinations k cs).map (c :: ·) ++ getCombinations (k + 1) cs

/-- The kicker loop of `compareHands` (`for i in 0..4`; the first differing
`cards[i].value` decides). On the five-card evaluations produced by
`evaluateFiveCards` every index is in range; `getD default` stands for the
out-of-range access that would throw in JS. -/
def compareKickers (a b : List Card) : Int :=
  if (a.getD 0 default).value ≠ (b.getD 0 default).value then
    ((a.getD 0 default).value : Int) - ((b.getD 0 default).value : Int)
  else if (a.getD 1 default).value ≠ (b.getD 1 default).value then
    ((a.getD 1 default).value : Int) - ((b.getD 1 default).value : Int)
  else if (a.getD 2 default).value ≠ (b.getD 2 default).value then
    ((a.getD 2 default).value : Int) - ((b.getD 2 default).value : Int)
  else if (a.getD 3 default).value ≠ (b.getD 3 default).value then
    ((a.getD 3 default).value : Int) - ((b.getD 3 default).value : Int)
  else if (a.getD 4 default).value ≠ (b.getD 4 default).value then
    ((a.getD 4 default).value : Int) - ((b.getD 4 default).value : Int)
  else 0

/-- `compareHands`: category value first, then the kicker loop. -/
def compareHands (a b : HandEvaluation) : Int :=
  if a.rankValue ≠ b.rankValue then (a.rankValue : Int) - (b.rankValue : Int)
  else compareKickers a.cards b.cards

/-- `evaluateHand`: best five-card combination of hole plus community cards;
`none` when fewer than five cards are available (where the source's non-null
assertion `best!` would crash downstream). -/
def evaluateHand (holeCards communityCards : List Card) : Option HandEvaluation :=
  (getCombinations 5 (holeCards ++ communityCards)).foldl
    (fun best combo =>
      match best with
      | none => some (evaluateFiveCards combo)
      | some b =>
        if 0 < compareHands (evaluateFiveCards combo) b then
          some (evaluateFiveCards combo)
        else some b)
    none

/-- Stable insertion for
`evaluations.sort((a, b) => compareHands(b.hand, a.hand))`
(strongest hand first, ties in original order). -/
def insertEval (x : PokerPlayer × HandEvaluation) :
    List (PokerPlayer × HandEvaluation) → List (PokerPlayer × HandEvaluation)
  | [] => [x]
  | y :: ys => if compareHands y.2 x.2 ≤ 0 then x :: y :: ys else y :: insertEval x ys

/-- `determineWinner`. At showdown at least one player has not folded, so the
evaluation list is nonempty (`getD default` is the unreachable fallback) and
`winners.length` is positive; `Int.fdiv` is `Math.floor` division. -/
def determineWinner (s : PokerState) : PokerState :=
  let activePlayers := s.players.filter fun p => !p.hasFolded
  let evaluations : List (PokerPlayer × HandEvaluation) := activePlayers.map fun p =>
    (p, (evaluateHand p.hand s.communityCards).getD default)
  let sortedEvals := evaluations.foldr insertEval []
  let bestHand := (sortedEvals.getD 0 default).2
  let winners := sortedEvals.filter fun e => compareHands e.2 bestHand == 0
  let winAmount := Int.fdiv s.pot winners.length
  { s with
    phase := .finished
    winners := some (winners.map fun w => ⟨w.1.id, winAmount, w.2.description⟩)
    players := s.players.map fun p =>
      { p with
        chips := p.chips + (if winners.any fun w => w.1.id == p.id then winAmount else 0)
        hand := p.hand.map fun (c : Card) => { c with faceUp := true } } }

/-- The first-to-act scan of `advancePhase` (`while` over folded/all-in
players, no break): fuel-bounded; when every player is folded or all-in the
source loops forever, modelled by fuel exhaustion returning the current
index. -/
def firstActorLoop (players : List PokerPlayer) : Nat → Nat → Nat
  | idx, 0 => idx
  | idx, fuel + 1 =>
    if (players.getD idx default).hasFolded || (players.getD idx default).isAllIn then
      firstActorLoop players ((idx + 1) % players.length) fuel
    else idx

/-- `advancePhase`: reset bets, deal the community cards for the next street
(the flop replaces `communityCards`, turn and river append one card), find
the first active player after the dealer, and run the showdown when the
river was complete. An empty deck deals nothing where JS would crash
spreading `undefined`. -/
def advancePhase (s : PokerState) : PokerState :=
  let newPlayers := s.players.map fun p =>
    { p with currentBet := 0, hasActed := p.hasFolded || p.isAllIn }
  let step : List Card × List Card × PPhase :=
    match s.phase with
    | .preflop =>
      ⟨(drawCards s.deck 3).2,
       (drawCards s.deck 3).1.map (fun (c : Card) => { c with faceUp := true }),
       .flop⟩
    | .flop =>
      ⟨(drawCards s.deck 1).2,
       s.communityCards ++
         (drawCards s.deck 1).1.map (fun (c : Card) => { c with faceUp := true }),
       .turn⟩
    | .turn =>
      ⟨(drawCards s.deck 1).2,
       s.communityCards ++
         (drawCards s.deck 1).1.map (fun (c : Card) => { c with faceUp := true }),
       .river⟩
    | .river => ⟨s.deck, s.communityCards, .showdown⟩
    | ph => ⟨s.deck, s.communityCards, ph⟩
  let newState : PokerState := { s with
    deck := step.1
    communityCards := step.2.1
    phase := step.2.2
    players := newPlayers
    currentBet := 0
    currentPlayerIndex :=
      firstActorLoop newPlayers ((s.dealerIndex + 1) % newPlayers.length)
        newPlayers.length }
  if step.2.2 = .showdown then determineWinner newState else newState

/-- The next-to-act scan of `advanceAction` (`while` loop that breaks when
the wrap-around reaches the current player again); the break can fire at
most once per full cycle, so fuel `players.length` is exact. -/
def nextActorLoop (players : List PokerPlayer) (stop : Nat) : Nat → Nat → Nat
  | next, 0 => next
  | next, fuel + 1 =>
    if (players.getD next default).hasFolded || (players.getD next default).isAllIn then
      let n2 := (next + 1) % players.length
      if n2 == stop then n2 else nextActorLoop players stop n2 fuel
    else next

/-- `advanceAction`: when exactly one player has not folded the hand jumps to
`showdown` with a pot-sized `winners` entry — and, unlike `determineWinner`,
credits no chips; otherwise a complete betting round advances the phase, and
otherwise the turn moves to the next active player. -/
def advanceAction (s : PokerState) : PokerState :=
  let activePlayers := s.players.filter fun p => !p.hasFolded && !p.isAllIn
  let nonFoldedPlayers := s.players.filter fun p => !p.hasFolded
  if nonFoldedPlayers.length == 1 then
    { s with
      phase := .showdown
      winners := some [⟨(nonFoldedPlayers.getD 0 default).id, s.pot,
        "Last player standing"⟩] }
  else if activePlayers.length == 0 ||
      activePlayers.all fun p => p.hasActed && p.currentBet == s.currentBet then
    advancePhase s
  else
    { s with currentPlayerIndex :=
        (nextActorLoop s.players s.currentPlayerIndex
          ((s.currentPlayerIndex + 1) % s.players.length) s.players.length) }

/-- `fold`. -/
def fold (s : PokerState) (playerId : String) : Option PokerState :=
  match s.players.findIdx? (fun p => p.id == playerId) with
  | none => none
  | some playerIndex =>
    let p := s.players.getD playerIndex default
    some (advanceAction { s with
      players := s.players.set playerIndex
        { p with hasFolded := true, hasActed := true } })

/-- `call`. -/
def call (s : PokerState) (playerId : String) : Option PokerState :=
  match s.players.findIdx? (fun p => p.id == playerId) with
  | none => none
  | some playerIndex =>
    let player := s.players.getD playerIndex default
    let callAmount := min (s.currentBet - player.currentBet) player.chips
    some (advanceAction { s with
      players := s.players.set playerIndex { player with
        chips := player.chips - callAmount
        currentBet := player.currentBet + callAmount
        totalBet := player.totalBet + callAmount
        hasActed := true
        isAllIn := player.chips == callAmount }
      pot := s.pot + callAmount })

/-- `raise`. -/
def raise (s : PokerState) (playerId : String) (raiseAmount : Int) :
    Option PokerState :=
  match s.players.findIdx? (fun p => p.id == playerId) with
  | none => none
  | some playerIndex =>
    let player := s.players.getD playerIndex default
    let totalBetNeeded := s.currentBet + raiseAmount
    let amountToAdd := totalBetNeeded - player.currentBet
    if player.chips < amountToAdd then none
    else if raiseAmount < s.minRaise ∧ amountToAdd ≠ player.chips then none
    else
      let newPlayers : List PokerPlayer := s.players.mapIdx fun i p =>
        if i == playerIndex then
          { p with
            chips := p.chips - amountToAdd
            currentBet := totalBetNeeded
            totalBet := p.totalBet + amountToAdd
            hasActed := true
            isAllIn := p.chips == amountToAdd }
        else { p with hasActed := p.hasFolded || p.isAllIn }
      some (advanceAction { s with
        players := newPlayers
        pot := s.pot + amountToAdd
        currentBet := totalBetNeeded
        minRaise := raiseAmount })

/-- `check`. -/
def check (s : PokerState) (playerId : String) : Option PokerState :=
  match s.players.findIdx? (fun p => p.id == playerId) with
  | none => none
  | some playerIndex =>
    let player := s.players.getD playerIndex default
    if player.currentBet ≠ s.currentBet then none
    else
      some (advanceAction { s with
        players := s.players.set playerIndex { player with hasActed := true } })

/-- `allIn`. -/
def allIn (s : PokerState) (playerId : String) : Option PokerState :=
  match s.players.findIdx? (fun p => p.id == playerId) with
  | none => none
  | some playerIndex =>
    let player := s.players.getD playerIndex default
    let allInAmount := player.chips
    let newBet := player.currentBet + allInAmount
    let isRaise : Bool := decide (s.currentBet < newBet)
    let newPlayers : List PokerPlayer := s.players.mapIdx fun i p =>
      if i == playerIndex then
        { p with
          chips := 0
          currentBet := newBet
          totalBet := p.totalBet + allInAmount
          hasActed := true
          isAllIn := true }
      else if isRaise && !p.hasFolded && !p.isAllIn then
        { p with hasActed := false }
      else p
    some (advanceAction { s with
      players := newPlayers
      pot := s.pot + allInAmount
      currentBet := if isRaise then newBet else s.currentBet
      minRaise := if isRaise then newBet - s.currentBet else s.minRaise })

/-- `startNewRound` applied to a fresh shuffled deck. -/
def startNewRound (s : PokerState) (freshDeck : List Card) : PokerState :=
  let newDealerIndex := (s.dealerIndex + 1) % s.players.length
  let newPlayers : List PokerPlayer :=
    (s.players.filter fun (p : PokerPlayer) => 0 < p.chips).mapIdx fun i (p : PokerPlayer) =>
      { p with
        hand := []
        currentBet := 0
        totalBet := 0
        hasFolded := false
        hasActed := false
        isAllIn := false
        isDealer := i == newDealerIndex }
  if newPlayers.length < 2 then { s with phase := .finished }
  else
    dealHoleCards (postBlinds { s with
      deck := freshDeck
      players := newPlayers
      communityCards := []
      pot := 0
      sidePots := []
      currentBet := 0
      dealerIndex := newDealerIndex
      currentPlayerIndex := (newDealerIndex + 3) % newPlayers.length
      phase := .preflop
      minRaise := s.bigBlind
      roundNumber := s.roundNumber + 1
      winners := none })

/-- Concrete two-player game on the unshuffled deck, after blinds and hole
cards: with dealer index 0, player-1 posted the small blind 10 and player-0
the big blind 20, so the pot is 30 and the chip counts are 980 and 990. -/
def pokerDemo : PokerState :=
  dealHoleCards (postBlinds (createPokerGame createDeck ["A", "B"]
    [PlayerType.human, PlayerType.computer] 1000 10 20))

/-- The royal flush in spades. -/
def royalHand : List Card :=
  [createCard .spades .A 0 true, createCard .spades .K 1 true,
   createCard .spades .Q 2 true, createCard .spades .J 3 true,
   createCard .spades .N10 4 true]

/-- The wheel A-2-3-4-5 in mixed suits. -/
def wheelHand : List Card :=
  [createCard .diamonds .A 0 true, createCard .clubs .N2 1 true,
   createCard .spades .N3 2 true, createCard .hearts .N4 3 true,
   createCard .diamonds .N5 4 true]

/-- A king-high heart flush. -/
def flushA : List Card :=
  [createCard .hearts .K 0 true, createCard .hearts .J 1 true,
   createCard .hearts .N9 2 true, createCard .hearts .N7 3 true,
   createCard .hearts .N5 4 true]

/-- A king-high spade flush with a smaller last kicker. -/
def flushB : List Card :=
  [createCard .spades .K 5 true, createCard .spades .J 6 true,
   createCard .spades .N9 7 true, createCard .spades .N7 8 true,
   createCard .spades .N4 9 true]

/-- Specification-side comparator (the claim's wording): lexicographic
comparison of two value sequences, the first difference deciding, positive
iff the first sequence is larger. -/
def kickerLex : List Nat → List Nat → Int
  | a :: as, b :: bs => if a ≠ b then (a : Int) - (b : Int) else kickerLex as bs
  | _, _ => 0

end Poker

/-! ## Card-id collections and reachable states (Claim C2)

For each game a function collects the identifiers of every card the state
holds (deck, hands, piles), and an inductive relation captures the states
reachable from the game constructor by the transitions the game offers (the
moves its UI can issue).  Shuffling is modelled by quantifying over
permutations of `createDeck`. -/

namespace Blackjack

/-- All card ids of a Blackjack state: deck, every player hand, dealer hand. -/
def bjIds (s : BlackjackState) : List Nat :=
  idsOf s.deck ++ s.players.flatMap (fun p => idsOf p.hand) ++ idsOf s.dealer.hand

/-- States reachable within one Blackjack round (`startNewRound`, which
discards the hands while keeping a depleted deck, is treated separately). -/
inductive Reach : BlackjackState → Prop
  | init (deck : List Card) (names : List String) (chips : Rat)
      (hdeck : List.Perm deck createDeck) :
      Reach (createBlackjackGame deck names chips)
  | betStep {s s' : BlackjackState} (pid : String) (amount : Rat) (h : Reach s)
      (hstep : placeBet s pid amount = some s') : Reach s'
  | dealStep {s : BlackjackState} (h : Reach s) : Reach (dealInitialCards s)
  | hitStep {s s' : BlackjackState} (pid : String) (h : Reach s)
      (hstep : hit s pid = some s') : Reach s'
  | standStep {s s' : BlackjackState} (pid : String) (h : Reach s)
      (hstep : stand s pid = some s') : Reach s'
  | dealerStep {s : BlackjackState} (h : Reach s) : Reach (dealerPlay s)
  | settleStep {s : BlackjackState} (h : Reach s) : Reach (settleRound s)

end Blackjack

namespace Solitaire

/-- All card ids of a Solitaire state: tableau, foundations, stock, waste. -/
def solIds (s : SolitaireState) : List Nat :=
  s.tableau.flatMap idsOf ++ s.foundation.flatMap idsOf ++
    idsOf s.stock ++ idsOf s.waste

/-- Reachable Solitaire states.  Tableau moves carry the two in-range
conditions the UI guarantees: the target is one of the seven columns (a JS
write past the array end would silently grow the array, which the `List.set`
model cannot represent), and source and target differ (a same-column call
would let the second write clobber the first and duplicate the moved
cards). -/
inductive Reach : SolitaireState → Prop
  | init (deck : List Card) (hdeck : List.Perm deck createDeck) :
      Reach (createSolitaireGame deck)
  | drawStep {s : SolitaireState} (h : Reach s) : Reach (drawFromStock s)
  | foundationStep {s s' : SolitaireState} (src : SolSource) (ci : Option Nat)
      (h : Reach s) (hstep : moveToFoundation s src ci = some s') : Reach s'
  | tableauStep {s s' : SolitaireState} (fromC toC ci : Nat) (h : Reach s)
      (hne : fromC ≠ toC) (hto : toC < 7)
      (hstep : moveCardsInTableau s fromC toC ci = some s') : Reach s'
  | wasteStep {s s' : SolitaireState} (toC : Nat) (h : Reach s) (hto : toC < 7)
      (hstep : moveWasteToTableau s toC = some s') : Reach s'
  | autoStep {s : SolitaireState} (fuel : Nat) (h : Reach s) :
      Reach (autoComplete fuel s)

end Solitaire

namespace Poker

/-- All card ids of a Poker state: deck, hole cards, community cards. -/
def pokerIds (s : PokerState) : List Nat :=
  idsOf s.deck ++ s.players.flatMap (fun p => idsOf p.hand) ++
    idsOf s.communityCards

/-- Reachable Poker states.  A game starts, exactly as in the UI, with
`createPokerGame` followed by `postBlinds` and `dealHoleCards`; fresh rounds
redeal from a new shuffled deck. -/
inductive Reach : PokerState → Prop
  | init (deck : List Card) (names : List String) (types : List PlayerType)
      (chips sb bb : Int) (hdeck : List.Perm deck createDeck) :
      Reach (dealHoleCards (postBlinds (createPokerGame deck names types chips sb bb)))
  | foldStep {s s' : PokerState} (pid : String) (h : Reach s)
      (hstep : fold s pid = some s') : Reach s'
  | callStep {s s' : PokerState} (pid : String) (h : Reach s)
      (hstep : call s pid = some s') : Reach s'
  | raiseStep {s s' : PokerState} (pid : String) (amount : Int) (h : Reach s)
      (hstep : raise s pid amount = some s') : Reach s'
  | checkStep {s s' : PokerState} (pid : String) (h : Reach s)
      (hstep : check s pid = some s') : Reach s'
  | allInStep {s s' : PokerState} (pid : String) (h : Reach s)
      (hstep : allIn s pid = some s') : Reach s'
  | newRoundStep {s : PokerState} (deck : List Card) (h : Reach s)
      (hdeck : List.Perm deck createDeck) : Reach (startNewRound s deck)

end Poker

namespace Hearts

/-- All card ids of a Hearts state: hands, pending passed cards, the current
trick and the taken tricks.  (`receivedCards` only ever holds UI copies of
cards that are simultaneously in the recipient's hand, so it is not a pile
and is not counted.) -/
def heartsIds (s : HeartsState) : List Nat :=
  (s.players.flatMap fun p =>
    idsOf p.hand ++ idsOf p.passedCards ++ p.tricks.flatMap idsOf) ++
    s.currentTrick.map (fun e => e.card.id)

/-- The same collection without the current trick (at `gameEnd` the final
trick has already been credited to its winner but stays in `currentTrick`). -/
def heartsIdsNoTrick (s : HeartsState) : List Nat :=
  s.players.flatMap fun p =>
    idsOf p.hand ++ idsOf p.passedCards ++ p.tricks.flatMap idsOf

/-- Reachable Hearts states: a four-player game created on a shuffled deck,
then pass selections (three distinct cards of the passer's hand, as the UI
collects them), the pass redistribution, and card plays — each in its phase.
Round transitions happen inside `playCard` via `completeTrick`. -/
inductive Reach : HeartsState → Prop
  | init (deck : List Card) (names : List String) (types : List PlayerType)
      (hdeck : List.Perm deck createDeck) (hnames : 4 ≤ names.length) :
      Reach (createHeartsGame deck names types)
  | passStep {s s' : HeartsState} (pid : String) (cards : List Card) (pi : Nat)
      (h : Reach s) (hphase : s.phase = .passing)
      (hpi : s.players.findIdx? (fun p => p.id == pid) = some pi)
      (hsub : cards.Sublist (s.players.getD pi default).hand)
      (hnotyet : (s.players.getD pi default).passedCards = [])
      (hstep : passCards s pid cards = some s') : Reach s'
  | execStep {s : HeartsState} (h : Reach s) (hphase : s.phase = .passing) :
      Reach (executePassPhase s)
  | playStep {s s' : HeartsState} (pid : String) (card : Card)
      (fresh : List Card) (h : Reach s) (hphase : s.phase = .playing)
      (hfresh : List.Perm fresh createDeck)
      (hstep : playCard s pid card fresh = some s') : Reach s'

end Hearts

namespace Asshole

/-- All card ids of a President state: hands and the pile of plays. -/
def assholeIds (s : AssholeState) : List Nat :=
  s.players.flatMap (fun p => idsOf p.hand) ++ s.pile.flatMap idsOf

/-- Reachable President states.  A play is a selection of distinct cards of
the player's hand (every play `getValidPlays` offers is such a
subsequence). -/
inductive Reach : AssholeState → Prop
  | init (deck : List Card) (names : List String) (types : List PlayerType)
      (hdeck : List.Perm deck createDeck) :
      Reach (createAssholeGame deck names types)
  | playStep {s s' : AssholeState} (pid : String) (cards : List Card) (pi : Nat)
      (h : Reach s)
      (hpi : s.players.findIdx? (fun p => p.id == pid) = some pi)
      (hsub : cards.Sublist (s.players.getD pi default).hand)
      (hstep : playCards s pid cards = some s') : Reach s'
  | passStep {s s' : AssholeState} (pid : String) (h : Reach s)
      (hstep : pass s pid = some s') : Reach s'
  | newRoundStep {s : AssholeState} (deck : List Card) (h : Reach s)
      (hdeck : List.Perm deck createDeck) : Reach (startNewRound s deck)

end Asshole

/-! # Theorems

Everything below is a lemma or theorem about the definitions above; the
claim theorems, witnesses and counterexamples come last. -/

/-! ## Card/deck primitive lemmas -/

theorem insertCard_perm (c : Card) (l : List Card) :
    List.Perm (insertCard c l) (c :: l) := by
  induction l with
  | nil => simp [insertCard]
  | cons d ds ih =>
    by_cases h : cardLE c d
    · simp [insertCard, h]
    · simp only [insertCard, h, if_false]
      exact (ih.cons d).trans (List.Perm.swap c d ds)

theorem sortCards_perm (l : List Card) : List.Perm (sortCards l) l := by
  induction l with
  | nil => simp [sortCards]
  | cons c cs ih =>
    simpa [sortCards] using (insertCard_perm c (sortCards cs)).trans (ih.cons c)

theorem idsOf_createDeck : idsOf createDeck = deckIds := by decide

theorem idsOf_append (a b : List Card) : idsOf (a ++ b) = idsOf a ++ idsOf b := by
  simp [idsOf]

theorem idsOf_perm {a b : List Card} (h : List.Perm a b) :
    List.Perm (idsOf a) (idsOf b) := by
  unfold idsOf
  exact h.map _

theorem idsOf_sortCards (l : List Card) : List.Perm (idsOf (sortCards l)) (idsOf l) :=
  idsOf_perm (sortCards_perm l)

/-! ## General list helper lemmas

Small facts about `findIdx?`, `set` and `getD` used when reasoning about the
`findIndex` / copied-array-write idiom of the TypeScript code. -/

theorem findIdx?_lt_len {α : Type} {p : α → Bool} {l : List α} {i : Nat}
    (h : l.findIdx? p = some i) : i < l.length := by
  induction l generalizing i with
  | nil => simp [List.findIdx?] at h
  | cons x xs ih =>
    rw [List.findIdx?_cons] at h
    by_cases hp : p x
    · simp [hp] at h
      subst h
      simp
    · simp [hp] at h
      obtain ⟨j, hj, rfl⟩ := h
      have hlt := ih hj
      simp
      omega

theorem findIdx?_getD {α : Type} [Inhabited α] {p : α → Bool} {l : List α} {i : Nat}
    (h : l.findIdx? p = some i) : p (l.getD i default) = true := by
  induction l generalizing i with
  | nil => simp [List.findIdx?] at h
  | cons x xs ih =>
    rw [List.findIdx?_cons] at h
    by_cases hp : p x
    · simp [hp] at h
      subst h
      simpa using hp
    · simp [hp] at h
      obtain ⟨j, hj, rfl⟩ := h
      simpa using ih hj

theorem getD_set_self {α : Type} (l : List α) (i : Nat) (a d : α) (h : i < l.length) :
    (l.set i a).getD i d = a := by
  simp [List.getD, List.getElem?_set_self', h]

theorem getD_set_ne {α : Type} (l : List α) (i j : Nat) (a d : α) (h : i ≠ j) :
    (l.set i a).getD j d = l.getD j d := by
  simp [List.getD, List.getElem?_set_ne, h]

/-! ## Blackjack lemmas -/

namespace Blackjack

theorem adjustAces_eq (aces value : Nat) :
    adjustAces value aces = (value - 10 * bjDrops value aces, aces - bjDrops value aces) := by
  induction aces generalizing value with
  | zero => simp [adjustAces, bjDrops]
  | succ a ih =>
    by_cases h : 21 < value
    · have h12 : ¬ value ≤ 21 := by omega
      rw [adjustAces, if_pos h, ih]
      have hstep : bjDrops value (a + 1) = bjDrops (value - 10) a + 1 := by
        by_cases h31 : value ≤ 31
        · have hq : (value - 12) / 10 = 1 := by
            have : value - 12 < 20 := by omega
            have h10 : 10 ≤ value - 12 := by omega
            omega
          have hv10 : value - 10 ≤ 21 := by omega
          simp [bjDrops, h12, hq, hv10]
        · have hv10 : ¬ value - 10 ≤ 21 := by omega
          have hq : (value - 12) / 10 = (value - 10 - 12) / 10 + 1 := by
            have h10 : 10 ≤ value - 12 := by omega
            have := Nat.sub_add_cancel h10
            have heq : value - 12 = (value - 10 - 12) + 10 := by omega
            rw [heq, Nat.add_div_right _ (by norm_num)]
          simp only [bjDrops, h12, if_false, hv10, hq]
          omega
      rw [hstep]
      have : 10 * (bjDrops (value - 10) a + 1) = 10 * bjDrops (value - 10) a + 10 := by ring
      simp only [Prod.mk.injEq]
      omega
    · have h21 : value ≤ 21 := by omega
      simp [adjustAces, h, bjDrops, h21]

theorem bjDrops_lt_of_rem {value aces : Nat} (h : bjDrops value aces < aces) :
    value - 10 * bjDrops value aces ≤ 21 := by
  unfold bjDrops at *
  by_cases h21 : value ≤ 21
  · rw [if_pos h21] at h ⊢
    omega
  · rw [if_neg h21] at h ⊢
    omega

theorem getHandValue_closed_form (hand : List Card) :
    (getHandValue hand).value =
        bjRawValue hand - 10 * bjDrops (bjRawValue hand) (bjAces hand) ∧
      ((getHandValue hand).isSoft = true ↔
        bjDrops (bjRawValue hand) (bjAces hand) < bjAces hand) := by
  unfold getHandValue
  rw [adjustAces_eq]
  refine ⟨rfl, ?_⟩
  simp only [Bool.and_eq_true, decide_eq_true_eq]
  constructor
  · rintro ⟨h1, _⟩
    omega
  · intro h
    exact ⟨by omega, bjDrops_lt_of_rem h⟩

end Blackjack

/-! ## Solitaire lemmas -/

namespace Solitaire

theorem drawN_spec (k : Nat) (s : SolitaireState) (hk : k ≤ s.stock.length) :
    (drawN k s).waste =
        s.waste ++ (s.stock.take k).map (fun c => { c with faceUp := true }) ∧
      (drawN k s).stock = s.stock.drop k := by
  induction k generalizing s with
  | zero => simp [drawN]
  | succ k ih =>
    match hst : s.stock with
    | [] => rw [hst] at hk; simp at hk
    | c :: rest =>
      have hdraw : drawFromStock s =
          { s with stock := rest, waste := s.waste ++ [{ c with faceUp := true }],
                   moves := s.moves + 1 } := by
        unfold drawFromStock
        rw [hst]
      have hk2 : k ≤ rest.length := by
        rw [hst] at hk
        simpa using hk
      have := ih (drawFromStock s) (by rw [hdraw]; simpa using hk2)
      rw [drawN, this.1, this.2, hdraw]
      simp [hst]

/-- Recycling an exhausted stock and drawing through it again yields the
waste cards in the *reverse* of the order in which they entered the waste. -/
theorem recycle_reverses_draw_order (s : SolitaireState) (hstock : s.stock = []) :
    idsOf (drawN s.waste.length (drawFromStock s)).waste = (idsOf s.waste).reverse := by
  have hrec : drawFromStock s =
      { s with stock := (s.waste.map fun c => { c with faceUp := false }).reverse,
               waste := [], moves := s.moves + 1 } := by
    unfold drawFromStock
    rw [hstock]
  have hlen : s.waste.length ≤ (drawFromStock s).stock.length := by
    rw [hrec]
    simp
  have hspec := drawN_spec s.waste.length (drawFromStock s) hlen
  rw [hspec.1, hrec]
  simp only [idsOf, List.map_append, List.map_map, List.map_reverse]
  rw [List.take_of_length_le (by simp)]
  simp [Function.comp]

end Solitaire

/-! ## Claim C3 -/

/-- C3: the failing input.  In `solDemoState` the stock is empty and the
waste holds the cards with identifiers `[0, 1, 2]` in draw order; after
`drawFromStock` recycles the waste and three further draws pass through the
recycled stock, the cards come out as `[2, 1, 0]` — the reverse of the
original draw order, not the same sequence as the claim states. -/
theorem C3_reversed_redraw :
    Solitaire.solDemoState.stock = [] ∧
      idsOf Solitaire.solDemoState.waste = [0, 1, 2] ∧
      idsOf (Solitaire.drawN 3
          (Solitaire.drawFromStock Solitaire.solDemoState)).waste = [2, 1, 0] :=
  ⟨rfl, rfl, rfl⟩

/-! ## Claim C6 -/

/-- C6 counterexample: the claim asserts that the hand `[K, Q]` is a
blackjack ("two cards totaling 21"), but K and Q are both worth 10, so
`getHandValue` reports 20 and `isBlackjack` is `false`. -/
theorem C6_counterexample :
    Blackjack.getHandValue [createCard .spades .K 0 true, createCard .hearts .Q 1 true]
        = ⟨20, false⟩ ∧
      Blackjack.isBlackjack
        [createCard .spades .K 0 true, createCard .hearts .Q 1 true] = false := by
  constructor <;> rfl

/-- C6 (amended): `getHandValue` sums the hand with face cards worth 10 and
each Ace initially 11, then subtracts 10 per Ace while the total exceeds 21
and an Ace still counts as 11 (in closed form: `bjDrops` deductions), and
`isSoft` holds exactly when an Ace still counts as 11 after adjustment.
`[A, A, 9]` evaluates to `(21, soft)`; `[K, Q]` evaluates to 20 and is *not*
a blackjack (while `[A, K]` is); `[K, Q, 5]` evaluates to 25 and is busted. -/
theorem C6_hand_value :
    (∀ hand : List Card,
        (Blackjack.getHandValue hand).value =
            Blackjack.bjRawValue hand -
              10 * Blackjack.bjDrops (Blackjack.bjRawValue hand) (Blackjack.bjAces hand) ∧
          ((Blackjack.getHandValue hand).isSoft = true ↔
            Blackjack.bjDrops (Blackjack.bjRawValue hand) (Blackjack.bjAces hand) <
              Blackjack.bjAces hand)) ∧
      Blackjack.getHandValue
          [createCard .spades .A 0 true, createCard .hearts .A 1 true,
           createCard .clubs .N9 2 true] = ⟨21, true⟩ ∧
      Blackjack.getHandValue
          [createCard .spades .K 0 true, createCard .hearts .Q 1 true] = ⟨20, false⟩ ∧
      Blackjack.isBlackjack
          [createCard .spades .K 0 true, createCard .hearts .Q 1 true] = false ∧
      Blackjack.isBlackjack
          [createCard .spades .A 0 true, createCard .hearts .K 1 true] = true ∧
      Blackjack.getHandValue
          [createCard .spades .K 0 true, createCard .hearts .Q 1 true,
           createCard .clubs .N5 2 true] = ⟨25, false⟩ ∧
      Blackjack.isBusted
          [createCard .spades .K 0 true, createCard .hearts .Q 1 true,
           createCard .clubs .N5 2 true] = true :=
  ⟨Blackjack.getHandValue_closed_form, rfl, rfl, rfl, rfl, rfl, rfl⟩

/-! ## Claim C7 -/

/-- C7 counterexample: in `bjDemoState` it is player-0's turn (playing
phase), yet `hit` by player-1 — who has neither stood nor busted — succeeds
instead of returning the `null` failure sentinel. -/
theorem C7_counterexample :
    Blackjack.bjDemoState.phase = .playing ∧
      Blackjack.bjDemoState.currentPlayerIndex = 0 ∧
      (Blackjack.bjDemoState.players.getD 1 default).hasStood = false ∧
      (Blackjack.bjDemoState.players.getD 1 default).hasBusted = false ∧
      (Blackjack.hit Blackjack.bjDemoState "player-1").isSome = true :=
  ⟨rfl, rfl, rfl, rfl, rfl⟩

/-- C7 (amended): `hit` rejects exactly an unknown player id or a player who
has already stood or busted; it checks neither the phase nor whose turn it
is, so an out-of-turn hit by any other player succeeds and appends the drawn
card to their hand (assuming, as everywhere, a nonempty deck). -/
theorem C7_hit_rejects (s : Blackjack.BlackjackState) (pid : String)
    (hdeck : s.deck ≠ []) :
    (Blackjack.hit s pid = none ↔
        ∀ i, s.players.findIdx? (fun p => p.id == pid) = some i →
          (s.players.getD i default).hasStood = true ∨
            (s.players.getD i default).hasBusted = true) ∧
      (∀ i, s.players.findIdx? (fun p => p.id == pid) = some i →
        (s.players.getD i default).hasStood = false →
        (s.players.getD i default).hasBusted = false →
        ∃ s', Blackjack.hit s pid = some s' ∧
          (s'.players.getD i default).hand =
            (s.players.getD i default).hand ++
              [{ s.deck.headD default with faceUp := true }]) := by
  obtain ⟨c, rest, hd⟩ : ∃ c rest, s.deck = c :: rest := by
    cases hd : s.deck with
    | nil => exact absurd hd hdeck
    | cons c rest => exact ⟨c, rest, rfl⟩
  cases hfi : s.players.findIdx? (fun p => p.id == pid) with
  | none =>
    refine ⟨?_, ?_⟩
    · simp [Blackjack.hit, hfi]
    · intro i hi
      exact absurd hi (by simp)
  | some i =>
    have hlen : i < s.players.length := findIdx?_lt_len hfi
    by_cases hsb :
        ((s.players.getD i default).hasStood || (s.players.getD i default).hasBusted) = true
    · refine ⟨?_, ?_⟩
      · constructor
        · intro _ j hj
          obtain rfl := Option.some.inj hj
          simpa [Bool.or_eq_true] using hsb
        · intro _
          simp only [Blackjack.hit, hfi]
          rw [if_pos hsb]
      · intro j hj hst hbu
        obtain rfl := Option.some.inj hj
        rw [hst, hbu] at hsb
        simp at hsb
    · have hne : Blackjack.hit s pid ≠ none := by
        intro hcontra
        simp only [Blackjack.hit, hfi] at hcontra
        rw [if_neg hsb, hd] at hcontra
        simp at hcontra
      refine ⟨?_, ?_⟩
      · constructor
        · intro h
          exact absurd h hne
        · intro h
          have h1 := h i rfl
          rw [Bool.or_eq_true] at hsb
          rcases h1 with h1 | h1
          · exact absurd (Or.inl h1) hsb
          · exact absurd (Or.inr h1) hsb
      · intro j hj hst hbu
        obtain rfl := Option.some.inj hj
        obtain ⟨s', hs'⟩ : ∃ s', Blackjack.hit s pid = some s' := by
          cases hh : Blackjack.hit s pid with
          | none => exact absurd hh hne
          | some x => exact ⟨x, rfl⟩
        refine ⟨s', hs', ?_⟩
        have heq := hs'
        simp only [Blackjack.hit, hfi] at heq
        rw [if_neg hsb, hd] at heq
        obtain rfl := Option.some.inj heq
        rw [hd, List.headD_cons]
        rw [getD_set_self _ _ _ _ hlen]

/-- C7 witness: the amended theorem applied to `bjDemoState` and the
out-of-turn player-1. -/
theorem C7_witness :
    ∃ s', Blackjack.hit Blackjack.bjDemoState "player-1" = some s' ∧
      (s'.players.getD 1 default).hand =
        (Blackjack.bjDemoState.players.getD 1 default).hand ++
          [{ Blackjack.bjDemoState.deck.headD default with faceUp := true }] :=
  (C7_hit_rejects Blackjack.bjDemoState "player-1" (by decide)).2 1 (by rfl) (by rfl)
    (by rfl)

/-! ## President/"Asshole" lemmas -/

namespace Asshole

/-- What the bounded scan of `findNextLoop` computes: with `d` fuel left, if
some candidate within `d` steps has a nonempty hand, the loop stops at the
first such candidate. -/
theorem findNextLoop_spec (players : List AssholePlayer) (d : Nat) :
    ∀ next, next < players.length →
    (∃ k, k < d ∧ (players.getD ((next + k) % players.length) default).hand ≠ []) →
    ∃ k, k < d ∧
      findNextLoop players next d = (next + k) % players.length ∧
      (players.getD ((next + k) % players.length) default).hand ≠ [] ∧
      ∀ j, j < k → (players.getD ((next + j) % players.length) default).hand = [] := by
  induction d with
  | zero =>
    rintro next _ ⟨k, hk, _⟩
    omega
  | succ d ih =>
    rintro next hnext ⟨k, hk, hhand⟩
    have hn : 0 < players.length := by omega
    by_cases hcase : (players.getD next default).hand = []
    · rw [findNextLoop, if_pos hcase]
      obtain ⟨k', rfl⟩ : ∃ k', k = k' + 1 := by
        cases k with
        | zero =>
          rw [Nat.add_zero, Nat.mod_eq_of_lt hnext] at hhand
          exact absurd hcase hhand
        | succ k' => exact ⟨k', rfl⟩
      have hshift : next + (k' + 1) = (next + 1) + k' := by omega
      rw [hshift] at hhand
      rw [← Nat.mod_add_mod] at hhand
      obtain ⟨k0, hk0, heq, hh0, hmin⟩ :=
        ih ((next + 1) % players.length) (Nat.mod_lt _ hn) ⟨k', by omega, hhand⟩
      refine ⟨k0 + 1, by omega, ?_, ?_, ?_⟩
      · rw [heq, Nat.mod_add_mod]
        congr 1
        omega
      · rw [show next + (k0 + 1) = (next + 1) + k0 by omega, ← Nat.mod_add_mod]
        exact hh0
      · intro j hj
        cases j with
        | zero =>
          rw [Nat.add_zero, Nat.mod_eq_of_lt hnext]
          exact hcase
        | succ j' =>
          rw [show next + (j' + 1) = (next + 1) + j' by omega, ← Nat.mod_add_mod]
          exact hmin j' (by omega)
    · rw [findNextLoop, if_neg hcase]
      refine ⟨0, by omega, ?_, ?_, ?_⟩
      · rw [Nat.add_zero, Nat.mod_eq_of_lt hnext]
      · rw [Nat.add_zero, Nat.mod_eq_of_lt hnext]
        exact hcase
      · intro j hj
        omega

theorem mod_cancel_left {n pi m : Nat} (hpi : pi < n) (h : (pi + m) % n = pi) :
    m % n = 0 := by
  have hn : 0 < n := by omega
  rw [Nat.add_mod, Nat.mod_eq_of_lt hpi] at h
  have hr : m % n < n := Nat.mod_lt _ hn
  by_cases h0 : pi + m % n < n
  · rw [Nat.mod_eq_of_lt h0] at h
    omega
  · have hsub : (pi + m % n) % n = pi + m % n - n := by
      rw [Nat.mod_eq_sub_mod (by omega), Nat.mod_eq_of_lt (by omega)]
    omega

/-- `findNextPlayer` lands on a player who still holds cards, and not on the
player whose turn just ended, as long as some *other* player holds cards. -/
theorem findNextPlayer_spec (players : List AssholePlayer) (pi : Nat)
    (hpi : pi < players.length) (j : Nat) (hj : j < players.length) (hjne : j ≠ pi)
    (hhand : (players.getD j default).hand ≠ []) :
    (players.getD (findNextPlayer players (pi : Int)) default).hand ≠ [] ∧
      findNextPlayer players (pi : Int) ≠ pi := by
  have hn : 0 < players.length := by omega
  have hcast : findNextPlayer players (pi : Int) =
      findNextLoop players ((pi + 1) % players.length) players.length := by
    unfold findNextPlayer
    congr 1
  have hstart : (pi + 1) % players.length < players.length := Nat.mod_lt _ hn
  set n := players.length with hnn
  set start := (pi + 1) % n with hstartdef
  set kj := (n + j - start) % n with hkjdef
  have hkjlt : kj < n := Nat.mod_lt _ hn
  have hwit : (start + kj) % n = j := by
    rw [hkjdef, Nat.add_mod_mod,
        show start + (n + j - start) = n + j by omega,
        Nat.add_mod_left, Nat.mod_eq_of_lt hj]
  obtain ⟨k0, hk0, heq, hh0, hmin⟩ :=
    findNextLoop_spec players n start hstart
      ⟨kj, hkjlt, by rw [hwit]; exact hhand⟩
  have hk0le : k0 ≤ kj := by
    by_contra hlt
    push_neg at hlt
    have hempty := hmin _ hlt
    rw [hwit] at hempty
    exact hhand hempty
  constructor
  · rw [hcast, heq]
    exact hh0
  · rw [hcast, heq]
    intro hcontra
    have hc2 : (pi + (1 + k0)) % n = pi := by
      rw [show pi + (1 + k0) = (pi + 1) + k0 by omega, ← Nat.mod_add_mod]
      exact hcontra
    have hzero := mod_cancel_left hpi hc2
    have hk0n : k0 = n - 1 := by
      rcases Nat.lt_or_ge (1 + k0) n with hlt | hge
      · rw [Nat.mod_eq_of_lt hlt] at hzero
        omega
      · omega
    have hkjn : kj = n - 1 := by omega
    have hjpi : j = pi := by
      have h1 : (start + (n - 1)) % n = j := by
        rw [← hkjn]
        exact hwit
      rw [hstartdef, Nat.mod_add_mod,
          show pi + 1 + (n - 1) = n + pi by omega,
          Nat.add_mod_left, Nat.mod_eq_of_lt hpi] at h1
      omega
    exact hjne hjpi

/-- `findNextPlayer` lands on exactly the cyclically next player (after the
given one) who still holds cards: the result is `pi + k` modulo the player
count for some positive `k`, and every strictly earlier candidate after `pi`
has an empty hand. -/
theorem findNextPlayer_next (players : List AssholePlayer) (pi : Nat)
    (hpi : pi < players.length) (j : Nat) (hj : j < players.length) (hjne : j ≠ pi)
    (hhand : (players.getD j default).hand ≠ []) :
    ∃ k, 1 ≤ k ∧ k ≤ players.length ∧
      findNextPlayer players (pi : Int) = (pi + k) % players.length ∧
      (∀ i, 1 ≤ i → i < k →
        (players.getD ((pi + i) % players.length) default).hand = []) := by
  have hn : 0 < players.length := by omega
  have hcast : findNextPlayer players (pi : Int) =
      findNextLoop players ((pi + 1) % players.length) players.length := by
    unfold findNextPlayer
    congr 1
  have hstart : (pi + 1) % players.length < players.length := Nat.mod_lt _ hn
  set n := players.length with hnn
  set start := (pi + 1) % n with hstartdef
  set kj := (n + j - start) % n with hkjdef
  have hkjlt : kj < n := Nat.mod_lt _ hn
  have hwit : (start + kj) % n = j := by
    rw [hkjdef, Nat.add_mod_mod,
        show start + (n + j - start) = n + j by omega,
        Nat.add_mod_left, Nat.mod_eq_of_lt hj]
  obtain ⟨k0, hk0, heq, hh0, hmin⟩ :=
    findNextLoop_spec players n start hstart
      ⟨kj, hkjlt, by rw [hwit]; exact hhand⟩
  refine ⟨k0 + 1, by omega, by omega, ?_, ?_⟩
  · rw [hcast, heq, hstartdef, Nat.mod_add_mod]
    congr 1
    omega
  · intro i hi1 hik
    obtain ⟨i1, rfl⟩ : ∃ i1, i = i1 + 1 := ⟨i - 1, by omega⟩
    have hm := hmin i1 (by omega)
    rw [hstartdef, Nat.mod_add_mod] at hm
    rw [show pi + (i1 + 1) = pi + 1 + i1 by omega]
    exact hm

theorem chooseK_mem {k : Nat} {l cs : List Card} :
    cs ∈ chooseK k l ↔ cs.Sublist l ∧ cs.length = k := by
  induction l generalizing k cs with
  | nil =>
    cases k with
    | zero =>
      simp only [chooseK, List.mem_singleton]
      constructor
      · rintro rfl
        exact ⟨List.Sublist.refl _, rfl⟩
      · rintro ⟨hsub, hlen⟩
        exact List.sublist_nil.mp hsub
    | succ k =>
      simp only [chooseK, List.not_mem_nil, false_iff]
      rintro ⟨hsub, hlen⟩
      have := List.sublist_nil.mp hsub
      subst this
      simp at hlen
  | cons c rest ih =>
    cases k with
    | zero =>
      simp only [chooseK, List.mem_singleton]
      constructor
      · rintro rfl
        exact ⟨List.nil_sublist _, rfl⟩
      · rintro ⟨_, hlen⟩
        exact List.length_eq_zero.mp hlen
    | succ k =>
      simp only [chooseK, List.mem_append, List.mem_map]
      constructor
      · rintro (⟨t, ht, rfl⟩ | h)
        · obtain ⟨hsub, hlen⟩ := ih.mp ht
          exact ⟨hsub.cons₂ c, by simp [hlen]⟩
        · obtain ⟨hsub, hlen⟩ := ih.mp h
          exact ⟨hsub.cons c, hlen⟩
      · rintro ⟨hsub, hlen⟩
        rcases List.sublist_cons_iff.mp hsub with h | ⟨r, rfl, hr⟩
        · right
          exact ih.mpr ⟨h, hlen⟩
        · left
          exact ⟨r, ih.mpr ⟨hr, by simpa using hlen⟩, rfl⟩

theorem getCombinations_mem {cards : List Card} {k : Nat} {cs : List Card} :
    cs ∈ getCombinations cards k ↔ cs.Sublist cards ∧ cs.length = k := by
  unfold getCombinations
  by_cases h1 : cards.length < k
  · rw [if_pos h1]
    simp only [List.not_mem_nil, false_iff]
    rintro ⟨hsub, hlen⟩
    have := hsub.length_le
    omega
  · rw [if_neg h1]
    by_cases h2 : k = cards.length
    · rw [if_pos h2]
      simp only [List.mem_singleton]
      constructor
      · rintro rfl
        exact ⟨List.Sublist.refl _, h2.symm⟩
      · rintro ⟨hsub, hlen⟩
        exact (List.Sublist.length_eq hsub).mp (by omega)
    · rw [if_neg h2]
      by_cases h3 : k = 1
      · rw [if_pos h3]
        subst h3
        simp only [List.mem_map]
        constructor
        · rintro ⟨c, hc, rfl⟩
          exact ⟨List.singleton_sublist.mpr hc, rfl⟩
        · rintro ⟨hsub, hlen⟩
          obtain ⟨a, rfl⟩ := List.length_eq_one.mp hlen
          exact ⟨a, List.singleton_sublist.mp hsub, rfl⟩
      · rw [if_neg h3]
        exact chooseK_mem

theorem insertKey_mem (ks : List Nat) (r x : Nat) :
    x ∈ insertKey ks r ↔ x ∈ ks ∨ x = r := by
  unfold insertKey
  by_cases h : ks.contains r
  · rw [if_pos h]
    have hr : r ∈ ks := by simpa using h
    constructor
    · exact Or.inl
    · rintro (hx | rfl)
      · exact hx
      · exact hr
  · rw [if_neg h]
    simp

theorem rankKeys_mem_aux (hand : List Card) :
    ∀ acc x, x ∈ hand.foldl (fun ks c => insertKey ks (getCardRank c)) acc ↔
      x ∈ acc ∨ ∃ c ∈ hand, getCardRank c = x := by
  induction hand with
  | nil => simp
  | cons c cs ih =>
    intro acc x
    rw [List.foldl_cons, ih]
    rw [insertKey_mem]
    constructor
    · rintro ((hx | rfl) | ⟨d, hd, rfl⟩)
      · exact Or.inl hx
      · exact Or.inr ⟨c, List.mem_cons_self c cs, rfl⟩
      · exact Or.inr ⟨d, List.mem_cons_of_mem c hd, rfl⟩
    · rintro (hx | ⟨d, hd, rfl⟩)
      · exact Or.inl (Or.inl hx)
      · rcases List.mem_cons.mp hd with rfl | hd2
        · exact Or.inl (Or.inr rfl)
        · exact Or.inr ⟨d, hd2, rfl⟩

theorem rankKeys_mem (hand : List Card) (x : Nat) :
    x ∈ rankKeys hand ↔ ∃ c ∈ hand, getCardRank c = x := by
  simpa using rankKeys_mem_aux hand [] x

theorem sublist_filter_of_all {cs l : List Card} {p : Card → Bool}
    (hsub : cs.Sublist l) (hall : ∀ c ∈ cs, p c = true) :
    cs.Sublist (l.filter p) := by
  induction hsub with
  | slnil => simp
  | cons a h ih =>
    by_cases hpa : p a
    · rw [List.filter_cons_of_pos hpa]
      exact (ih hall).cons a
    · rw [List.filter_cons_of_neg (by simpa using hpa)]
      exact ih hall
  | cons₂ a h ih =>
    have hpa : p a = true := hall a (List.mem_cons_self _ _)
    rw [List.filter_cons_of_pos hpa]
    exact (ih fun c hc => hall c (List.mem_cons_of_mem a hc)).cons₂ a

theorem exists_index_of_filter_pos {α : Type} [Inhabited α] {p : α → Bool} {l : List α}
    (h : 1 ≤ (l.filter p).length) : ∃ j, j < l.length ∧ p (l.getD j default) = true := by
  induction l with
  | nil => simp at h
  | cons x xs ih =>
    by_cases hx : p x
    · exact ⟨0, by simp, by simpa using hx⟩
    · rw [List.filter_cons_of_neg (by simpa using hx)] at h
      obtain ⟨j, hj, hp⟩ := ih h
      exact ⟨j + 1, by simpa using hj, by simpa using hp⟩

theorem exists_other_index_of_filter_two {α : Type} [Inhabited α] {p : α → Bool}
    {l : List α} (h : 2 ≤ (l.filter p).length) (pi : Nat) :
    ∃ j, j < l.length ∧ j ≠ pi ∧ p (l.getD j default) = true := by
  induction l generalizing pi with
  | nil => simp at h
  | cons x xs ih =>
    by_cases hx : p x
    · rw [List.filter_cons_of_pos hx] at h
      simp only [List.length_cons] at h
      cases pi with
      | zero =>
        obtain ⟨j, hj, hp⟩ := exists_index_of_filter_pos (p := p) (l := xs) (by omega)
        exact ⟨j + 1, by simpa using hj, by omega, by simpa using hp⟩
      | succ pi =>
        exact ⟨0, by simp, by omega, by simpa using hx⟩
    · rw [List.filter_cons_of_neg (by simpa using hx)] at h
      cases pi with
      | zero =>
        obtain ⟨j, hj, hp⟩ := exists_index_of_filter_pos (p := p) (l := xs) (by omega)
        exact ⟨j + 1, by simpa using hj, by omega, by simpa using hp⟩
      | succ pi =>
        obtain ⟨j, hj, hne, hp⟩ := ih (by omega) pi
        exact ⟨j + 1, by simpa using hj, by omega, by simpa using hp⟩

end Asshole

/-! ## Claim C1 -/

/-- C1 counterexample: in `asDemo1` player-0 legally plays all four 3s onto
an empty pile; the claim says this clears the pile (`currentRank` back to
empty) and keeps the turn, but the code only clears for rank-2 plays: the
result has `currentRank = some 3`, `currentCount = 4`, and the turn moves on
to player-1. -/
theorem C1_counterexample :
    Asshole.isValidPlay Asshole.asDemo1 "player-0" Asshole.fourThrees = true ∧
      (Asshole.playCards Asshole.asDemo1 "player-0" Asshole.fourThrees).map
          (fun s' => (s'.currentRank, s'.currentCount, s'.currentPlayerIndex)) =
        some (some 3, 4, 1) := by
  constructor
  · rfl
  · rfl

/-- C1 (amended): for every valid play, `playCards` succeeds, and — unless
the play ends the round (at most one player left holding cards) — the played
cards are appended to the pile and: a play of rank 2 (and only rank 2 —
four of a kind of a lower rank does *not* clear) resets `currentRank` to
empty and `currentCount` to 0 with the same player keeping the turn, while
every other valid play sets `currentRank`/`currentCount` to the play and
passes the turn to the cyclically next player who still holds cards — the
successor index is `pi + k` modulo the player count with every strictly
earlier candidate after `pi` holding an empty hand (in particular the turn
moves to a different player). -/
theorem C1_play_effects (s : Asshole.AssholeState) (pid : String) (cards : List Card)
    (pi : Nat)
    (hv : Asshole.isValidPlay s pid cards = true)
    (hpi : s.players.findIdx? (fun p => p.id == pid) = some pi) :
    ∃ s', Asshole.playCards s pid cards = some s' ∧
      (s'.phase = Asshole.APhase.roundEnd ∨
        (s'.pile = s.pile ++ [cards] ∧
          (Asshole.getCardRank (cards.headD default) = 15 →
            s'.currentRank = none ∧ s'.currentCount = 0 ∧
              s'.currentPlayerIndex = pi) ∧
          (Asshole.getCardRank (cards.headD default) ≠ 15 →
            s'.currentRank = some (Asshole.getCardRank (cards.headD default)) ∧
              s'.currentCount = cards.length ∧
              (s'.players.getD s'.currentPlayerIndex default).hand ≠ [] ∧
              s'.currentPlayerIndex ≠ pi ∧
              ∃ k, 1 ≤ k ∧ k ≤ s.players.length ∧
                s'.currentPlayerIndex = (pi + k) % s.players.length ∧
                ∀ i, 1 ≤ i → i < k →
                  (s'.players.getD ((pi + i) % s.players.length)
                    default).hand = []))) := by
  have hpilen : pi < s.players.length := findIdx?_lt_len hpi
  unfold Asshole.playCards
  rw [hv, hpi]
  simp only [Bool.not_true, Bool.false_eq_true, if_false]
  set removed : Asshole.AssholePlayer :=
    { s.players.getD pi default with
      hand := (s.players.getD pi default).hand.filter
        fun h => !(cards.any fun c => c.id == h.id)
      hasPassed := false } with hremoved
  by_cases hact :
      ((s.players.set pi (if removed.hand.isEmpty then
          { removed with
            finishOrder := some (s.finishCount + 1)
            rank := some (if s.finishCount + 1 = 1 then Asshole.ARank.president
              else if s.finishCount + 1 = 2 ∧ 4 ≤ s.players.length then .vicePresident
              else if s.finishCount + 1 = s.players.length - 1 ∧ 4 ≤ s.players.length then
                .viceAsshole
              else if s.finishCount + 1 = s.players.length then .asshole
              else .neutral) }
        else removed)).filter fun p => !p.hand.isEmpty).length ≤ 1
  · rw [if_pos hact]
    exact ⟨_, rfl, Or.inl rfl⟩
  · rw [if_neg hact]
    refine ⟨_, rfl, Or.inr ⟨rfl, ?_, ?_⟩⟩
    · intro h15
      refine ⟨?_, ?_, ?_⟩ <;> simp only [if_pos h15]
    · intro h15
      obtain ⟨j, hj, hjne, hp⟩ :=
        Asshole.exists_other_index_of_filter_two (Nat.not_le.mp hact) pi
      obtain ⟨k, hk1, hkn, heq, hmin⟩ :=
        Asshole.findNextPlayer_next _ pi (by simpa using hpilen) j hj hjne
          (by simpa using hp)
      refine ⟨by simp only [if_neg h15], by simp only [if_neg h15], ?_, ?_, ?_⟩
      · simp only [if_neg h15]
        have := (Asshole.findNextPlayer_spec _ pi (by simpa using hpilen) j hj hjne
          (by simpa using hp)).1
        simpa using this
      · simp only [if_neg h15]
        exact (Asshole.findNextPlayer_spec _ pi (by simpa using hpilen) j hj hjne
          (by simpa using hp)).2
      · refine ⟨k, hk1, by simpa using hkn, ?_, ?_⟩
        · simp only [if_neg h15]
          simpa using heq
        · intro i hi1 hik
          have hm := hmin i hi1 hik
          simpa using hm

/-- C1 witness: the amended theorem applied to the concrete four-3s play of
`asDemo1`. -/
theorem C1_witness :
    ∃ s', Asshole.playCards Asshole.asDemo1 "player-0" Asshole.fourThrees = some s' ∧
      (s'.phase = Asshole.APhase.roundEnd ∨
        (s'.pile = Asshole.asDemo1.pile ++ [Asshole.fourThrees] ∧
          (Asshole.getCardRank (Asshole.fourThrees.headD default) = 15 →
            s'.currentRank = none ∧ s'.currentCount = 0 ∧
              s'.currentPlayerIndex = 0) ∧
          (Asshole.getCardRank (Asshole.fourThrees.headD default) ≠ 15 →
            s'.currentRank = some (Asshole.getCardRank (Asshole.fourThrees.headD default)) ∧
              s'.currentCount = Asshole.fourThrees.length ∧
              (s'.players.getD s'.currentPlayerIndex default).hand ≠ [] ∧
              s'.currentPlayerIndex ≠ 0 ∧
              ∃ k, 1 ≤ k ∧ k ≤ Asshole.asDemo1.players.length ∧
                s'.currentPlayerIndex = (0 + k) % Asshole.asDemo1.players.length ∧
                ∀ i, 1 ≤ i → i < k →
                  (s'.players.getD ((0 + i) % Asshole.asDemo1.players.length)
                    default).hand = []))) :=
  C1_play_effects Asshole.asDemo1 "player-0" Asshole.fourThrees 0 (by rfl) (by rfl)

/-! ## Claim C9 -/

/-- C9 counterexample: in the degenerate state `asDemo3` (`currentRank` set,
`currentCount = 0` — no reachable state is like this, but the claim
quantifies over every state) `getValidPlays` returns the empty play `[[]]`,
which `isValidPlay` rejects, so soundness fails as literally stated. -/
theorem C9_counterexample :
    Asshole.getValidPlays Asshole.asDemo3 "player-0" = [[]] ∧
      Asshole.isValidPlay Asshole.asDemo3 "player-0" [] = false :=
  ⟨rfl, rfl⟩

/-- C9 (amended): for every state in which a set `currentRank` comes with a
positive `currentCount` (true of every reachable state) and every player of
the game, `getValidPlays` returns exactly the same-rank sub-multisets of the
player's hand (of every size, over every rank group) that `isValidPlay`
accepts against the current pile: membership in the returned list is
equivalent to being a subsequence of the hand satisfying `isValidPlay`. -/
theorem C9_valid_plays (s : Asshole.AssholeState) (pid : String)
    (player : Asshole.AssholePlayer)
    (hp : s.players.find? (fun p => p.id == pid) = some player)
    (hcc : s.currentRank = none ∨ 1 ≤ s.currentCount) (cs : List Card) :
    cs ∈ Asshole.getValidPlays s pid ↔
      cs.Sublist player.hand ∧ Asshole.isValidPlay s pid cs = true := by
  have hvp : ∀ (c0 : Card) (cst : List Card),
      Asshole.isValidPlay s pid (c0 :: cst) = true ↔
        (∀ c ∈ cst, Asshole.getCardRank c = Asshole.getCardRank c0) ∧
          ((∃ h ∈ player.hand, h.id = c0.id) ∧
            ∀ c ∈ cst, ∃ h ∈ player.hand, h.id = c.id) ∧
          (match s.currentRank with
            | none => true
            | some cr =>
              decide (cst.length + 1 = s.currentCount) &&
                decide (cr < Asshole.getCardRank c0)) = true := by
    intro c0 cst
    simp only [Asshole.isValidPlay, hp]
    simp [List.all_eq_true, List.any_eq_true]
  simp only [Asshole.getValidPlays, hp]
  rw [List.mem_flatMap]
  constructor
  · rintro ⟨r, hr, hmem⟩
    cases hcr : s.currentRank with
    | none =>
      rw [hcr] at hmem
      simp only at hmem
      rw [List.mem_flatMap] at hmem
      obtain ⟨i, hi, hcomb⟩ := hmem
      obtain ⟨hsubg, hlen⟩ := Asshole.getCombinations_mem.mp hcomb
      have hsubh : cs.Sublist player.hand := hsubg.trans (List.filter_sublist _)
      refine ⟨hsubh, ?_⟩
      cases cs with
      | nil => simp at hlen
      | cons c0 cst =>
        rw [hvp c0 cst]
        have hrankmem : ∀ c ∈ (c0 :: cst), Asshole.getCardRank c = r := by
          intro c hc
          have hcf := List.Sublist.mem hc hsubg
          simpa using (List.mem_filter.mp hcf).2
        have h0 : Asshole.getCardRank c0 = r := hrankmem c0 (List.mem_cons_self _ _)
        refine ⟨?_, ⟨?_, ?_⟩, ?_⟩
        · intro c hc
          rw [hrankmem c (List.mem_cons_of_mem _ hc), h0]
        · exact ⟨c0, List.Sublist.mem (List.mem_cons_self _ _) hsubh, rfl⟩
        · intro c hc
          exact ⟨c, List.Sublist.mem (List.mem_cons_of_mem _ hc) hsubh, rfl⟩
        · rw [hcr]
    | some cr =>
      rw [hcr] at hmem
      simp only at hmem
      have hcount1 : 1 ≤ s.currentCount := by
        rcases hcc with h | h
        · rw [hcr] at h
          exact absurd h (by simp)
        · exact h
      by_cases hcond : cr < r ∧
          s.currentCount ≤ (player.hand.filter fun c =>
            Asshole.getCardRank c == r).length
      · rw [if_pos hcond] at hmem
        obtain ⟨hsubg, hlen⟩ := Asshole.getCombinations_mem.mp hmem
        have hsubh : cs.Sublist player.hand := hsubg.trans (List.filter_sublist _)
        refine ⟨hsubh, ?_⟩
        cases cs with
        | nil =>
          simp at hlen
          omega
        | cons c0 cst =>
          rw [hvp c0 cst]
          have hrankmem : ∀ c ∈ (c0 :: cst), Asshole.getCardRank c = r := by
            intro c hc
            have hcf := List.Sublist.mem hc hsubg
            simpa using (List.mem_filter.mp hcf).2
          have h0 : Asshole.getCardRank c0 = r := hrankmem c0 (List.mem_cons_self _ _)
          refine ⟨?_, ⟨?_, ?_⟩, ?_⟩
          · intro c hc
            rw [hrankmem c (List.mem_cons_of_mem _ hc), h0]
          · exact ⟨c0, List.Sublist.mem (List.mem_cons_self _ _) hsubh, rfl⟩
          · intro c hc
            exact ⟨c, List.Sublist.mem (List.mem_cons_of_mem _ hc) hsubh, rfl⟩
          · rw [hcr]
            have hlcount : cst.length + 1 = s.currentCount := by simpa using hlen
            simp [hlcount, h0, hcond.1]
      · rw [if_neg hcond] at hmem
        simp at hmem
  · rintro ⟨hsub, hvalid⟩
    cases cs with
    | nil =>
      simp [Asshole.isValidPlay, hp] at hvalid
    | cons c0 cst =>
      rw [hvp c0 cst] at hvalid
      obtain ⟨hranks, hmems, hpile⟩ := hvalid
      have hallr : ∀ c ∈ (c0 :: cst), Asshole.getCardRank c = Asshole.getCardRank c0 := by
        intro c hc
        rcases List.mem_cons.mp hc with rfl | hc2
        · rfl
        · exact hranks c hc2
      have hsubg : (c0 :: cst).Sublist (player.hand.filter fun c =>
          Asshole.getCardRank c == Asshole.getCardRank c0) :=
        Asshole.sublist_filter_of_all hsub fun c hc => by simp [hallr c hc]
      refine ⟨Asshole.getCardRank c0, ?_, ?_⟩
      · rw [Asshole.rankKeys_mem]
        exact ⟨c0, List.Sublist.mem (List.mem_cons_self _ _) hsub, rfl⟩
      · cases hcr : s.currentRank with
        | none =>
          simp only
          rw [List.mem_flatMap]
          refine ⟨cst.length, ?_, ?_⟩
          · rw [List.mem_range]
            have := hsubg.length_le
            simp only [List.length_cons] at this
            omega
          · rw [Asshole.getCombinations_mem]
            exact ⟨hsubg, by simp⟩
        | some cr =>
          rw [hcr] at hpile
          simp only [Bool.and_eq_true, decide_eq_true_eq] at hpile
          obtain ⟨hlen, hlt⟩ := hpile
          simp only
          rw [if_pos ⟨hlt, by
            have := hsubg.length_le
            simp only [List.length_cons] at this
            omega⟩]
          rw [Asshole.getCombinations_mem]
          exact ⟨hsubg, by simpa using hlen⟩

/-- C9 witness: in `asDemo2` (empty pile) the two-card subset 3♣3♦ of
player-0's pair-of-3s-plus-5 hand is produced by `getValidPlays`, via the
amended equivalence. -/
theorem C9_witness :
    [createCard .clubs .N3 0 true, createCard .diamonds .N3 1 true] ∈
      Asshole.getValidPlays Asshole.asDemo2 "player-0" :=
  (C9_valid_plays Asshole.asDemo2 "player-0"
      { id := "player-0", name := "P0", type := .human,
        hand := [createCard .clubs .N3 0 true, createCard .diamonds .N3 1 true,
                 createCard .spades .N5 2 true],
        rank := none, finishOrder := none, hasPassed := false }
      rfl (Or.inl rfl) _).mpr
    ⟨List.sublist_append_left _ [createCard .spades .N5 2 true], rfl⟩

/-! ## Hearts lemmas -/

theorem getD_map {α β : Type} (f : α → β) (l : List α) (i : Nat) (d : β) (d2 : α)
    (h : i < l.length) : (l.map f).getD i d = f (l.getD i d2) := by
  have hlen : i < (l.map f).length := by simpa using h
  rw [List.getD_eq_getElem _ _ hlen, List.getD_eq_getElem _ _ h]
  simp

theorem getD_mapIdx {α β : Type} (f : Nat → α → β) (l : List α) (i : Nat) (d : β)
    (d2 : α) (h : i < l.length) : (l.mapIdx f).getD i d = f i (l.getD i d2) := by
  have hlen : i < (l.mapIdx f).length := by simpa using h
  rw [List.getD_eq_getElem _ _ hlen, List.getD_eq_getElem _ _ h]
  simp [List.getElem_mapIdx]

theorem getD_le_sum (l : List Nat) (j : Nat) (h : j < l.length) :
    l.getD j 0 ≤ l.sum := by
  induction l generalizing j with
  | nil => simp at h
  | cons x xs ih =>
    cases j with
    | zero => simp
    | succ j =>
      have := ih j (by simpa using h)
      simp only [List.getD_cons_succ, List.sum_cons]
      omega

theorem two_getD_le_sum (l : List Nat) (i j : Nat) (hij : i ≠ j)
    (hi : i < l.length) (hj : j < l.length) :
    l.getD i 0 + l.getD j 0 ≤ l.sum := by
  induction l generalizing i j with
  | nil => simp at hi
  | cons x xs ih =>
    cases i with
    | zero =>
      cases j with
      | zero => omega
      | succ j =>
        have := getD_le_sum xs j (by simpa using hj)
        simp only [List.getD_cons_zero, List.getD_cons_succ, List.sum_cons]
        omega
    | succ i =>
      cases j with
      | zero =>
        have := getD_le_sum xs i (by simpa using hi)
        simp only [List.getD_cons_zero, List.getD_cons_succ, List.sum_cons]
        omega
      | succ j =>
        have := ih i j (by omega) (by simpa using hi) (by simpa using hj)
        simp only [List.getD_cons_succ, List.sum_cons]
        omega

theorem getD_inj_of_nodup_map {α β : Type} [Inhabited α] (f : α → β) (l : List α)
    (hnodup : (l.map f).Nodup) (i j : Nat) (hi : i < l.length) (hj : j < l.length)
    (hf : f (l.getD i default) = f (l.getD j default)) : i = j := by
  have hi2 : i < (l.map f).length := by simpa using hi
  have hj2 : j < (l.map f).length := by simpa using hj
  have hget : (l.map f).get ⟨i, hi2⟩ = (l.map f).get ⟨j, hj2⟩ := by
    simp only [List.get_map]
    rw [List.getD_eq_getElem _ _ hi, List.getD_eq_getElem _ _ hj] at hf
    exact hf
  have := (List.Nodup.get_inj_iff hnodup).mp hget
  exact congrArg Fin.val this

namespace Hearts

theorem trickScan_hv_mono (rest : List TrickEntry) (lead : Suit) :
    ∀ i w hv, hv ≤ (trickScan rest lead i w hv).2 := by
  induction rest with
  | nil =>
    intro i w hv
    simp [trickScan]
  | cons e es ih =>
    intro i w hv
    rw [trickScan]
    by_cases hcond : e.card.suit = lead ∧ hv < e.card.value
    · rw [if_pos hcond]
      have := ih (i + 1) i e.card.value
      omega
    · rw [if_neg hcond]
      exact ih (i + 1) w hv

theorem trickScan_dominates (rest : List TrickEntry) (lead : Suit) :
    ∀ i w hv k, k < rest.length → (rest.getD k default).card.suit = lead →
      (rest.getD k default).card.value ≤ (trickScan rest lead i w hv).2 := by
  induction rest with
  | nil =>
    intro i w hv k hk
    simp at hk
  | cons e es ih =>
    intro i w hv k hk hsuit
    rw [trickScan]
    by_cases hcond : e.card.suit = lead ∧ hv < e.card.value
    · rw [if_pos hcond]
      cases k with
      | zero =>
        simp only [List.getD_cons_zero] at hsuit ⊢
        exact trickScan_hv_mono es lead (i + 1) i e.card.value
      | succ k =>
        simp only [List.getD_cons_succ] at hsuit ⊢
        exact ih (i + 1) i e.card.value k (by simpa using hk) hsuit
    · rw [if_neg hcond]
      cases k with
      | zero =>
        simp only [List.getD_cons_zero] at hsuit ⊢
        have hle : e.card.value ≤ hv := by
          by_contra hgt
          exact hcond ⟨hsuit, by omega⟩
        have := trickScan_hv_mono es lead (i + 1) w hv
        omega
      | succ k =>
        simp only [List.getD_cons_succ] at hsuit ⊢
        exact ih (i + 1) w hv k (by simpa using hk) hsuit

theorem trickScan_result (rest : List TrickEntry) (lead : Suit) :
    ∀ i w hv, trickScan rest lead i w hv = (w, hv) ∨
      ∃ k, k < rest.length ∧
        trickScan rest lead i w hv = (i + k, (rest.getD k default).card.value) ∧
        (rest.getD k default).card.suit = lead := by
  induction rest with
  | nil =>
    intro i w hv
    left
    simp [trickScan]
  | cons e es ih =>
    intro i w hv
    rw [trickScan]
    by_cases hcond : e.card.suit = lead ∧ hv < e.card.value
    · rw [if_pos hcond]
      rcases ih (i + 1) i e.card.value with heq | ⟨k, hk, heq, hsuit⟩
      · right
        exact ⟨0, by simp, by simpa using heq, by simpa using hcond.1⟩
      · right
        refine ⟨k + 1, by simpa using hk, ?_, by simpa using hsuit⟩
        rw [heq]
        simp only [List.getD_cons_succ, Prod.mk.injEq]
        exact ⟨by omega, trivial⟩
    · rw [if_neg hcond]
      rcases ih (i + 1) w hv with heq | ⟨k, hk, heq, hsuit⟩
      · left
        exact heq
      · right
        refine ⟨k + 1, by simpa using hk, ?_, by simpa using hsuit⟩
        rw [heq]
        simp only [List.getD_cons_succ, Prod.mk.injEq]
        exact ⟨by omega, trivial⟩

theorem rank_ne_A_value (r : Rank) (h : r ≠ Rank.A) : 2 ≤ getRankValue r := by
  cases r <;> simp [getRankValue] at h ⊢

end Hearts

/-! ## Claim C10 -/

/-- C10: under the shared rank-to-value mapping the Ace is worth 1 (the
lowest value of its suit), and in the trick-resolution scan of
`completeTrick` (`trickWinnerIdx`) an Ace of the lead suit never wins a
trick in which a second, non-Ace card of the lead suit was played. -/
theorem C10_ace_never_wins (trick : List Hearts.TrickEntry) (lead : Suit)
    (i j : Nat) (hi : i < trick.length) (hj : j < trick.length) (hij : i ≠ j)
    (hvi : (trick.getD i default).card.value =
      getRankValue (trick.getD i default).card.rank)
    (hvj : (trick.getD j default).card.value =
      getRankValue (trick.getD j default).card.rank)
    (hisuit : (trick.getD i default).card.suit = lead)
    (hirank : (trick.getD i default).card.rank = Rank.A)
    (hjsuit : (trick.getD j default).card.suit = lead)
    (hjrank : (trick.getD j default).card.rank ≠ Rank.A) :
    getRankValue Rank.A = 1 ∧ Hearts.trickWinnerIdx trick lead ≠ i := by
  constructor
  · rfl
  have hvi1 : (trick.getD i default).card.value = 1 := by
    rw [hvi, hirank]
    rfl
  have hvj2 : 2 ≤ (trick.getD j default).card.value := by
    rw [hvj]
    exact Hearts.rank_ne_A_value _ hjrank
  have hdom := Hearts.trickScan_dominates trick lead 0 0 0 j hj hjsuit
  rcases Hearts.trickScan_result trick lead 0 0 0 with heq | ⟨k, hk, heq, hsuit⟩
  · have hdom2 : (trick.getD j default).card.value ≤ 0 := by
      rw [heq] at hdom
      exact hdom
    omega
  · have hw : Hearts.trickWinnerIdx trick lead = k := by
      unfold Hearts.trickWinnerIdx
      rw [heq]
      simp
    rw [hw]
    intro hcontra
    subst hcontra
    have hdom2 : (trick.getD j default).card.value ≤
        (trick.getD k default).card.value := by
      rw [heq] at hdom
      exact hdom
    omega

/-- C10 witness: in the all-clubs trick led by the A♣ with a K♣ also played,
the Ace (entry 0) does not win. -/
theorem C10_witness :
    getRankValue Rank.A = 1 ∧
      Hearts.trickWinnerIdx Hearts.aceTrickDemo Suit.clubs ≠ 0 :=
  C10_ace_never_wins Hearts.aceTrickDemo Suit.clubs 0 2 (by decide) (by decide)
    (by decide) (by decide) (by decide) (by decide) (by decide) (by decide)
    (by decide)

/-! ## Claim C8 -/

/-- C8: when a Hearts round ends — the players' round scores total the 26
points in play and player ids are distinct, as in every real deal — the
cumulative scores after `completeRound` are: the moon-shooter (a player
whose round score is all 26) gains 0 while every other player gains 26; and
with no moon-shooter, every player gains exactly their own round score.
This holds whether the game ends or a fresh round is dealt. -/
theorem C8_round_scoring (s : Hearts.HeartsState) (freshDeck : List Card)
    (hnodup : (s.players.map (·.id)).Nodup)
    (hsum : (s.players.map (·.roundScore)).sum = 26)
    (i : Nat) (hi : i < s.players.length) :
    ((Hearts.completeRound s freshDeck).players.getD i default).score =
      (s.players.getD i default).score +
        (if (s.players.getD i default).roundScore = 26 then 0
         else if s.players.any (fun p => p.roundScore == 26) then 26
         else (s.players.getD i default).roundScore) := by
  unfold Hearts.completeRound
  have hscore_tail : ∀ (np : List Hearts.HeartsPlayer),
      np.length = s.players.length →
      (((if s.gameScore ≤ (np.map (·.score)).foldl max 0 then
          { s with players := np, phase := Hearts.HPhase.gameEnd }
        else Hearts.startNewRound { s with players := np } freshDeck)).players.getD
          i default).score = (np.getD i default).score := by
    intro np hlen
    by_cases hend : s.gameScore ≤ (np.map (·.score)).foldl max 0
    · rw [if_pos hend]
    · rw [if_neg hend]
      unfold Hearts.startNewRound
      simp only
      rw [getD_mapIdx _ _ _ _ default (by omega)]
  cases hfind : s.players.find? (fun p => p.roundScore == 26) with
  | none =>
    have hnone : ∀ p ∈ s.players, ¬ (p.roundScore == 26) = true :=
      fun p hp => by
        have := List.find?_eq_none.mp hfind p hp
        simpa using this
    have hany : (s.players.any fun p => p.roundScore == 26) = false := by
      rw [List.any_eq_false]
      exact hnone
    have hmem : s.players.getD i default ∈ s.players := by
      rw [List.getD_eq_getElem _ _ hi]
      exact List.getElem_mem hi
    have hnot26 : (s.players.getD i default).roundScore ≠ 26 := by
      have := hnone _ hmem
      simpa using this
    rw [hscore_tail _ (by simp), getD_map _ _ _ _ default hi,
        if_neg hnot26, hany]
    simp
  | some shooter =>
    have hp26 : shooter.roundScore = 26 := by
      have := List.find?_some hfind
      simpa using this
    have hsmem : shooter ∈ s.players := List.mem_of_find?_eq_some hfind
    obtain ⟨js, hjs, hgetjs⟩ : ∃ n, ∃ h : n < s.players.length, s.players[n] = shooter := by
      obtain ⟨n, hn, he⟩ := List.getElem_of_mem hsmem
      exact ⟨n, hn, he⟩
    have hgetDjs : s.players.getD js default = shooter := by
      rw [List.getD_eq_getElem _ _ hjs]
      exact hgetjs
    have hany : (s.players.any fun p => p.roundScore == 26) = true :=
      List.any_eq_true.mpr ⟨shooter, hsmem, by simp [hp26]⟩
    have hrs_map : ∀ k (hk : k < s.players.length),
        (s.players.map (·.roundScore)).getD k 0 =
          (s.players.getD k default).roundScore :=
      fun k hk => getD_map _ _ _ _ default hk
    rw [hscore_tail _ (by simp), getD_map _ _ _ _ default hi]
    by_cases h26i : (s.players.getD i default).roundScore = 26
    · have hieq : i = js := by
        by_contra hne
        have := two_getD_le_sum (s.players.map (·.roundScore)) i js hne
          (by simpa using hi) (by simpa using hjs)
        rw [hsum, hrs_map i hi, hrs_map js hjs, hgetDjs, h26i, hp26] at this
        omega
      have hid : (s.players.getD i default).id = shooter.id := by
        rw [hieq, hgetDjs]
      rw [if_pos hid, if_pos h26i]
    · have hid : (s.players.getD i default).id ≠ shooter.id := by
        intro hcontra
        have hieq : i = js := by
          apply getD_inj_of_nodup_map (·.id) s.players hnodup i js hi hjs
          rw [hgetDjs]
          exact hcontra
        rw [hieq, hgetDjs] at h26i
        exact h26i hp26
      rw [if_neg hid, if_neg h26i, hany]
      simp

/-- C8 witness: the theorem applied to the concrete moon-shot position
`moonDemo` at player-1, who gains 26. -/
theorem C8_witness :
    ((Hearts.completeRound Hearts.moonDemo createDeck).players.getD 1 default).score =
      (Hearts.moonDemo.players.getD 1 default).score +
        (if (Hearts.moonDemo.players.getD 1 default).roundScore = 26 then 0
         else if Hearts.moonDemo.players.any (fun p => p.roundScore == 26) then 26
         else (Hearts.moonDemo.players.getD 1 default).roundScore) :=
  C8_round_scoring Hearts.moonDemo createDeck (by decide) (by decide) 1 (by decide)

/-! ## Poker lemmas -/

namespace Poker

theorem insertDesc_perm (c : Card) (l : List Card) :
    List.Perm (insertDesc c l) (c :: l) := by
  induction l with
  | nil => simp [insertDesc]
  | cons d ds ih =>
    unfold insertDesc
    by_cases h : d.value ≤ c.value
    · simp [h]
    · simp only [if_neg h]
      exact (ih.cons d).trans (List.Perm.swap c d ds)

theorem sortByValueDesc_perm (l : List Card) :
    List.Perm (sortByValueDesc l) l := by
  induction l with
  | nil => simp [sortByValueDesc]
  | cons c cs ih =>
    unfold sortByValueDesc at *
    simp only [List.foldr_cons]
    exact (insertDesc_perm c _).trans (ih.cons c)

theorem pairwise_insertDesc {c : Card} {l : List Card}
    (h : l.Pairwise fun a b => b.value ≤ a.value) :
    (insertDesc c l).Pairwise fun a b => b.value ≤ a.value := by
  induction l with
  | nil => simp [insertDesc]
  | cons d ds ih =>
    rcases List.pairwise_cons.mp h with ⟨hd, hds⟩
    unfold insertDesc
    by_cases hc : d.value ≤ c.value
    · simp only [if_pos hc]
      refine List.pairwise_cons.mpr ⟨?_, h⟩
      intro x hx
      rcases List.mem_cons.mp hx with rfl | hx
      · exact hc
      · exact le_trans (hd x hx) hc
    · simp only [if_neg hc]
      refine List.pairwise_cons.mpr ⟨?_, ih hds⟩
      intro x hx
      rcases List.mem_cons.mp ((insertDesc_perm c ds).mem_iff.mp hx) with rfl | hx
      · omega
      · exact hd x hx

/-- The descending-by-value sort really is descending. -/
theorem sortByValueDesc_pairwise (l : List Card) :
    (sortByValueDesc l).Pairwise fun a b => b.value ≤ a.value := by
  induction l with
  | nil => simp [sortByValueDesc]
  | cons c cs ih =>
    unfold sortByValueDesc at *
    simp only [List.foldr_cons]
    exact pairwise_insertDesc ih

/-- On five-card lists the kicker loop of `compareHands` is exactly the
lexicographic comparison of the value sequences. -/
theorem compareKickers_eq_kickerLex (a b : List Card)
    (ha : a.length = 5) (hb : b.length = 5) :
    compareKickers a b =
      kickerLex (a.map fun c => c.value) (b.map fun c => c.value) := by
  rcases a with _ | ⟨a0, _ | ⟨a1, _ | ⟨a2, _ | ⟨a3, _ | ⟨a4, a⟩⟩⟩⟩⟩ <;>
    simp only [List.length_cons, List.length_nil] at ha <;> try omega
  rcases b with _ | ⟨b0, _ | ⟨b1, _ | ⟨b2, _ | ⟨b3, _ | ⟨b4, b⟩⟩⟩⟩⟩ <;>
    simp only [List.length_cons, List.length_nil] at hb <;> try omega
  have ha0 : a = [] := List.length_eq_zero.mp (by omega)
  have hb0 : b = [] := List.length_eq_zero.mp (by omega)
  subst ha0
  subst hb0
  simp only [compareKickers, kickerLex, List.map_cons, List.map_nil,
    List.getD_cons_zero, List.getD_cons_succ]

end Poker

/-! ## Claim C4 -/

/-- C4: in the concrete two-player game `pokerDemo` (pot 30 after blinds),
the big blind folding leaves exactly one player not folded; the engine jumps
to `showdown` and records a winners entry carrying the full pot of 30 for
player-1, but no chips are credited: both chip counts are exactly what they
were before the fold (980 and 990), so the winner's stack does not increase
by the pot. -/
theorem C4_foldout_no_payout :
    (Poker.fold Poker.pokerDemo "player-0").map
        (fun s => (s.phase, s.pot, s.winners, s.players.map fun p => p.chips)) =
      some (Poker.PPhase.showdown, 30,
        some [⟨"player-1", 30, "Last player standing"⟩], [980, 990]) ∧
    Poker.pokerDemo.players.map (fun p => p.chips) = [980, 990] :=
  ⟨by decide, by decide⟩

/-! ## Claim C5 -/

/-- C5: the five-card evaluator scores the spade royal as a royal flush and
the mixed-suit wheel A-2-3-4-5 as a straight (hence not high-card); for any
two five-card hands of equal evaluated category, `compareHands` equals the
lexicographic comparison of the descending value sequences of the sorted
cards; and the sorted card list is genuinely descending in value. -/
theorem C5_hand_evaluator :
    (Poker.evaluateFiveCards Poker.royalHand).rank = Poker.HandRank.royalFlush ∧
    (Poker.evaluateFiveCards Poker.wheelHand).rank = Poker.HandRank.straight ∧
    (∀ c1 c2 : List Card, c1.length = 5 → c2.length = 5 →
      (Poker.evaluateFiveCards c1).rank = (Poker.evaluateFiveCards c2).rank →
      Poker.compareHands (Poker.evaluateFiveCards c1) (Poker.evaluateFiveCards c2) =
        Poker.kickerLex ((Poker.sortByValueDesc c1).map fun c => c.value)
          ((Poker.sortByValueDesc c2).map fun c => c.value)) ∧
    (∀ c : List Card,
      (Poker.sortByValueDesc c).Pairwise fun a b => b.value ≤ a.value) := by
  refine ⟨by decide, by decide, ?_, Poker.sortByValueDesc_pairwise⟩
  intro c1 c2 h1 h2 hrank
  have e1 : (Poker.evaluateFiveCards c1).rankValue =
      Poker.HAND_RANK_VALUES (Poker.evaluateFiveCards c1).rank := rfl
  have e2 : (Poker.evaluateFiveCards c2).rankValue =
      Poker.HAND_RANK_VALUES (Poker.evaluateFiveCards c2).rank := rfl
  have hv : (Poker.evaluateFiveCards c1).rankValue =
      (Poker.evaluateFiveCards c2).rankValue := by
    rw [e1, e2, hrank]
  unfold Poker.compareHands
  rw [if_neg (not_ne_iff.mpr hv)]
  have hc1 : (Poker.evaluateFiveCards c1).cards = Poker.sortByValueDesc c1 := rfl
  have hc2 : (Poker.evaluateFiveCards c2).cards = Poker.sortByValueDesc c2 := rfl
  rw [hc1, hc2]
  exact Poker.compareKickers_eq_kickerLex _ _
    (by rw [(Poker.sortByValueDesc_perm c1).length_eq, h1])
    (by rw [(Poker.sortByValueDesc_perm c2).length_eq, h2])

/-- C5 witness: two king-high flushes differing in the last kicker; the
comparison equals the lexicographic comparison of the descending value
sequences (both evaluate to 1, the first hand winning on the fifth card). -/
theorem C5_witness :
    Poker.compareHands (Poker.evaluateFiveCards Poker.flushA)
        (Poker.evaluateFiveCards Poker.flushB) =
      Poker.kickerLex ((Poker.sortByValueDesc Poker.flushA).map fun c => c.value)
        ((Poker.sortByValueDesc Poker.flushB).map fun c => c.value) :=
  C5_hand_evaluator.2.2.1 Poker.flushA Poker.flushB rfl rfl (by decide)

/-! ## Conservation helper lemmas (Claim C2) -/

theorem list_decomp_getD {α : Type} [Inhabited α] (l : List α) (i : Nat)
    (hi : i < l.length) :
    l = l.take i ++ l.getD i default :: l.drop (i + 1) := by
  rw [List.getD_eq_getElem l default hi, ← List.drop_eq_getElem_cons hi,
    List.take_append_drop]

/-- The count bookkeeping of one `List.set`: the new collection plus the
replaced element's contribution matches the old collection plus the new
element's contribution. -/
theorem count_flatMap_set {α : Type} [Inhabited α] (f : α → List Nat) (l : List α)
    (i : Nat) (a : α) (hi : i < l.length) (x : Nat) :
    ((l.set i a).flatMap f).count x + (f (l.getD i default)).count x =
      (l.flatMap f).count x + (f a).count x := by
  have hset : l.set i a = l.take i ++ a :: l.drop (i + 1) := by
    rw [List.set_eq_take_append_cons_drop, if_pos hi]
  rw [hset]
  conv_rhs => rw [list_decomp_getD l i hi]
  simp only [List.flatMap_append, List.flatMap_cons, List.count_append]
  omega

/-- Replacing an element whose contribution is unchanged permutes nothing. -/
theorem flatMap_set_perm_of_eq {α : Type} [Inhabited α] (f : α → List Nat)
    (l : List α) (i : Nat) (a : α) (hf : f a = f (l.getD i default)) :
    List.Perm ((l.set i a).flatMap f) (l.flatMap f) := by
  by_cases hi : i < l.length
  · rw [List.perm_iff_count]
    intro x
    have h := count_flatMap_set f l i a hi x
    rw [hf] at h
    omega
  · rw [List.set_eq_of_length_le (Nat.le_of_not_lt hi)]

theorem sublist_flatMap_getD {α : Type} [Inhabited α] (f : α → List Nat)
    (l : List α) (i : Nat) (hi : i < l.length) :
    (f (l.getD i default)).Sublist (l.flatMap f) := by
  conv_rhs => rw [list_decomp_getD l i hi]
  rw [List.flatMap_append, List.flatMap_cons]
  exact (List.sublist_append_left _ _).trans (List.sublist_append_right _ _)

/-- Mapping an element-wise id-preserving function leaves `idsOf` unchanged. -/
theorem idsOf_map_of_id_eq (g : Card → Card) (h : ∀ c, (g c).id = c.id)
    (l : List Card) : idsOf (l.map g) = idsOf l := by
  unfold idsOf
  rw [List.map_map]
  exact List.map_congr_left fun c _ => h c

theorem flatMap_map_eq_of {α : Type} (g : α → α) (f : α → List Nat)
    (h : ∀ a, f (g a) = f a) (l : List α) :
    (l.map g).flatMap f = l.flatMap f := by
  induction l with
  | nil => rfl
  | cons a as ih => simp only [List.map_cons, List.flatMap_cons, h, ih]

theorem flatMap_perm_congr {α : Type} (f f2 : α → List Nat) (l : List α)
    (h : ∀ x ∈ l, List.Perm (f x) (f2 x)) :
    List.Perm (l.flatMap f) (l.flatMap f2) := by
  induction l with
  | nil => exact List.Perm.refl _
  | cons a as ih =>
    rw [List.flatMap_cons, List.flatMap_cons]
    exact (h a (List.mem_cons_self a as)).append
      (ih fun x hx => h x (List.mem_cons_of_mem a hx))

theorem flatMap_nil_fun {α : Type} (l : List α) :
    (l.flatMap fun _ => ([] : List Nat)) = [] := by
  induction l with
  | nil => rfl
  | cons a as ih =>
    rw [List.flatMap_cons, ih]
    rfl

/-- `flatMap` over `mapIdx`, re-indexed over `List.range`. -/
theorem flatMap_mapIdx_eq {α β : Type} [Inhabited α] (f : β → List Nat) :
    ∀ (l : List α) (g : Nat → α → β),
      (l.mapIdx g).flatMap f =
        (List.range l.length).flatMap (fun i => f (g i (l.getD i default)))
  | [], _ => rfl
  | a :: as, g => by
    rw [List.mapIdx_cons, List.flatMap_cons, List.length_cons,
      List.range_succ_eq_map, List.flatMap_cons, List.flatMap_map]
    rw [flatMap_mapIdx_eq f as (fun i => g (i + 1))]
    rfl

/-- Consecutive `cpp`-sized slices concatenate to a prefix of the deck. -/
theorem slices_concat (deck : List Card) (cpp : Nat) :
    ∀ n : Nat, (List.range n).flatMap (fun i => (deck.drop (i * cpp)).take cpp) =
      deck.take (n * cpp)
  | 0 => by simp
  | n + 1 => by
    rw [List.range_succ, List.flatMap_append, slices_concat deck cpp n,
      List.flatMap_cons, List.flatMap_nil, List.append_nil, Nat.succ_mul,
      List.take_add]

theorem idsOf_flatMap {α : Type} (g : α → List Card) (l : List α) :
    idsOf (l.flatMap g) = l.flatMap (fun x => idsOf (g x)) := by
  unfold idsOf
  rw [List.map_flatMap]

theorem range_map_getD_eq_take {α : Type} [Inhabited α] (l : List α) :
    ∀ n : Nat, n ≤ l.length →
      (List.range n).map (fun k => l.getD k default) = l.take n
  | 0, _ => rfl
  | n + 1, h => by
    have hn : n < l.length := h
    rw [List.range_succ, List.map_append,
      range_map_getD_eq_take l n (Nat.le_of_succ_le h), List.take_succ,
      List.getElem?_eq_getElem hn]
    simp only [List.map_cons, List.map_nil, Option.toList_some]
    rw [List.getD_eq_getElem l default hn]

theorem nodup_of_subperm {l m : List Nat} (h : List.Subperm l m) (hm : m.Nodup) :
    l.Nodup := by
  obtain ⟨t, hperm, hsub⟩ := h
  exact hperm.nodup_iff.mp (hsub.nodup hm)

theorem deckIds_nodup : deckIds.Nodup := List.nodup_range 52

/-- Removing a distinct selection from a hand with distinct ids and putting
it back is a permutation: the filter drops exactly the selected cards. -/
theorem filter_out_sublist_perm (hand : List Card) :
    ∀ cards : List Card, cards.Sublist hand → (idsOf hand).Nodup →
      List.Perm
        (idsOf (hand.filter fun h => !(cards.any fun c => c.id == h.id)) ++
          idsOf cards)
        (idsOf hand) := by
  induction hand with
  | nil =>
    intro cards hsub _
    rw [List.sublist_nil.mp hsub]
    exact List.Perm.refl _
  | cons h hs ih =>
    intro cards hsub hnd
    have hnds : (idsOf hs).Nodup := (List.nodup_cons.mp hnd).2
    have hhid : h.id ∉ idsOf hs := (List.nodup_cons.mp hnd).1
    rcases List.sublist_cons_iff.mp hsub with hcs | ⟨cs, rfl, hcs⟩
    · have hany : (cards.any fun c => c.id == h.id) = false := by
        cases hb : cards.any fun c => c.id == h.id
        · rfl
        · exfalso
          rw [List.any_eq_true] at hb
          obtain ⟨c, hc, hcid⟩ := hb
          exact hhid (beq_iff_eq.mp hcid ▸
            List.mem_map_of_mem (fun x => x.id) (hcs.subset hc))
      rw [List.filter_cons, if_pos (by rw [hany]; rfl)]
      show List.Perm (h.id :: (idsOf (hs.filter _) ++ idsOf cards)) (h.id :: idsOf hs)
      exact (ih cards hcs hnds).cons h.id
    · have hyes : ((h :: cs).any fun c => c.id == h.id) = true := by
        rw [List.any_eq_true]
        exact ⟨h, List.mem_cons_self h cs, by simp⟩
      rw [List.filter_cons, if_neg (by rw [hyes]; decide)]
      have hsame : (hs.filter fun x => !((h :: cs).any fun c => c.id == x.id)) =
          (hs.filter fun x => !(cs.any fun c => c.id == x.id)) := by
        apply List.filter_congr
        intro x hx
        have hne : (h.id == x.id) = false := by
          rw [beq_eq_false_iff_ne]
          intro he
          exact hhid (he ▸ List.mem_map_of_mem (fun y => y.id) hx)
        simp only [List.any_cons, hne, Bool.false_or]
      rw [hsame]
      show List.Perm (idsOf (hs.filter _) ++ (h.id :: idsOf cs)) (h.id :: idsOf hs)
      exact List.perm_middle.trans ((ih cs hcs hnds).cons h.id)

/-- Removing one id from a hand with distinct ids and putting it back is a
permutation. -/
theorem filter_out_id_perm (hand : List Card) (cid : Nat) :
    cid ∈ idsOf hand → (idsOf hand).Nodup →
      List.Perm (idsOf (hand.filter fun h => !(h.id == cid)) ++ [cid])
        (idsOf hand) := by
  induction hand with
  | nil => intro hmem _; exact absurd hmem (List.not_mem_nil cid)
  | cons h hs ih =>
    intro hmem hnd
    have hnds : (idsOf hs).Nodup := (List.nodup_cons.mp hnd).2
    have hhid : h.id ∉ idsOf hs := (List.nodup_cons.mp hnd).1
    by_cases hid : h.id = cid
    · have hstay : (hs.filter fun x => !(x.id == cid)) = hs := by
        apply List.filter_eq_self.mpr
        intro x hx
        have : x.id ≠ cid := by
          intro he
          exact hhid (by rw [hid, ← he]; exact List.mem_map_of_mem (fun y => y.id) hx)
        rw [beq_eq_false_iff_ne.mpr this]
        rfl
      rw [List.filter_cons, if_neg (by rw [beq_iff_eq.mpr hid]; decide), hstay]
      show List.Perm (idsOf hs ++ [cid]) (h.id :: idsOf hs)
      rw [hid]
      exact List.perm_append_singleton cid (idsOf hs)
    · have hmem2 : cid ∈ idsOf hs := by
        rcases List.mem_cons.mp hmem with he | hm
        · exact absurd he.symm hid
        · exact hm
      rw [List.filter_cons, if_pos (by rw [beq_eq_false_iff_ne.mpr hid]; rfl)]
      show List.Perm (h.id :: (idsOf (hs.filter _) ++ [cid])) (h.id :: idsOf hs)
      exact (ih hmem2 hnds).cons h.id

theorem getLast?_decomp {α : Type} {l : List α} {a : α} (h : l.getLast? = some a) :
    l = l.dropLast ++ [a] := by
  have hne : l ≠ [] := by
    intro h2
    rw [h2] at h
    simp at h
  rw [List.getLast?_eq_getLast l hne] at h
  conv_lhs => rw [← List.dropLast_append_getLast hne]
  rw [Option.some_inj.mp h]

theorem getD_nil_default {α : Type} {l : List α} {i : Nat} {d : α}
    (h : ¬ i < l.length) : l.getD i d = d := by
  unfold List.getD
  rw [List.get?_eq_getElem?, List.getElem?_eq_none (Nat.le_of_not_lt h)]
  rfl

theorem suitIndex_lt (su : Suit) : suitIndex su < 4 := by
  cases su <;> decide

/-! ## Blackjack conservation (Claim C2) -/

namespace Blackjack

theorem dealToEach_perm :
    ∀ (ps : List BlackjackPlayer) (deck : List Card),
      List.Perm
        (idsOf (dealToEach deck ps).1 ++
          (dealToEach deck ps).2.flatMap (fun p => idsOf p.hand))
        (idsOf deck ++ ps.flatMap (fun p => idsOf p.hand)) := by
  intro ps
  induction ps with
  | nil =>
    intro deck
    exact List.Perm.refl _
  | cons p ps ih =>
    intro deck
    rw [List.perm_iff_count]
    intro x
    have hIH := (ih (deck.drop 1)).count_eq x
    have htd : (idsOf (deck.take 1)).count x + (idsOf (deck.drop 1)).count x =
        (idsOf deck).count x := by
      rw [← List.count_append, ← idsOf_append, List.take_append_drop]
    have hmap : idsOf ((deck.take 1).map fun c => { c with faceUp := true }) =
        idsOf (deck.take 1) :=
      idsOf_map_of_id_eq (fun c => { c with faceUp := true }) (fun c => rfl) _
    simp only [dealToEach, drawCards, List.flatMap_cons, idsOf_append,
      List.count_append, hmap] at *
    omega

theorem dealInitialCards_perm (s : BlackjackState) :
    List.Perm (bjIds (dealInitialCards s)) (bjIds s) := by
  rw [List.perm_iff_count]
  intro x
  have h0 := (dealToEach_perm s.players s.deck).count_eq x
  have h1 := (dealToEach_perm (dealToEach s.deck s.players).2
    ((dealToEach s.deck s.players).1.drop 1)).count_eq x
  have ht0 : (idsOf ((dealToEach s.deck s.players).1.take 1)).count x +
      (idsOf ((dealToEach s.deck s.players).1.drop 1)).count x =
      (idsOf (dealToEach s.deck s.players).1).count x := by
    rw [← List.count_append, ← idsOf_append, List.take_append_drop]
  have ht1 : (idsOf ((dealToEach ((dealToEach s.deck s.players).1.drop 1)
        (dealToEach s.deck s.players).2).1.take 1)).count x +
      (idsOf ((dealToEach ((dealToEach s.deck s.players).1.drop 1)
        (dealToEach s.deck s.players).2).1.drop 1)).count x =
      (idsOf (dealToEach ((dealToEach s.deck s.players).1.drop 1)
        (dealToEach s.deck s.players).2).1).count x := by
    rw [← List.count_append, ← idsOf_append, List.take_append_drop]
  have hflag : ((dealToEach ((dealToEach s.deck s.players).1.drop 1)
        (dealToEach s.deck s.players).2).2.map fun p =>
          if isBlackjack p.hand then { p with hasBlackjack := true, hasStood := true }
          else p).flatMap (fun p => idsOf p.hand) =
      (dealToEach ((dealToEach s.deck s.players).1.drop 1)
        (dealToEach s.deck s.players).2).2.flatMap (fun p => idsOf p.hand) := by
    apply flatMap_map_eq_of
    intro p
    by_cases hb : isBlackjack p.hand = true
    · rw [if_pos hb]
    · rw [if_neg hb]
  have hmap0 : idsOf (((dealToEach s.deck s.players).1.take 1).map
      fun (c : Card) => { c with faceUp := true }) =
      idsOf ((dealToEach s.deck s.players).1.take 1) :=
    idsOf_map_of_id_eq (fun c => { c with faceUp := true }) (fun c => rfl) _
  have hmap1 : idsOf (((dealToEach ((dealToEach s.deck s.players).1.drop 1)
        (dealToEach s.deck s.players).2).1.take 1).map
      fun (c : Card) => { c with faceUp := false }) =
      idsOf ((dealToEach ((dealToEach s.deck s.players).1.drop 1)
        (dealToEach s.deck s.players).2).1.take 1) :=
    idsOf_map_of_id_eq (fun c => { c with faceUp := false }) (fun c => rfl) _
  simp only [List.count_append] at h0 h1
  unfold bjIds dealInitialCards
  simp only [drawCards, hflag, idsOf_append, List.count_append, hmap0, hmap1]
  by_cases hd : isBlackjack (s.dealer.hand ++
      ((dealToEach s.deck s.players).1.take 1).map
        (fun (c : Card) => { c with faceUp := true }) ++
      ((dealToEach ((dealToEach s.deck s.players).1.drop 1)
        (dealToEach s.deck s.players).2).1.take 1).map
        (fun (c : Card) => { c with faceUp := false })) = true
  · rw [if_pos hd]
    simp only [idsOf_append, List.count_append, hmap0, hmap1]
    omega
  · rw [if_neg hd]
    simp only [idsOf_append, List.count_append, hmap0, hmap1]
    omega

theorem placeBet_perm {s s' : BlackjackState} {pid : String} {amount : Rat}
    (hstep : placeBet s pid amount = some s') :
    List.Perm (bjIds s') (bjIds s) := by
  rcases hfind : s.players.findIdx? (fun p => p.id == pid) with _ | pi
  · simp only [placeBet, hfind] at hstep
    cases hstep
  · simp only [placeBet, hfind] at hstep
    by_cases hcond : amount > (s.players.getD pi default).chips ∨ amount < 1
    · rw [if_pos hcond] at hstep
      cases hstep
    · rw [if_neg hcond] at hstep
      injection hstep with hs
      subst hs
      unfold bjIds
      exact List.Perm.append_right _
        (List.Perm.append_left _ (flatMap_set_perm_of_eq _ _ _ _ rfl))

theorem hit_perm {s s' : BlackjackState} {pid : String}
    (hstep : hit s pid = some s') :
    List.Perm (bjIds s') (bjIds s) := by
  rcases hfind : s.players.findIdx? (fun p => p.id == pid) with _ | pi
  · simp only [hit, hfind] at hstep
    cases hstep
  · simp only [hit, hfind] at hstep
    have hpi : pi < s.players.length := findIdx?_lt_len hfind
    by_cases hflag : ((s.players.getD pi default).hasStood ||
        (s.players.getD pi default).hasBusted) = true
    · rw [if_pos hflag] at hstep
      cases hstep
    · rw [if_neg hflag] at hstep
      rcases hdeck : s.deck with _ | ⟨drawn, rest⟩
      · rw [hdeck] at hstep
        cases hstep
      · rw [hdeck] at hstep
        injection hstep with hs
        subst hs
        rw [List.perm_iff_count]
        intro x
        have hset := count_flatMap_set (fun p => idsOf p.hand) s.players pi
          { s.players.getD pi default with
            hand := (s.players.getD pi default).hand ++ [{ drawn with faceUp := true }]
            hasBusted := isBusted ((s.players.getD pi default).hand ++
              [{ drawn with faceUp := true }])
            hasStood := if isBusted ((s.players.getD pi default).hand ++
              [{ drawn with faceUp := true }]) then true
              else (s.players.getD pi default).hasStood } hpi x
        unfold bjIds
        simp only [idsOf_append, List.count_append, hdeck, idsOf, List.map_cons,
          List.count_cons, List.map_append, List.map_nil, List.count_nil] at hset ⊢
        omega

theorem stand_perm {s s' : BlackjackState} {pid : String}
    (hstep : stand s pid = some s') :
    List.Perm (bjIds s') (bjIds s) := by
  rcases hfind : s.players.findIdx? (fun p => p.id == pid) with _ | pi
  · simp only [stand, hfind] at hstep
    cases hstep
  · simp only [stand, hfind] at hstep
    rcases hnext : findNextActivePlayer
        (s.players.set pi { s.players.getD pi default with hasStood := true })
        s.currentPlayerIndex with _ | nxt <;>
      rw [hnext] at hstep <;>
      injection hstep with hs <;>
      subst hs <;>
      exact List.Perm.append_right _
        (List.Perm.append_left _ (flatMap_set_perm_of_eq _ _ _ _ rfl))

theorem dealerHits_perm :
    ∀ (deck hand : List Card),
      List.Perm (idsOf (dealerHits deck hand).1 ++ idsOf (dealerHits deck hand).2)
        (idsOf deck ++ idsOf hand) := by
  intro deck
  induction deck with
  | nil =>
    intro hand
    unfold dealerHits
    split
    · exact List.Perm.refl _
    · exact List.Perm.refl _
  | cons c rest ih =>
    intro hand
    unfold dealerHits
    split
    · rw [List.perm_iff_count]
      intro x
      have hIH := (ih (hand ++ [{ c with faceUp := true }])).count_eq x
      simp only [idsOf_append, List.count_append, idsOf, List.map_cons,
        List.count_cons, List.map_append, List.map_nil, List.count_nil] at hIH ⊢
      omega
    · exact List.Perm.refl _

theorem dealerPlay_perm (s : BlackjackState) :
    List.Perm (bjIds (dealerPlay s)) (bjIds s) := by
  rw [List.perm_iff_count]
  intro x
  have hd := (dealerHits_perm s.deck
    (s.dealer.hand.map fun c => { c with faceUp := true })).count_eq x
  have hmap : idsOf (s.dealer.hand.map fun c => { c with faceUp := true }) =
      idsOf s.dealer.hand :=
    idsOf_map_of_id_eq (fun c => { c with faceUp := true }) (fun c => rfl) _
  unfold bjIds dealerPlay
  simp only [idsOf_append, List.count_append, hmap] at hd ⊢
  omega

theorem settleRound_perm (s : BlackjackState) :
    List.Perm (bjIds (settleRound s)) (bjIds s) := by
  unfold bjIds settleRound
  refine List.Perm.append_right _ (List.Perm.append_left _ ?_)
  rw [flatMap_map_eq_of]
  intro p
  rfl

theorem createBlackjackGame_ids (deck : List Card) (names : List String)
    (chips : Rat) :
    bjIds (createBlackjackGame deck names chips) = idsOf deck := by
  unfold bjIds createBlackjackGame
  rw [flatMap_mapIdx_eq]
  have hfun : (fun i => idsOf ((fun index name =>
      ({ id := s!"player-{index}", name := name, hand := [], bet := 0,
         chips := chips, hasStood := false, hasBusted := false,
         hasBlackjack := false, isDealer := false } : BlackjackPlayer)) i
        (names.getD i default)).hand) = fun _ => ([] : List Nat) := rfl
  rw [hfun, flatMap_nil_fun]
  simp [idsOf]

/-- Within a round, Blackjack conserves the 52 card ids. -/
theorem bj_reach_perm {s : BlackjackState} (h : Reach s) :
    List.Perm (bjIds s) deckIds := by
  induction h with
  | init deck names chips hdeck =>
    rw [createBlackjackGame_ids]
    have := idsOf_perm hdeck
    rw [idsOf_createDeck] at this
    exact this
  | betStep pid amount h hstep ih => exact (placeBet_perm hstep).trans ih
  | dealStep h ih => exact (dealInitialCards_perm _).trans ih
  | hitStep pid h hstep ih => exact (hit_perm hstep).trans ih
  | standStep pid h hstep ih => exact (stand_perm hstep).trans ih
  | dealerStep h ih => exact (dealerPlay_perm _).trans ih
  | settleStep h ih => exact (settleRound_perm _).trans ih

/-- `startNewRound` drops the hands: afterwards the state holds exactly the
ids of the kept (or fresh) deck, nothing else. -/
theorem bjStartNewRound_ids (s : BlackjackState) (fresh : List Card) :
    bjIds (bjStartNewRound s fresh) =
      idsOf (if s.deck.length < 15 then fresh else s.deck) := by
  simp [bjIds, bjStartNewRound, idsOf, flatMap_nil_fun]

end Blackjack

/-! ## Solitaire conservation (Claim C2) -/

namespace Solitaire

theorem flipLast_ids (col : List Card) : idsOf (flipLast col) = idsOf col := by
  rcases hlast : col.getLast? with _ | top
  · simp only [flipLast, hlast]
  · simp only [flipLast, hlast]
    by_cases hf : top.faceUp = true
    · rw [if_pos hf]
    · rw [if_neg hf]
      conv_rhs => rw [getLast?_decomp hlast]
      rw [idsOf_append, idsOf_append]
      rfl

theorem createSolitaireGame_ids (deck : List Card) (hlen : 28 ≤ deck.length) :
    solIds (createSolitaireGame deck) = idsOf deck := by
  have key : ∀ f : Nat → Nat,
      ((List.range 7).flatMap fun col =>
        (List.range (col + 1)).map fun row => f (col * (col + 1) / 2 + row)) =
      (List.range 28).map f := by
    intro f
    have hidx : ((List.range 7).flatMap fun col =>
        (List.range (col + 1)).map fun row => col * (col + 1) / 2 + row) =
        List.range 28 := by decide
    rw [← hidx, List.map_flatMap]
    simp only [List.map_map]
    rfl
  have htab : (((List.range 7).map fun col =>
      (List.range (col + 1)).map fun row =>
        { deck.getD (col * (col + 1) / 2 + row) default with
          faceUp := row == col }).flatMap idsOf) = idsOf (deck.take 28) := by
    rw [List.flatMap_map]
    have hkey := key fun k => (deck.getD k default).id
    simp only [] at hkey
    simp only [Function.comp_def, idsOf, List.map_map]
    rw [hkey, ← range_map_getD_eq_take deck 28 hlen, List.map_map]
    rfl
  have hstock : idsOf ((deck.drop 28).map fun c => { c with faceUp := false }) =
      idsOf (deck.drop 28) :=
    idsOf_map_of_id_eq (fun c => { c with faceUp := false }) (fun c => rfl) _
  have hfnd : (([[], [], [], []] : List (List Card)).flatMap idsOf) = [] := rfl
  unfold solIds createSolitaireGame
  rw [htab, hfnd, hstock]
  show idsOf (deck.take 28) ++ [] ++ idsOf (deck.drop 28) ++ idsOf [] = _
  rw [List.append_nil]
  show idsOf (deck.take 28) ++ idsOf (deck.drop 28) ++ [] = _
  rw [List.append_nil, ← idsOf_append, List.take_append_drop]

theorem drawFromStock_inv (s : SolitaireState) :
    List.Perm (solIds (drawFromStock s)) (solIds s) ∧
      (drawFromStock s).tableau.length = s.tableau.length ∧
      (drawFromStock s).foundation.length = s.foundation.length := by
  unfold drawFromStock
  rcases hst : s.stock with _ | ⟨card, rest⟩
  · refine ⟨?_, rfl, rfl⟩
    unfold solIds
    have hmap : idsOf (s.waste.map fun c => { c with faceUp := false }) =
        idsOf s.waste :=
      idsOf_map_of_id_eq (fun c => { c with faceUp := false }) (fun c => rfl) _
    have hrevp : List.Perm
        (idsOf ((s.waste.map fun c => { c with faceUp := false }).reverse))
        (idsOf s.waste) := by
      have hrev : idsOf ((s.waste.map fun c => { c with faceUp := false }).reverse) =
          (idsOf (s.waste.map fun c => { c with faceUp := false })).reverse := by
        unfold idsOf
        rw [List.map_reverse]
      rw [hrev, hmap]
      exact List.reverse_perm _
    rw [List.perm_iff_count]
    intro x
    have hc := hrevp.count_eq x
    simp only [hst, List.count_append, idsOf, List.map_nil, List.count_nil] at hc ⊢
    omega
  · refine ⟨?_, rfl, rfl⟩
    unfold solIds
    rw [List.perm_iff_count]
    intro x
    simp only [hst, List.count_append, idsOf, List.map_cons, List.count_cons,
      List.map_append, List.map_nil, List.count_nil]
    omega

theorem moveToFoundation_inv {s s' : SolitaireState} {src : SolSource}
    {ci : Option Nat} (hf4 : s.foundation.length = 4)
    (hstep : moveToFoundation s src ci = some s') :
    List.Perm (solIds s') (solIds s) ∧
      s'.tableau.length = s.tableau.length ∧
      s'.foundation.length = s.foundation.length := by
  cases src with
  | waste =>
    rcases hlast : s.waste.getLast? with _ | card
    · simp only [moveToFoundation, hlast] at hstep
      cases hstep
    · simp only [moveToFoundation, hlast] at hstep
      by_cases hcan : canMoveToFoundation card
          (s.foundation.getD (suitIndex card.suit) []) = true
      · rw [if_pos hcan] at hstep
        injection hstep with hs
        subst hs
        refine ⟨?_, rfl, by simp [List.length_set]⟩
        rw [List.perm_iff_count]
        intro x
        have hfi : suitIndex card.suit < s.foundation.length := by
          rw [hf4]
          exact suitIndex_lt card.suit
        have hset := count_flatMap_set idsOf s.foundation (suitIndex card.suit)
          (s.foundation.getD (suitIndex card.suit) [] ++ [card]) hfi x
        have hw : idsOf s.waste = idsOf s.waste.dropLast ++ idsOf [card] := by
          conv_lhs => rw [getLast?_decomp hlast]
          rw [idsOf_append]
        unfold solIds
        simp only [show (default : List Card) = [] from rfl, List.count_append,
          idsOf_append] at hset ⊢
        rw [hw]
        simp only [List.count_append]
        omega
      · rw [if_neg hcan] at hstep
        cases hstep
  | tableau =>
    rcases ci with _ | c
    · simp only [moveToFoundation] at hstep
      cases hstep
    · simp only [moveToFoundation] at hstep
      rcases hlast : (s.tableau.getD c []).getLast? with _ | card
      · simp only [hlast] at hstep
        cases hstep
      · simp only [hlast] at hstep
        by_cases hcan : canMoveToFoundation card
            (s.foundation.getD (suitIndex card.suit) []) = true
        · rw [if_pos hcan] at hstep
          injection hstep with hs
          subst hs
          refine ⟨?_, by simp [List.length_set], by simp [List.length_set]⟩
          rw [List.perm_iff_count]
          intro x
          have hc : c < s.tableau.length := by
            by_contra hge
            rw [getD_nil_default hge] at hlast
            simp at hlast
          have hfi : suitIndex card.suit < s.foundation.length := by
            rw [hf4]
            exact suitIndex_lt card.suit
          have hset1 := count_flatMap_set idsOf s.tableau c
            (flipLast ((s.tableau.getD c []).dropLast)) hc x
          have hset2 := count_flatMap_set idsOf s.foundation (suitIndex card.suit)
            (s.foundation.getD (suitIndex card.suit) [] ++ [card]) hfi x
          have hcol : idsOf (s.tableau.getD c []) =
              idsOf (s.tableau.getD c []).dropLast ++ idsOf [card] := by
            conv_lhs => rw [getLast?_decomp hlast]
            rw [idsOf_append]
          have hflip := flipLast_ids ((s.tableau.getD c []).dropLast)
          unfold solIds
          simp only [show (default : List Card) = [] from rfl, List.count_append,
            idsOf_append, hflip] at hset1 hset2 ⊢
          rw [hcol] at hset1
          simp only [List.count_append] at hset1
          omega
        · rw [if_neg hcan] at hstep
          cases hstep

theorem moveCardsInTableau_inv {s s' : SolitaireState} {fromC toC ci : Nat}
    (hne : fromC ≠ toC) (hto : toC < s.tableau.length)
    (hstep : moveCardsInTableau s fromC toC ci = some s') :
    List.Perm (solIds s') (solIds s) ∧
      s'.tableau.length = s.tableau.length ∧
      s'.foundation.length = s.foundation.length := by
  rcases hmv : (s.tableau.getD fromC []).drop ci with _ | ⟨firstCard, more⟩
  · simp only [moveCardsInTableau, hmv] at hstep
    cases hstep
  · simp only [moveCardsInTableau, hmv] at hstep
    by_cases hface : (!firstCard.faceUp) = true
    · rw [if_pos hface] at hstep
      cases hstep
    · rw [if_neg hface] at hstep
      by_cases hcan : (!canMoveToTableau firstCard (s.tableau.getD toC [])) = true
      · rw [if_pos hcan] at hstep
        cases hstep
      · rw [if_neg hcan] at hstep
        injection hstep with hs
        subst hs
        refine ⟨?_, by simp [List.length_set], rfl⟩
        have hfrom : fromC < s.tableau.length := by
          by_contra hge
          rw [getD_nil_default hge] at hmv
          simp at hmv
        rw [List.perm_iff_count]
        intro x
        have hset1 := count_flatMap_set idsOf s.tableau fromC
          (flipLast ((s.tableau.getD fromC []).take ci)) hfrom x
        have hset2 := count_flatMap_set idsOf
          (s.tableau.set fromC (flipLast ((s.tableau.getD fromC []).take ci))) toC
          (s.tableau.getD toC [] ++ firstCard :: more)
          (by rw [List.length_set]; exact hto) x
        have hgd : (s.tableau.set fromC
            (flipLast ((s.tableau.getD fromC []).take ci))).getD toC
            ([] : List Card) = s.tableau.getD toC [] :=
          getD_set_ne _ _ _ _ _ hne
        have hsplit : (idsOf ((s.tableau.getD fromC []).take ci)).count x +
            (idsOf (firstCard :: more)).count x =
            (idsOf (s.tableau.getD fromC [])).count x := by
          rw [← List.count_append, ← idsOf_append, ← hmv, List.take_append_drop]
        have hflip := flipLast_ids ((s.tableau.getD fromC []).take ci)
        unfold solIds
        simp only [show (default : List Card) = [] from rfl, List.count_append,
          idsOf_append, hflip, hgd] at hset1 hset2 ⊢
        omega

theorem moveWasteToTableau_inv {s s' : SolitaireState} {toC : Nat}
    (hto : toC < s.tableau.length)
    (hstep : moveWasteToTableau s toC = some s') :
    List.Perm (solIds s') (solIds s) ∧
      s'.tableau.length = s.tableau.length ∧
      s'.foundation.length = s.foundation.length := by
  rcases hlast : s.waste.getLast? with _ | card
  · simp only [moveWasteToTableau, hlast] at hstep
    cases hstep
  · simp only [moveWasteToTableau, hlast] at hstep
    by_cases hcan : (!canMoveToTableau card (s.tableau.getD toC [])) = true
    · rw [if_pos hcan] at hstep
      cases hstep
    · rw [if_neg hcan] at hstep
      injection hstep with hs
      subst hs
      refine ⟨?_, by simp [List.length_set], rfl⟩
      rw [List.perm_iff_count]
      intro x
      have hset := count_flatMap_set idsOf s.tableau toC
        (s.tableau.getD toC [] ++ [card]) hto x
      have hw : idsOf s.waste = idsOf s.waste.dropLast ++ idsOf [card] := by
        conv_lhs => rw [getLast?_decomp hlast]
        rw [idsOf_append]
      unfold solIds
      simp only [show (default : List Card) = [] from rfl, List.count_append,
        idsOf_append] at hset ⊢
      rw [hw]
      simp only [List.count_append]
      omega

theorem tryCols_inv {s : SolitaireState} (hf4 : s.foundation.length = 4) :
    ∀ (cs : List Nat) (s' : SolitaireState), tryCols s cs = some s' →
      List.Perm (solIds s') (solIds s) ∧
        s'.tableau.length = s.tableau.length ∧
        s'.foundation.length = s.foundation.length := by
  intro cs
  induction cs with
  | nil =>
    intro s' h
    cases h
  | cons c rest ih =>
    intro s' h
    unfold tryCols at h
    rcases hm : moveToFoundation s SolSource.tableau (some c) with _ | s2
    · rw [hm] at h
      exact ih s' h
    · rw [hm] at h
      injection h with h2
      subst h2
      exact moveToFoundation_inv hf4 hm

theorem autoComplete_inv :
    ∀ (fuel : Nat) (s : SolitaireState), s.foundation.length = 4 →
      List.Perm (solIds (autoComplete fuel s)) (solIds s) ∧
        (autoComplete fuel s).tableau.length = s.tableau.length ∧
        (autoComplete fuel s).foundation.length = s.foundation.length := by
  intro fuel
  induction fuel with
  | zero =>
    intro s h4
    exact ⟨List.Perm.refl _, rfl, rfl⟩
  | succ n ih =>
    intro s h4
    unfold autoComplete
    rcases ht : tryCols s (List.range 7) with _ | s2
    · exact ⟨List.Perm.refl _, rfl, rfl⟩
    · show (solIds (autoComplete n s2)).Perm (solIds s) ∧
        (autoComplete n s2).tableau.length = s.tableau.length ∧
        (autoComplete n s2).foundation.length = s.foundation.length
      obtain ⟨hp2, hlt2, hlf2⟩ := tryCols_inv h4 (List.range 7) s2 ht
      obtain ⟨hp, hlt, hlf⟩ := ih s2 (by rw [hlf2]; exact h4)
      exact ⟨hp.trans hp2, by rw [hlt, hlt2], by rw [hlf, hlf2]⟩

/-- Solitaire conserves the 52 card ids in every reachable state. -/
theorem sol_reach_inv {s : SolitaireState} (h : Reach s) :
    List.Perm (solIds s) deckIds ∧ s.tableau.length = 7 ∧
      s.foundation.length = 4 := by
  induction h with
  | init deck hdeck =>
    have hlen : deck.length = 52 := by
      rw [hdeck.length_eq]
      decide
    refine ⟨?_, ?_, rfl⟩
    · rw [createSolitaireGame_ids deck (by omega)]
      have := idsOf_perm hdeck
      rw [idsOf_createDeck] at this
      exact this
    · show ((List.range 7).map _).length = 7
      rw [List.length_map]
      rfl
  | drawStep h ih =>
    obtain ⟨hp, hlt, hlf⟩ := drawFromStock_inv _
    exact ⟨hp.trans ih.1, by rw [hlt, ih.2.1], by rw [hlf, ih.2.2]⟩
  | foundationStep src ci h hstep ih =>
    obtain ⟨hp, hlt, hlf⟩ := moveToFoundation_inv ih.2.2 hstep
    exact ⟨hp.trans ih.1, by rw [hlt, ih.2.1], by rw [hlf, ih.2.2]⟩
  | tableauStep fromC toC ci h hne hto hstep ih =>
    obtain ⟨hp, hlt, hlf⟩ := moveCardsInTableau_inv hne (by rw [ih.2.1]; exact hto) hstep
    exact ⟨hp.trans ih.1, by rw [hlt, ih.2.1], by rw [hlf, ih.2.2]⟩
  | wasteStep toC h hto hstep ih =>
    obtain ⟨hp, hlt, hlf⟩ := moveWasteToTableau_inv (by rw [ih.2.1]; exact hto) hstep
    exact ⟨hp.trans ih.1, by rw [hlt, ih.2.1], by rw [hlf, ih.2.2]⟩
  | autoStep fuel h ih =>
    obtain ⟨hp, hlt, hlf⟩ := autoComplete_inv fuel _ ih.2.2
    exact ⟨hp.trans ih.1, by rw [hlt, ih.2.1], by rw [hlf, ih.2.2]⟩

end Solitaire

/-! ## Poker conservation (Claim C2) -/

theorem flatMap_mapIdx_eq_of {α : Type} (f : α → List Nat) :
    ∀ (l : List α) (g : Nat → α → α), (∀ i a, f (g i a) = f a) →
      (l.mapIdx g).flatMap f = l.flatMap f
  | [], _, _ => rfl
  | a :: as, g, h => by
    rw [List.mapIdx_cons, List.flatMap_cons, List.flatMap_cons, h,
      flatMap_mapIdx_eq_of f as (fun i => g (i + 1)) (fun i a => h (i + 1) a)]

namespace Poker

theorem hand_getD_set (l : List PokerPlayer) (j : Nat) (a : PokerPlayer)
    (ha : a.hand = (l.getD j default).hand) (i : Nat) :
    ((l.set j a).getD i default).hand = (l.getD i default).hand := by
  by_cases hji : j = i
  · subst hji
    by_cases hj : j < l.length
    · rw [getD_set_self _ _ _ _ hj, ha]
    · rw [List.set_eq_of_length_le (Nat.le_of_not_lt hj)]
  · rw [getD_set_ne _ _ _ _ _ hji]

theorem postBlinds_length (s : PokerState) :
    (postBlinds s).players.length = s.players.length := by
  unfold postBlinds
  simp only [List.length_set]

theorem postBlinds_hands (s : PokerState) (i : Nat) :
    ((postBlinds s).players.getD i default).hand =
      (s.players.getD i default).hand := by
  unfold postBlinds
  simp only []
  by_cases h1 : (s.dealerIndex + 2) % s.players.length = i
  · rw [h1]
    by_cases h2 : i < s.players.length
    · rw [getD_set_self _ _ _ _ (by rw [List.length_set]; exact h2)]
      by_cases h3 : (s.dealerIndex + 1) % s.players.length = i
      · rw [h3, getD_set_self _ _ _ _ h2]
      · rw [getD_set_ne _ _ _ _ _ h3]
    · rw [getD_nil_default (by rw [List.length_set, List.length_set]; exact h2),
        getD_nil_default h2]
  · rw [getD_set_ne _ _ _ _ _ h1]
    by_cases h3 : (s.dealerIndex + 1) % s.players.length = i
    · rw [h3]
      by_cases h2 : i < s.players.length
      · rw [getD_set_self _ _ _ _ h2]
      · rw [List.set_eq_of_length_le (Nat.le_of_not_lt h2)]
    · rw [getD_set_ne _ _ _ _ _ h3]

theorem postBlinds_perm (s : PokerState) :
    List.Perm (pokerIds (postBlinds s)) (pokerIds s) := by
  unfold postBlinds pokerIds
  simp only []
  refine List.Perm.append_right _ (List.Perm.append_left _ ?_)
  refine List.Perm.trans (flatMap_set_perm_of_eq _ _ _ _ rfl) ?_
  exact flatMap_set_perm_of_eq _ _ _ _ rfl

theorem dealHole_foldl_perm :
    ∀ (idxs : List Nat) (deck : List Card) (players : List PokerPlayer),
      (∀ i ∈ idxs, i < players.length) →
      (∀ i ∈ idxs, (players.getD i default).hand = []) → idxs.Nodup →
      List.Perm
        (idsOf (idxs.foldl dealHole2 (deck, players)).1 ++
          (idxs.foldl dealHole2 (deck, players)).2.flatMap (fun p => idsOf p.hand))
        (idsOf deck ++ players.flatMap (fun p => idsOf p.hand)) := by
  intro idxs
  induction idxs with
  | nil =>
    intro deck players _ _ _
    exact List.Perm.refl _
  | cons i rest ih =>
    intro deck players hlt hemp hnd
    rw [List.foldl_cons]
    have hi : i < players.length := hlt i (List.mem_cons_self i rest)
    have hie : (players.getD i default).hand = [] :=
      hemp i (List.mem_cons_self i rest)
    have hni : i ∉ rest := (List.nodup_cons.mp hnd).1
    have hstep : List.Perm
        (idsOf (dealHole2 (deck, players) i).1 ++
          (dealHole2 (deck, players) i).2.flatMap (fun p => idsOf p.hand))
        (idsOf deck ++ players.flatMap (fun p => idsOf p.hand)) := by
      rw [List.perm_iff_count]
      intro x
      have hset := count_flatMap_set (fun p => idsOf p.hand) players i
        { players.getD i default with
          hand := (drawCards deck 2).1.map fun (c : Card) =>
            { c with faceUp := (players.getD i default).type == PlayerType.human } }
        hi x
      have hmap : idsOf ((deck.take 2).map fun (c : Card) =>
          { c with faceUp := (players.getD i default).type == PlayerType.human }) =
          idsOf (deck.take 2) :=
        idsOf_map_of_id_eq (fun c =>
          { c with faceUp := (players.getD i default).type == PlayerType.human })
          (fun c => rfl) _
      have hsplit : (idsOf (deck.take 2)).count x + (idsOf (deck.drop 2)).count x =
          (idsOf deck).count x := by
        rw [← List.count_append, ← idsOf_append, List.take_append_drop]
      unfold dealHole2
      simp only [drawCards, List.count_append, hmap, hie,
        show idsOf ([] : List Card) = [] from rfl, List.count_nil] at hset ⊢
      omega
    have hrest := ih (dealHole2 (deck, players) i).1 (dealHole2 (deck, players) i).2
      (by
        intro j hj
        show j < ((dealHole2 (deck, players) i).2).length
        unfold dealHole2
        rw [List.length_set]
        exact hlt j (List.mem_cons_of_mem i hj))
      (by
        intro j hj
        show (((dealHole2 (deck, players) i).2).getD j default).hand = []
        unfold dealHole2
        rw [getD_set_ne _ _ _ _ _ (fun he => hni (by rw [he]; exact hj))]
        exact hemp j (List.mem_cons_of_mem i hj))
      (List.nodup_cons.mp hnd).2
    exact hrest.trans hstep

theorem dealHoleCards_perm (s : PokerState)
    (hemp : ∀ i, i < s.players.length → (s.players.getD i default).hand = []) :
    List.Perm (pokerIds (dealHoleCards s)) (pokerIds s) := by
  unfold pokerIds dealHoleCards
  refine List.Perm.append_right _ ?_
  exact dealHole_foldl_perm (List.range s.players.length) s.deck s.players
    (fun i hi => List.mem_range.mp hi)
    (fun i hi => hemp i (List.mem_range.mp hi))
    (List.nodup_range _)

theorem determineWinner_ids (s : PokerState) :
    pokerIds (determineWinner s) = pokerIds s := by
  unfold pokerIds determineWinner
  congr 1
  congr 1
  rw [flatMap_map_eq_of]
  intro p
  exact idsOf_map_of_id_eq (fun c => { c with faceUp := true }) (fun c => rfl) _

theorem advancePhase_inv (s : PokerState)
    (hpre : s.phase = PPhase.preflop → s.communityCards = []) :
    List.Perm (pokerIds (advancePhase s)) (pokerIds s) ∧
      (advancePhase s).phase ≠ PPhase.preflop := by
  have hplayers : ((s.players.map fun p =>
      { p with currentBet := 0, hasActed := p.hasFolded || p.isAllIn }).flatMap
        fun p => idsOf p.hand) = s.players.flatMap (fun p => idsOf p.hand) := by
    rw [flatMap_map_eq_of]
    intro p
    rfl
  have hmap3 : idsOf ((s.deck.take 3).map fun (c : Card) =>
      { c with faceUp := true }) = idsOf (s.deck.take 3) :=
    idsOf_map_of_id_eq (fun c => { c with faceUp := true }) (fun c => rfl) _
  have hmap1 : idsOf ((s.deck.take 1).map fun (c : Card) =>
      { c with faceUp := true }) = idsOf (s.deck.take 1) :=
    idsOf_map_of_id_eq (fun c => { c with faceUp := true }) (fun c => rfl) _
  have hsplit3 : ∀ x : Nat, (idsOf (s.deck.take 3)).count x +
      (idsOf (s.deck.drop 3)).count x = (idsOf s.deck).count x := by
    intro x
    rw [← List.count_append, ← idsOf_append, List.take_append_drop]
  have hsplit1 : ∀ x : Nat, (idsOf (s.deck.take 1)).count x +
      (idsOf (s.deck.drop 1)).count x = (idsOf s.deck).count x := by
    intro x
    rw [← List.count_append, ← idsOf_append, List.take_append_drop]
  cases hphase : s.phase with
  | preflop =>
    have hcc := hpre hphase
    simp only [advancePhase, hphase]
    rw [if_neg (show ¬ (PPhase.flop = PPhase.showdown) by decide)]
    constructor
    · rw [List.perm_iff_count]
      intro x
      unfold pokerIds
      simp only [drawCards, List.count_append, idsOf_append, hplayers, hmap3, hcc,
        show idsOf ([] : List Card) = [] from rfl, List.count_nil]
      have := hsplit3 x
      omega
    · exact fun hcontra => nomatch hcontra
  | flop =>
    simp only [advancePhase, hphase]
    rw [if_neg (show ¬ (PPhase.turn = PPhase.showdown) by decide)]
    constructor
    · rw [List.perm_iff_count]
      intro x
      unfold pokerIds
      simp only [drawCards, List.count_append, idsOf_append, hplayers, hmap1]
      have := hsplit1 x
      omega
    · exact fun hcontra => nomatch hcontra
  | turn =>
    simp only [advancePhase, hphase]
    rw [if_neg (show ¬ (PPhase.river = PPhase.showdown) by decide)]
    constructor
    · rw [List.perm_iff_count]
      intro x
      unfold pokerIds
      simp only [drawCards, List.count_append, idsOf_append, hplayers, hmap1]
      have := hsplit1 x
      omega
    · exact fun hcontra => nomatch hcontra
  | river =>
    simp only [advancePhase, hphase]
    rw [if_pos trivial]
    constructor
    · rw [determineWinner_ids]
      unfold pokerIds
      simp only [hplayers]
      exact List.Perm.refl _
    · intro hcontra
      have : PPhase.finished = PPhase.preflop := hcontra
      cases this
  | showdown =>
    simp only [advancePhase, hphase]
    rw [if_pos trivial]
    constructor
    · rw [determineWinner_ids]
      unfold pokerIds
      simp only [hplayers]
      exact List.Perm.refl _
    · intro hcontra
      have : PPhase.finished = PPhase.preflop := hcontra
      cases this
  | finished =>
    simp only [advancePhase, hphase]
    rw [if_neg (show ¬ (PPhase.finished = PPhase.showdown) by decide)]
    constructor
    · unfold pokerIds
      simp only [hplayers]
      exact List.Perm.refl _
    · exact fun hcontra => nomatch hcontra

theorem advanceAction_inv (s : PokerState)
    (hpre : s.phase = PPhase.preflop → s.communityCards = []) :
    List.Perm (pokerIds (advanceAction s)) (pokerIds s) ∧
      ((advanceAction s).phase = PPhase.preflop →
        (advanceAction s).communityCards = []) := by
  unfold advanceAction
  by_cases h1 : ((s.players.filter fun p => !p.hasFolded).length == 1) = true
  · rw [if_pos h1]
    exact ⟨List.Perm.refl _, fun h => nomatch h⟩
  · rw [if_neg h1]
    by_cases h2 : ((s.players.filter fun p => !p.hasFolded && !p.isAllIn).length == 0 ||
        (s.players.filter fun p => !p.hasFolded && !p.isAllIn).all
          fun p => p.hasActed && p.currentBet == s.currentBet) = true
    · rw [if_pos h2]
      obtain ⟨hp, hne⟩ := advancePhase_inv s hpre
      exact ⟨hp, fun h => absurd h hne⟩
    · rw [if_neg h2]
      exact ⟨List.Perm.refl _, fun h => hpre h⟩

theorem fold_inv {s s' : PokerState} {pid : String}
    (hpre : s.phase = PPhase.preflop → s.communityCards = [])
    (hstep : fold s pid = some s') :
    List.Perm (pokerIds s') (pokerIds s) ∧
      (s'.phase = PPhase.preflop → s'.communityCards = []) := by
  rcases hfind : s.players.findIdx? (fun p => p.id == pid) with _ | pi
  · simp only [fold, hfind] at hstep
    cases hstep
  · simp only [fold, hfind] at hstep
    injection hstep with hs
    subst hs
    obtain ⟨hp, himpl⟩ := advanceAction_inv { s with players := (s.players.set pi
      { s.players.getD pi default with hasFolded := true, hasActed := true }) } hpre
    refine ⟨hp.trans ?_, himpl⟩
    refine List.Perm.append_right _ (List.Perm.append_left _ ?_)
    exact flatMap_set_perm_of_eq _ _ _ _ rfl

theorem call_inv {s s' : PokerState} {pid : String}
    (hpre : s.phase = PPhase.preflop → s.communityCards = [])
    (hstep : call s pid = some s') :
    List.Perm (pokerIds s') (pokerIds s) ∧
      (s'.phase = PPhase.preflop → s'.communityCards = []) := by
  rcases hfind : s.players.findIdx? (fun p => p.id == pid) with _ | pi
  · simp only [call, hfind] at hstep
    cases hstep
  · simp only [call, hfind] at hstep
    injection hstep with hs
    subst hs
    obtain ⟨hp, himpl⟩ := advanceAction_inv
      { s with
        players := (s.players.set pi
          { s.players.getD pi default with
            chips := ((s.players.getD pi default).chips -
              min (s.currentBet - (s.players.getD pi default).currentBet)
                (s.players.getD pi default).chips)
            currentBet := ((s.players.getD pi default).currentBet +
              min (s.currentBet - (s.players.getD pi default).currentBet)
                (s.players.getD pi default).chips)
            totalBet := ((s.players.getD pi default).totalBet +
              min (s.currentBet - (s.players.getD pi default).currentBet)
                (s.players.getD pi default).chips)
            hasActed := true
            isAllIn := ((s.players.getD pi default).chips ==
              min (s.currentBet - (s.players.getD pi default).currentBet)
                (s.players.getD pi default).chips) })
        pot := (s.pot + min (s.currentBet - (s.players.getD pi default).currentBet)
          (s.players.getD pi default).chips) } hpre
    refine ⟨hp.trans ?_, himpl⟩
    refine List.Perm.append_right _ (List.Perm.append_left _ ?_)
    exact flatMap_set_perm_of_eq _ _ _ _ rfl

theorem check_inv {s s' : PokerState} {pid : String}
    (hpre : s.phase = PPhase.preflop → s.communityCards = [])
    (hstep : check s pid = some s') :
    List.Perm (pokerIds s') (pokerIds s) ∧
      (s'.phase = PPhase.preflop → s'.communityCards = []) := by
  rcases hfind : s.players.findIdx? (fun p => p.id == pid) with _ | pi
  · simp only [check, hfind] at hstep
    cases hstep
  · simp only [check, hfind] at hstep
    by_cases hcond : (s.players.getD pi default).currentBet ≠ s.currentBet
    · rw [if_pos hcond] at hstep
      cases hstep
    · rw [if_neg hcond] at hstep
      injection hstep with hs
      subst hs
      obtain ⟨hp, himpl⟩ := advanceAction_inv { s with players := (s.players.set pi
        { s.players.getD pi default with hasActed := true }) } hpre
      refine ⟨hp.trans ?_, himpl⟩
      refine List.Perm.append_right _ (List.Perm.append_left _ ?_)
      exact flatMap_set_perm_of_eq _ _ _ _ rfl

theorem raise_inv {s s' : PokerState} {pid : String} {amount : Int}
    (hpre : s.phase = PPhase.preflop → s.communityCards = [])
    (hstep : raise s pid amount = some s') :
    List.Perm (pokerIds s') (pokerIds s) ∧
      (s'.phase = PPhase.preflop → s'.communityCards = []) := by
  rcases hfind : s.players.findIdx? (fun p => p.id == pid) with _ | pi
  · simp only [raise, hfind] at hstep
    cases hstep
  · simp only [raise, hfind] at hstep
    by_cases hc1 : (s.players.getD pi default).chips <
        s.currentBet + amount - (s.players.getD pi default).currentBet
    · rw [if_pos hc1] at hstep
      cases hstep
    · rw [if_neg hc1] at hstep
      by_cases hc2 : amount < s.minRaise ∧
          s.currentBet + amount - (s.players.getD pi default).currentBet ≠
            (s.players.getD pi default).chips
      · rw [if_pos hc2] at hstep
        cases hstep
      · rw [if_neg hc2] at hstep
        injection hstep with hs
        subst hs
        obtain ⟨hp, himpl⟩ := advanceAction_inv
          { s with
            players := (s.players.mapIdx fun i (p : PokerPlayer) =>
              if i == pi then
                { p with
                  chips := (p.chips -
                    (s.currentBet + amount - (s.players.getD pi default).currentBet))
                  currentBet := (s.currentBet + amount)
                  totalBet := (p.totalBet +
                    (s.currentBet + amount - (s.players.getD pi default).currentBet))
                  hasActed := true
                  isAllIn := (p.chips ==
                    s.currentBet + amount - (s.players.getD pi default).currentBet) }
              else { p with hasActed := p.hasFolded || p.isAllIn })
            pot := (s.pot +
              (s.currentBet + amount - (s.players.getD pi default).currentBet))
            currentBet := (s.currentBet + amount)
            minRaise := amount } hpre
        refine ⟨hp.trans ?_, himpl⟩
        refine List.Perm.append_right _ (List.Perm.append_left _ ?_)
        rw [flatMap_mapIdx_eq_of]
        intro i p
        by_cases hb : (i == pi) = true
        · rw [if_pos hb]
        · rw [if_neg hb]

theorem allIn_inv {s s' : PokerState} {pid : String}
    (hpre : s.phase = PPhase.preflop → s.communityCards = [])
    (hstep : allIn s pid = some s') :
    List.Perm (pokerIds s') (pokerIds s) ∧
      (s'.phase = PPhase.preflop → s'.communityCards = []) := by
  rcases hfind : s.players.findIdx? (fun p => p.id == pid) with _ | pi
  · simp only [allIn, hfind] at hstep
    cases hstep
  · simp only [allIn, hfind] at hstep
    injection hstep with hs
    subst hs
    obtain ⟨hp, himpl⟩ := advanceAction_inv
      { s with
        players := (s.players.mapIdx fun i (p : PokerPlayer) =>
          if i == pi then
            { p with
              chips := 0
              currentBet := ((s.players.getD pi default).currentBet +
                (s.players.getD pi default).chips)
              totalBet := (p.totalBet + (s.players.getD pi default).chips)
              hasActed := true
              isAllIn := true }
          else if decide (s.currentBet < (s.players.getD pi default).currentBet +
              (s.players.getD pi default).chips) && !p.hasFolded && !p.isAllIn then
            { p with hasActed := false }
          else p)
        pot := (s.pot + (s.players.getD pi default).chips)
        currentBet := (if decide (s.currentBet <
            (s.players.getD pi default).currentBet +
            (s.players.getD pi default).chips) = true then
          (s.players.getD pi default).currentBet + (s.players.getD pi default).chips
          else s.currentBet)
        minRaise := (if decide (s.currentBet <
            (s.players.getD pi default).currentBet +
            (s.players.getD pi default).chips) = true then
          (s.players.getD pi default).currentBet + (s.players.getD pi default).chips -
            s.currentBet
          else s.minRaise) } hpre
    refine ⟨hp.trans ?_, himpl⟩
    refine List.Perm.append_right _ (List.Perm.append_left _ ?_)
    rw [flatMap_mapIdx_eq_of]
    intro i p
    by_cases hb : (i == pi) = true
    · rw [if_pos hb]
    · rw [if_neg hb]
      by_cases hb2 : (decide (s.currentBet < (s.players.getD pi default).currentBet +
          (s.players.getD pi default).chips) && !p.hasFolded && !p.isAllIn) = true
      · rw [if_pos hb2]
      · rw [if_neg hb2]

theorem startNewRound_inv (s : PokerState) (fresh : List Card)
    (hfresh : List.Perm fresh createDeck)
    (hprev : List.Perm (pokerIds s) deckIds) :
    List.Perm (pokerIds (startNewRound s fresh)) deckIds ∧
      ((startNewRound s fresh).phase = PPhase.preflop →
        (startNewRound s fresh).communityCards = []) := by
  unfold startNewRound
  by_cases hlen : (((s.players.filter fun (p : PokerPlayer) => 0 < p.chips).mapIdx fun i (p : PokerPlayer) =>
      { p with
        hand := []
        currentBet := 0
        totalBet := 0
        hasFolded := false
        hasActed := false
        isAllIn := false
        isDealer := i == (s.dealerIndex + 1) % s.players.length }).length < 2)
  · rw [if_pos hlen]
    exact ⟨hprev, fun h => nomatch h⟩
  · rw [if_neg hlen]
    have hemp : ∀ i, i < ((s.players.filter fun (p : PokerPlayer) => 0 < p.chips).mapIdx fun i (p : PokerPlayer) =>
        { p with
          hand := []
          currentBet := 0
          totalBet := 0
          hasFolded := false
          hasActed := false
          isAllIn := false
          isDealer := i == (s.dealerIndex + 1) % s.players.length }).length →
        ((((s.players.filter fun (p : PokerPlayer) => 0 < p.chips).mapIdx fun i (p : PokerPlayer) =>
          { p with
            hand := []
            currentBet := 0
            totalBet := 0
            hasFolded := false
            hasActed := false
            isAllIn := false
            isDealer := i == (s.dealerIndex + 1) % s.players.length }).getD i
              default)).hand = [] := by
      intro i hi
      rw [List.length_mapIdx] at hi
      rw [getD_mapIdx _ _ _ _ default hi]
    refine ⟨?_, fun _ => rfl⟩
    have hflat : (((s.players.filter fun (p : PokerPlayer) => 0 < p.chips).mapIdx fun i (p : PokerPlayer) =>
        { p with
          hand := []
          currentBet := 0
          totalBet := 0
          hasFolded := false
          hasActed := false
          isAllIn := false
          isDealer := i == (s.dealerIndex + 1) % s.players.length }).flatMap
            fun p => idsOf p.hand) = [] := by
      rw [flatMap_mapIdx_eq]
      have hfn : (fun i => idsOf ((fun i (p : PokerPlayer) =>
          { p with
            hand := ([] : List Card)
            currentBet := 0
            totalBet := 0
            hasFolded := false
            hasActed := false
            isAllIn := false
            isDealer := i == (s.dealerIndex + 1) % s.players.length }) i
              ((s.players.filter fun (p : PokerPlayer) => 0 < p.chips).getD i default)).hand) =
          fun _ => ([] : List Nat) := rfl
      rw [hfn, flatMap_nil_fun]
    have hmid : ∀ i, i < (postBlinds { s with
        deck := fresh
        players := (s.players.filter fun (p : PokerPlayer) => 0 < p.chips).mapIdx fun i (p : PokerPlayer) =>
          { p with
            hand := []
            currentBet := 0
            totalBet := 0
            hasFolded := false
            hasActed := false
            isAllIn := false
            isDealer := i == (s.dealerIndex + 1) % s.players.length }
        communityCards := []
        pot := 0
        sidePots := []
        currentBet := 0
        dealerIndex := (s.dealerIndex + 1) % s.players.length
        currentPlayerIndex := ((s.dealerIndex + 1) % s.players.length + 3) %
          ((s.players.filter fun (p : PokerPlayer) => 0 < p.chips).mapIdx fun i (p : PokerPlayer) =>
            { p with
              hand := []
              currentBet := 0
              totalBet := 0
              hasFolded := false
              hasActed := false
              isAllIn := false
              isDealer := i == (s.dealerIndex + 1) % s.players.length }).length
        phase := PPhase.preflop
        minRaise := s.bigBlind
        roundNumber := s.roundNumber + 1
        winners := none }).players.length →
        (((postBlinds { s with
          deck := fresh
          players := (s.players.filter fun (p : PokerPlayer) => 0 < p.chips).mapIdx fun i (p : PokerPlayer) =>
            { p with
              hand := []
              currentBet := 0
              totalBet := 0
              hasFolded := false
              hasActed := false
              isAllIn := false
              isDealer := i == (s.dealerIndex + 1) % s.players.length }
          communityCards := []
          pot := 0
          sidePots := []
          currentBet := 0
          dealerIndex := (s.dealerIndex + 1) % s.players.length
          currentPlayerIndex := ((s.dealerIndex + 1) % s.players.length + 3) %
            ((s.players.filter fun (p : PokerPlayer) => 0 < p.chips).mapIdx fun i (p : PokerPlayer) =>
              { p with
                hand := []
                currentBet := 0
                totalBet := 0
                hasFolded := false
                hasActed := false
                isAllIn := false
                isDealer := i == (s.dealerIndex + 1) % s.players.length }).length
          phase := PPhase.preflop
          minRaise := s.bigBlind
          roundNumber := s.roundNumber + 1
          winners := none }).players.getD i default)).hand = [] := by
      intro i hi
      rw [postBlinds_hands]
      rw [postBlinds_length] at hi
      exact hemp i hi
    refine ((dealHoleCards_perm _ hmid).trans (postBlinds_perm _)).trans ?_
    show List.Perm (idsOf fresh ++ _ ++ idsOf ([] : List Card)) deckIds
    rw [hflat]
    rw [List.append_nil]
    show List.Perm (idsOf fresh ++ ([] : List Nat)) deckIds
    rw [List.append_nil]
    have := idsOf_perm hfresh
    rw [idsOf_createDeck] at this
    exact this

theorem createPokerGame_ids (deck : List Card) (names : List String)
    (types : List PlayerType) (chips sb bb : Int) :
    pokerIds (createPokerGame deck names types chips sb bb) = idsOf deck := by
  unfold pokerIds createPokerGame
  rw [flatMap_mapIdx_eq]
  have hfn : (fun i => idsOf ((fun index name =>
      ({ id := s!"player-{index}", name := name,
         type := types.getD index PlayerType.computer,
         hand := [], chips := chips, currentBet := 0, totalBet := 0,
         hasFolded := false, hasActed := false, isAllIn := false,
         isDealer := index == 0 } : PokerPlayer)) i
        (names.getD i default)).hand) = fun _ => ([] : List Nat) := rfl
  rw [hfn, flatMap_nil_fun]
  simp [idsOf]

theorem createPokerGame_hands (deck : List Card) (names : List String)
    (types : List PlayerType) (chips sb bb : Int) (i : Nat)
    (hi : i < (createPokerGame deck names types chips sb bb).players.length) :
    (((createPokerGame deck names types chips sb bb).players.getD i default)).hand =
      [] := by
  unfold createPokerGame at hi ⊢
  rw [List.length_mapIdx] at hi
  rw [getD_mapIdx _ _ _ _ default hi]

/-- Poker conserves the 52 card ids in every reachable state. -/
theorem poker_reach_inv {s : PokerState} (h : Reach s) :
    List.Perm (pokerIds s) deckIds ∧
      (s.phase = PPhase.preflop → s.communityCards = []) := by
  induction h with
  | init deck names types chips sb bb hdeck =>
    have hmid : ∀ i, i < (postBlinds (createPokerGame deck names types
        chips sb bb)).players.length →
        (((postBlinds (createPokerGame deck names types
          chips sb bb)).players.getD i default)).hand = [] := by
      intro i hi
      rw [postBlinds_hands]
      rw [postBlinds_length] at hi
      exact createPokerGame_hands deck names types chips sb bb i hi
    constructor
    · refine ((dealHoleCards_perm _ hmid).trans (postBlinds_perm _)).trans ?_
      rw [createPokerGame_ids]
      have := idsOf_perm hdeck
      rw [idsOf_createDeck] at this
      exact this
    · intro _
      rfl
  | foldStep pid h hstep ih =>
    obtain ⟨hp, himpl⟩ := fold_inv ih.2 hstep
    exact ⟨hp.trans ih.1, himpl⟩
  | callStep pid h hstep ih =>
    obtain ⟨hp, himpl⟩ := call_inv ih.2 hstep
    exact ⟨hp.trans ih.1, himpl⟩
  | raiseStep pid amount h hstep ih =>
    obtain ⟨hp, himpl⟩ := raise_inv ih.2 hstep
    exact ⟨hp.trans ih.1, himpl⟩
  | checkStep pid h hstep ih =>
    obtain ⟨hp, himpl⟩ := check_inv ih.2 hstep
    exact ⟨hp.trans ih.1, himpl⟩
  | allInStep pid h hstep ih =>
    obtain ⟨hp, himpl⟩ := allIn_inv ih.2 hstep
    exact ⟨hp.trans ih.1, himpl⟩
  | newRoundStep deck h hdeck ih =>
    exact startNewRound_inv _ deck hdeck ih.1

end Poker

/-! ## Hearts conservation (Claim C2) -/

theorem flatMap_getD4 {α : Type} [Inhabited α] (f : α → List Nat) (l : List α)
    (h : l.length = 4) (x : Nat) :
    (l.flatMap f).count x = (f (l.getD 0 default)).count x +
      ((f (l.getD 1 default)).count x + ((f (l.getD 2 default)).count x +
        (f (l.getD 3 default)).count x)) := by
  rcases l with _ | ⟨a, _ | ⟨b, _ | ⟨c, _ | ⟨d, rest⟩⟩⟩⟩ <;>
    simp only [List.length_cons, List.length_nil] at h <;> try omega
  have hr : rest = [] := List.length_eq_zero.mp (by omega)
  subst hr
  simp only [List.flatMap_cons, List.flatMap_nil, List.count_append,
    List.getD_cons_zero, List.getD_cons_succ, List.count_nil]
  omega

/-- Replacing an element whose contribution is merely permuted permutes the
whole collection. -/
theorem flatMap_set_perm_of_perm {α : Type} [Inhabited α] (f : α → List Nat)
    (l : List α) (i : Nat) (a : α)
    (hf : List.Perm (f a) (f (l.getD i default))) :
    List.Perm ((l.set i a).flatMap f) (l.flatMap f) := by
  by_cases hi : i < l.length
  · rw [List.perm_iff_count]
    intro x
    have h := count_flatMap_set f l i a hi x
    have h2 := hf.count_eq x
    omega
  · rw [List.set_eq_of_length_le (Nat.le_of_not_lt hi)]

theorem subperm_count_le {l m : List Nat} (h : List.Subperm l m) (x : Nat) :
    l.count x ≤ m.count x := by
  by_cases hx : x ∈ l
  · exact List.subperm_ext_iff.mp h x hx
  · rw [List.count_eq_zero_of_not_mem hx]
    exact Nat.zero_le _

theorem subperm_of_count_le {l m : List Nat} (h : ∀ x, l.count x ≤ m.count x) :
    List.Subperm l m :=
  List.subperm_ext_iff.mpr (fun x _ => h x)

theorem idsOf_map_card (trick : List Hearts.TrickEntry) :
    idsOf (trick.map fun e => e.card) = trick.map fun e => e.card.id := by
  unfold idsOf
  rw [List.map_map]
  rfl

/-- Dealing consecutive sorted slices of a deck collects exactly the ids of a
prefix of the deck. -/
theorem flatMap_slices_ids (deck : List Card) (cpp n : Nat) (g : Nat → Card → Card)
    (hg : ∀ i c, (g i c).id = c.id) :
    List.Perm
      ((List.range n).flatMap fun i =>
        idsOf (sortCards (((deck.drop (i * cpp)).take cpp).map (g i))))
      (idsOf (deck.take (n * cpp))) := by
  refine (flatMap_perm_congr _ (fun i => idsOf ((deck.drop (i * cpp)).take cpp))
    _ ?_).trans ?_
  · intro i _
    have h1 := idsOf_sortCards (((deck.drop (i * cpp)).take cpp).map (g i))
    rw [idsOf_map_of_id_eq (g i) (hg i)] at h1
    exact h1
  · rw [← idsOf_flatMap (fun i => (deck.drop (i * cpp)).take cpp) (List.range n),
      slices_concat]

/-- A prefix of a full shuffled deck is a sub-multiset of the 52 deck ids. -/
theorem subperm_deck_of_take (deck : List Card) (m : Nat)
    (hdeck : List.Perm deck createDeck) :
    List.Subperm (idsOf (deck.take m)) deckIds := by
  have hsub : (idsOf (deck.take m)).Sublist (idsOf deck) :=
    (List.take_sublist m deck).map _
  refine hsub.subperm.trans ?_
  have h2 := idsOf_perm hdeck
  rw [idsOf_createDeck] at h2
  exact h2.subperm

namespace Hearts

theorem passTarget_lt (dir : PassDirection) (i : Nat) (hi : i < 4) :
    passTarget dir i < 4 := by
  cases dir <;> simp only [passTarget] <;> omega

theorem passLoop_props (src : List HeartsPlayer) (dir : PassDirection) :
    ∀ (I : List Nat) (acc : List HeartsPlayer), acc.length = 4 →
      (∀ i ∈ I, i < 4) →
      (I.foldl (fun acc i =>
        acc.set (passTarget dir i)
          { acc.getD (passTarget dir i) default with
            receivedCards := (src.getD i default).passedCards
            hand := sortCards ((acc.getD (passTarget dir i) default).hand ++
              (src.getD i default).passedCards) }) acc).length = 4 ∧
      (∀ j, ((I.foldl (fun acc i =>
        acc.set (passTarget dir i)
          { acc.getD (passTarget dir i) default with
            receivedCards := (src.getD i default).passedCards
            hand := sortCards ((acc.getD (passTarget dir i) default).hand ++
              (src.getD i default).passedCards) }) acc).getD j default).passedCards =
        (acc.getD j default).passedCards) ∧
      (∀ j, ((I.foldl (fun acc i =>
        acc.set (passTarget dir i)
          { acc.getD (passTarget dir i) default with
            receivedCards := (src.getD i default).passedCards
            hand := sortCards ((acc.getD (passTarget dir i) default).hand ++
              (src.getD i default).passedCards) }) acc).getD j default).tricks =
        (acc.getD j default).tricks) ∧
      (∀ x : Nat, ((I.foldl (fun acc i =>
        acc.set (passTarget dir i)
          { acc.getD (passTarget dir i) default with
            receivedCards := (src.getD i default).passedCards
            hand := sortCards ((acc.getD (passTarget dir i) default).hand ++
              (src.getD i default).passedCards) }) acc).flatMap fun p => idsOf p.hand).count x =
        ((acc.flatMap fun p => idsOf p.hand).count x +
          (I.flatMap fun i => idsOf (src.getD i default).passedCards).count x)) := by
  intro I
  induction I with
  | nil =>
    intro acc hlen hbound
    refine ⟨hlen, fun j => rfl, fun j => rfl, fun x => ?_⟩
    simp only [List.foldl_nil, List.flatMap_nil, List.count_nil]
    omega
  | cons i I ih =>
    intro acc hlen hbound
    rw [List.foldl_cons]
    have hi4 : i < 4 := hbound i (List.mem_cons_self i I)
    have ht4 : passTarget dir i < acc.length := by
      rw [hlen]
      exact passTarget_lt dir i hi4
    obtain ⟨hlen2, hpass2, htr2, hcnt2⟩ := ih
      (acc.set (passTarget dir i)
        { acc.getD (passTarget dir i) default with
          receivedCards := (src.getD i default).passedCards
          hand := sortCards ((acc.getD (passTarget dir i) default).hand ++
            (src.getD i default).passedCards) })
      (by rw [List.length_set]; exact hlen)
      (fun j hj => hbound j (List.mem_cons_of_mem i hj))
    refine ⟨hlen2, ?_, ?_, ?_⟩
    · intro j
      rw [hpass2 j]
      by_cases hji : passTarget dir i = j
      · subst hji
        rw [getD_set_self _ _ _ _ ht4]
      · rw [getD_set_ne _ _ _ _ _ hji]
    · intro j
      rw [htr2 j]
      by_cases hji : passTarget dir i = j
      · subst hji
        rw [getD_set_self _ _ _ _ ht4]
      · rw [getD_set_ne _ _ _ _ _ hji]
    · intro x
      rw [hcnt2 x]
      have hset := count_flatMap_set (fun p => idsOf p.hand) acc (passTarget dir i)
        { acc.getD (passTarget dir i) default with
          receivedCards := (src.getD i default).passedCards
          hand := sortCards ((acc.getD (passTarget dir i) default).hand ++
            (src.getD i default).passedCards) } ht4 x
      have hsort := (idsOf_sortCards ((acc.getD (passTarget dir i) default).hand ++
        (src.getD i default).passedCards)).count_eq x
      simp only [List.flatMap_cons, List.count_append, idsOf_append] at hset hsort ⊢
      omega

theorem clearLoop_props :
    ∀ (I : List Nat) (acc : List HeartsPlayer), acc.length = 4 →
      (∀ i ∈ I, i < 4) →
      (I.foldl (fun acc i => acc.set i { acc.getD i default with passedCards := [] }) acc).length = 4 ∧
      (∀ j, ((I.foldl (fun acc i => acc.set i { acc.getD i default with passedCards := [] }) acc).getD j default).hand =
        (acc.getD j default).hand) ∧
      (∀ j, ((I.foldl (fun acc i => acc.set i { acc.getD i default with passedCards := [] }) acc).getD j default).tricks =
        (acc.getD j default).tricks) ∧
      (∀ j ∈ I, ((I.foldl (fun acc i => acc.set i { acc.getD i default with passedCards := [] }) acc).getD j default).passedCards = []) ∧
      (∀ j, j ∉ I → ((I.foldl (fun acc i => acc.set i { acc.getD i default with passedCards := [] }) acc).getD j default).passedCards =
        (acc.getD j default).passedCards) := by
  intro I
  induction I with
  | nil =>
    intro acc hlen hbound
    exact ⟨hlen, fun j => rfl, fun j => rfl, fun j hj => absurd hj (List.not_mem_nil j),
      fun j hj => rfl⟩
  | cons i I ih =>
    intro acc hlen hbound
    rw [List.foldl_cons]
    have hi4 : i < acc.length := by
      rw [hlen]
      exact hbound i (List.mem_cons_self i I)
    obtain ⟨hlen2, hhand2, htr2, hin2, hout2⟩ := ih
      (acc.set i { acc.getD i default with passedCards := [] })
      (by rw [List.length_set]; exact hlen)
      (fun j hj => hbound j (List.mem_cons_of_mem i hj))
    refine ⟨hlen2, ?_, ?_, ?_, ?_⟩
    · intro j
      rw [hhand2 j]
      by_cases hji : i = j
      · subst hji
        rw [getD_set_self _ _ _ _ hi4]
      · rw [getD_set_ne _ _ _ _ _ hji]
    · intro j
      rw [htr2 j]
      by_cases hji : i = j
      · subst hji
        rw [getD_set_self _ _ _ _ hi4]
      · rw [getD_set_ne _ _ _ _ _ hji]
    · intro j hj
      by_cases hjI : j ∈ I
      · exact hin2 j hjI
      · have hji : j = i := by
          rcases List.mem_cons.mp hj with h | h
          · exact h
          · exact absurd h hjI
        subst hji
        rw [hout2 j hjI, getD_set_self _ _ _ _ hi4]
    · intro j hj
      have hji : i ≠ j := fun he => hj (he ▸ List.mem_cons_self i I)
      have hjI : j ∉ I := fun hm => hj (List.mem_cons_of_mem i hm)
      rw [hout2 j hjI, getD_set_ne _ _ _ _ _ hji]

theorem createHeartsGame_ids (deck : List Card) (names : List String)
    (types : List PlayerType) (hlen : deck.length = 52) (hnames : 4 ≤ names.length) :
    List.Perm (heartsIds (createHeartsGame deck names types)) (idsOf deck) ∧
      (createHeartsGame deck names types).players.length = 4 := by
  have h4 : (names.take 4).length = 4 := by
    rw [List.length_take]
    omega
  constructor
  · unfold heartsIds createHeartsGame
    simp only []
    rw [flatMap_mapIdx_eq, h4]
    simp only [List.map_nil, List.append_nil, List.flatMap_nil,
      show idsOf ([] : List Card) = [] from rfl]
    refine (flatMap_slices_ids deck 13 4 (fun i c => { c with faceUp := true })
      (fun i c => rfl)).trans ?_
    rw [show (4 * 13 : Nat) = 52 from rfl, ← hlen, List.take_length]
  · unfold createHeartsGame
    simp only []
    rw [List.length_mapIdx, h4]

theorem heartsNewRound_inv (s : HeartsState) (fresh : List Card)
    (h4 : s.players.length = 4) (hfresh : List.Perm fresh createDeck) :
    List.Perm (heartsIds (startNewRound s fresh)) deckIds ∧
      ((startNewRound s fresh).phase = HPhase.playing ∨
        (startNewRound s fresh).phase = HPhase.passing) ∧
      (startNewRound s fresh).players.length = 4 := by
  have hlen : fresh.length = 52 := by
    rw [hfresh.length_eq]
    rfl
  refine ⟨?_, ?_, ?_⟩
  · unfold heartsIds startNewRound
    simp only []
    rw [flatMap_mapIdx_eq, h4]
    simp only [List.map_nil, List.append_nil, List.flatMap_nil,
      show idsOf ([] : List Card) = [] from rfl]
    refine (flatMap_slices_ids fresh 13 4
      (fun i c => { c with
        faceUp := (s.players.getD i default).type = PlayerType.human })
      (fun i c => rfl)).trans ?_
    rw [show (4 * 13 : Nat) = 52 from rfl, ← hlen, List.take_length]
    have h2 := idsOf_perm hfresh
    rw [idsOf_createDeck] at h2
    exact h2
  · unfold startNewRound
    simp only []
    by_cases hd : PASS_DIRECTIONS.getD (s.roundNumber % 4) PassDirection.none =
        PassDirection.none
    · rw [if_pos hd]
      exact Or.inl rfl
    · rw [if_neg hd]
      exact Or.inr rfl
  · unfold startNewRound
    simp only []
    rw [List.length_mapIdx]
    exact h4

theorem executePassPhase_inv (s : HeartsState) (h4 : s.players.length = 4)
    (hperm : List.Perm (heartsIds s) deckIds) :
    List.Perm (heartsIds (executePassPhase s)) deckIds ∧
      (executePassPhase s).players.length = 4 := by
  unfold executePassPhase
  by_cases hall : (s.players.all fun p => p.passedCards.length == 3) = true
  · rw [if_neg (by rw [hall]; decide)]
    simp only []
    have hL := passLoop_props s.players s.passDirection (List.range 4) s.players h4
      (fun i hi => List.mem_range.mp hi)
    obtain ⟨hlen1, hpass1, htr1, hcnt1⟩ := hL
    simp only [] at hlen1 hpass1 htr1 hcnt1
    have hC := clearLoop_props (List.range 4)
      ((List.range 4).foldl (fun acc i =>
        acc.set (passTarget s.passDirection i)
          { acc.getD (passTarget s.passDirection i) default with
            receivedCards := (s.players.getD i default).passedCards
            hand := sortCards ((acc.getD (passTarget s.passDirection i) default).hand ++
              (s.players.getD i default).passedCards) }) s.players) hlen1
      (fun i hi => List.mem_range.mp hi)
    obtain ⟨hlen2, hhand2, htr2, hin2, hout2⟩ := hC
    simp only [] at hlen2 hhand2 htr2 hin2
    refine ⟨List.Perm.trans ?_ hperm, ?_⟩
    · rw [List.perm_iff_count]
      intro x
      unfold heartsIds
      simp only [List.count_append]
      have e2 := flatMap_getD4 (fun p =>
          idsOf p.hand ++ idsOf p.passedCards ++ p.tricks.flatMap idsOf)
        ((List.range 4).foldl (fun acc i => acc.set i { acc.getD i default with passedCards := [] }) ((List.range 4).foldl (fun acc i =>
        acc.set (passTarget s.passDirection i)
          { acc.getD (passTarget s.passDirection i) default with
            receivedCards := (s.players.getD i default).passedCards
            hand := sortCards ((acc.getD (passTarget s.passDirection i) default).hand ++
              (s.players.getD i default).passedCards) }) s.players))
        hlen2 x
      have e1 := flatMap_getD4 (fun p => idsOf p.hand)
        ((List.range 4).foldl (fun acc i =>
        acc.set (passTarget s.passDirection i)
          { acc.getD (passTarget s.passDirection i) default with
            receivedCards := (s.players.getD i default).passedCards
            hand := sortCards ((acc.getD (passTarget s.passDirection i) default).hand ++
              (s.players.getD i default).passedCards) }) s.players) hlen1 x
      have e0 := flatMap_getD4 (fun p =>
          idsOf p.hand ++ idsOf p.passedCards ++ p.tricks.flatMap idsOf)
        s.players h4 x
      have e0h := flatMap_getD4 (fun p => idsOf p.hand) s.players h4 x
      have ep : ((List.range 4).flatMap fun i =>
          idsOf ((s.players.getD i default).passedCards)).count x =
          (idsOf ((s.players.getD 0 default).passedCards)).count x +
          ((idsOf ((s.players.getD 1 default).passedCards)).count x +
          ((idsOf ((s.players.getD 2 default).passedCards)).count x +
          (idsOf ((s.players.getD 3 default).passedCards)).count x)) := by
        rw [show List.range 4 = [0, 1, 2, 3] from rfl]
        simp only [List.flatMap_cons, List.flatMap_nil, List.count_append,
          List.count_nil]
        omega
      have hc1 := hcnt1 x
      rw [ep] at hc1
      have hz : ∀ j, j < 4 →
          (((List.range 4).foldl (fun acc i => acc.set i { acc.getD i default with passedCards := [] })
            ((List.range 4).foldl (fun acc i =>
        acc.set (passTarget s.passDirection i)
          { acc.getD (passTarget s.passDirection i) default with
            receivedCards := (s.players.getD i default).passedCards
            hand := sortCards ((acc.getD (passTarget s.passDirection i) default).hand ++
              (s.players.getD i default).passedCards) }) s.players)).getD j default).passedCards =
          [] := by
        intro j hj
        exact hin2 j (List.mem_range.mpr hj)
      simp only [List.count_append, hhand2, htr2, hpass1, htr1,
        hz 0 (by omega), hz 1 (by omega), hz 2 (by omega), hz 3 (by omega),
        show idsOf ([] : List Card) = [] from rfl, List.count_nil] at e2
      simp only [List.count_append] at e0 e0h e1
      omega
    · exact hlen2
  · rw [if_pos (by rw [Bool.eq_false_iff.mpr hall]; rfl)]
    exact ⟨hperm, h4⟩

theorem hand_ids_nodup {s : HeartsState} (hperm : List.Perm (heartsIds s) deckIds)
    (pi : Nat) (hlt : pi < s.players.length) :
    (idsOf (s.players.getD pi default).hand).Nodup := by
  have hnd : (heartsIds s).Nodup := hperm.nodup_iff.mpr deckIds_nodup
  have hsub : (idsOf (s.players.getD pi default).hand).Sublist (heartsIds s) := by
    unfold heartsIds
    refine List.Sublist.trans (List.Sublist.trans ?_
      (sublist_flatMap_getD (fun p => idsOf p.hand ++ idsOf p.passedCards ++
        p.tricks.flatMap idsOf) s.players pi hlt)) (List.sublist_append_left _ _)
    exact (List.sublist_append_left _ _).trans (List.sublist_append_left _ _)
  exact hsub.nodup hnd

theorem passCards_inv {s s' : HeartsState} {pid : String} {cards : List Card}
    {pi : Nat}
    (hperm : List.Perm (heartsIds s) deckIds)
    (hpi : s.players.findIdx? (fun p => p.id == pid) = some pi)
    (hsub : cards.Sublist (s.players.getD pi default).hand)
    (hnotyet : (s.players.getD pi default).passedCards = [])
    (hstep : passCards s pid cards = some s') :
    List.Perm (heartsIds s') deckIds ∧ s'.players.length = s.players.length ∧
      s'.phase = s.phase := by
  have hlt : pi < s.players.length := findIdx?_lt_len hpi
  have hnd := hand_ids_nodup hperm pi hlt
  simp only [passCards, hpi] at hstep
  by_cases h3 : cards.length ≠ 3
  · rw [if_pos h3] at hstep
    cases hstep
  · rw [if_neg h3] at hstep
    by_cases hdir : s.passDirection = PassDirection.none
    · rw [if_pos hdir] at hstep
      cases hstep
    · rw [if_neg hdir] at hstep
      by_cases hall : (cards.all fun card =>
          (s.players.getD pi default).hand.any fun h => h.id == card.id) = true
      · rw [if_neg (by rw [hall]; decide)] at hstep
        injection hstep with hs
        subst hs
        refine ⟨List.Perm.trans ?_ hperm, ?_, rfl⟩
        · unfold heartsIds
          simp only []
          refine List.Perm.append (flatMap_set_perm_of_perm _ _ _ _ ?_)
            (List.Perm.refl _)
          rw [hnotyet]
          simp only [List.flatMap_nil, List.append_nil,
            show idsOf ([] : List Card) = [] from rfl]
          exact List.Perm.append (filter_out_sublist_perm _ cards hsub hnd)
            (List.Perm.refl _)
        · simp only [List.length_set]
      · rw [if_pos (by rw [Bool.eq_false_iff.mpr hall]; rfl)] at hstep
        cases hstep

theorem executePassPhase_phase (s : HeartsState) :
    (executePassPhase s).phase = HPhase.playing ∨
      (executePassPhase s).phase = s.phase := by
  unfold executePassPhase
  by_cases hall : (s.players.all fun p => p.passedCards.length == 3) = true
  · rw [if_neg (by rw [hall]; decide)]
    exact Or.inl rfl
  · rw [if_pos (by rw [Bool.eq_false_iff.mpr hall]; rfl)]
    exact Or.inr rfl

theorem perm_of_inv {s : HeartsState} (hph : s.phase ≠ HPhase.gameEnd)
    (hd : (s.phase ≠ HPhase.gameEnd ∧ List.Perm (heartsIds s) deckIds) ∨
      (s.phase = HPhase.gameEnd ∧ List.Perm (heartsIdsNoTrick s) deckIds)) :
    List.Perm (heartsIds s) deckIds := by
  rcases hd with ⟨_, hp⟩ | ⟨hg, _⟩
  · exact hp
  · exact absurd hg hph

/-- Count bookkeeping of a play: the played card leaves the hand and its id
joins the trick. -/
theorem removeCard_trick_count (players : List HeartsPlayer) (pi : Nat) (c : Card)
    (hlt : pi < players.length)
    (hnd : (idsOf (players.getD pi default).hand).Nodup)
    (hmem : c.id ∈ idsOf (players.getD pi default).hand) (x : Nat) :
    ((players.set pi { players.getD pi default with
        hand := (players.getD pi default).hand.filter
          fun h => !(h.id == c.id) }).flatMap
      fun p => idsOf p.hand ++ idsOf p.passedCards ++
        p.tricks.flatMap idsOf).count x + ([c.id] : List Nat).count x =
    ((players.flatMap fun p => idsOf p.hand ++ idsOf p.passedCards ++
      p.tricks.flatMap idsOf).count x) := by
  have hset := count_flatMap_set
    (fun p => idsOf p.hand ++ idsOf p.passedCards ++ p.tricks.flatMap idsOf)
    players pi
    { players.getD pi default with
      hand := (players.getD pi default).hand.filter fun h => !(h.id == c.id) }
    hlt x
  have hfil := (filter_out_id_perm (players.getD pi default).hand c.id hmem
    hnd).count_eq x
  simp only [List.count_append] at hset hfil ⊢
  omega

/-- Count bookkeeping of crediting the completed trick to its winner. -/
theorem creditTrick_count (players : List HeartsPlayer) (trick : List TrickEntry)
    (wpi : Nat) (hlt : wpi < players.length) (x : Nat) :
    ((players.set wpi { players.getD wpi default with
        tricks := (players.getD wpi default).tricks ++ [trick.map fun e => e.card]
        roundScore := (players.getD wpi default).roundScore +
          calculateTrickPoints (trick.map fun e => e.card) }).flatMap
      fun p => idsOf p.hand ++ idsOf p.passedCards ++
        p.tricks.flatMap idsOf).count x =
    ((players.flatMap fun p => idsOf p.hand ++ idsOf p.passedCards ++
      p.tricks.flatMap idsOf).count x) +
      ((trick.map fun e => e.card.id).count x) := by
  have hset := count_flatMap_set
    (fun p => idsOf p.hand ++ idsOf p.passedCards ++ p.tricks.flatMap idsOf)
    players wpi
    { players.getD wpi default with
      tricks := (players.getD wpi default).tricks ++ [trick.map fun e => e.card]
      roundScore := (players.getD wpi default).roundScore +
        calculateTrickPoints (trick.map fun e => e.card) }
    hlt x
  simp only [List.count_append, List.flatMap_append, List.flatMap_cons,
    List.flatMap_nil, List.append_nil, idsOf_map_card] at hset ⊢
  omega

theorem heartsNewRound_phase (s : HeartsState) (fresh : List Card) :
    (startNewRound s fresh).phase ≠ HPhase.gameEnd := by
  unfold startNewRound
  simp only []
  by_cases hd : PASS_DIRECTIONS.getD (s.roundNumber % 4) PassDirection.none =
      PassDirection.none
  · rw [if_pos hd]
    intro hc
    exact nomatch hc
  · rw [if_neg hd]
    intro hc
    exact nomatch hc

theorem completeRound_inv (t : HeartsState) (fresh : List Card)
    (h4 : t.players.length = 4)
    (hids : List.Perm (heartsIdsNoTrick t) deckIds)
    (hfresh : List.Perm fresh createDeck) :
    (completeRound t fresh).players.length = 4 ∧
      (((completeRound t fresh).phase ≠ HPhase.gameEnd ∧
          List.Perm (heartsIds (completeRound t fresh)) deckIds) ∨
        ((completeRound t fresh).phase = HPhase.gameEnd ∧
          List.Perm (heartsIdsNoTrick (completeRound t fresh)) deckIds)) := by
  rcases hfind : t.players.find? (fun p => p.roundScore == 26) with _ | shooter
  · simp only [completeRound, hfind]
    split
    · refine ⟨?_, Or.inr ⟨rfl, ?_⟩⟩
      · simp only [List.length_map]
        exact h4
      · unfold heartsIdsNoTrick
        simp only []
        rw [flatMap_map_eq_of
          (fun (p : HeartsPlayer) => { p with score := p.score + p.roundScore })
          (fun p => idsOf p.hand ++ idsOf p.passedCards ++ p.tricks.flatMap idsOf)
          (fun a => rfl)]
        exact hids
    · refine ⟨(heartsNewRound_inv _ fresh ?_ hfresh).2.2,
        Or.inl ⟨heartsNewRound_phase _ fresh,
          (heartsNewRound_inv _ fresh ?_ hfresh).1⟩⟩
      all_goals exact (List.length_map _ _).trans h4
  · have hgp : ∀ a : HeartsPlayer,
        (fun p => idsOf p.hand ++ idsOf p.passedCards ++ p.tricks.flatMap idsOf)
          ((fun (p : HeartsPlayer) => if p.id = shooter.id
            then { p with score := p.score + 0 }
            else { p with score := p.score + 26 }) a) =
        (fun p => idsOf p.hand ++ idsOf p.passedCards ++ p.tricks.flatMap idsOf)
          a := by
      intro a
      simp only []
      by_cases hidq : a.id = shooter.id
      · simp only [if_pos hidq]
      · simp only [if_neg hidq]
    simp only [completeRound, hfind]
    split
    · refine ⟨?_, Or.inr ⟨rfl, ?_⟩⟩
      · simp only [List.length_map]
        exact h4
      · unfold heartsIdsNoTrick
        simp only []
        rw [flatMap_map_eq_of _ _ hgp]
        exact hids
    · refine ⟨(heartsNewRound_inv _ fresh ?_ hfresh).2.2,
        Or.inl ⟨heartsNewRound_phase _ fresh,
          (heartsNewRound_inv _ fresh ?_ hfresh).1⟩⟩
      all_goals exact (List.length_map _ _).trans h4

theorem completeTrick_inv (m : HeartsState) (fresh : List Card)
    (h4 : m.players.length = 4)
    (hphase : m.phase = HPhase.playing)
    (hperm : List.Perm (heartsIds m) deckIds)
    (hfresh : List.Perm fresh createDeck) :
    (completeTrick m fresh).players.length = 4 ∧
      (((completeTrick m fresh).phase ≠ HPhase.gameEnd ∧
          List.Perm (heartsIds (completeTrick m fresh)) deckIds) ∨
        ((completeTrick m fresh).phase = HPhase.gameEnd ∧
          List.Perm (heartsIdsNoTrick (completeTrick m fresh)) deckIds)) := by
  rcases hls : m.leadSuit with _ | leadSuit
  · simp only [completeTrick, hls]
    exact ⟨h4, Or.inl ⟨by rw [hphase]; decide, hperm⟩⟩
  · simp only [completeTrick, hls]
    set wpi := (m.players.findIdx? fun p =>
      p.id == (m.currentTrick.getD (trickWinnerIdx m.currentTrick leadSuit)
        default).playerId).getD 0 with hwpi
    have hwlt : wpi < m.players.length := by
      rw [hwpi]
      rcases hfi : m.players.findIdx? (fun p =>
          p.id == (m.currentTrick.getD (trickWinnerIdx m.currentTrick leadSuit)
            default).playerId) with _ | k
      · rw [hfi]
        simp only [Option.getD_none]
        omega
      · rw [hfi]
        simp only [Option.getD_some]
        exact findIdx?_lt_len hfi
    have hcred := fun x => creditTrick_count m.players m.currentTrick wpi hwlt x
    split
    · refine completeRound_inv _ fresh ?_ ?_ hfresh
      · simp only [List.length_set]
        exact h4
      · unfold heartsIdsNoTrick
        simp only []
        rw [List.perm_iff_count]
        intro x
        have h1 := hcred x
        simp only [] at h1
        have h2 := hperm.count_eq x
        unfold heartsIds at h2
        simp only [List.count_append] at h2 ⊢
        omega
    · refine ⟨?_, Or.inl ⟨?_, ?_⟩⟩
      · simp only [List.length_set]
        exact h4
      · intro hc
        have hc2 : m.phase = HPhase.gameEnd := hc
        rw [hphase] at hc2
        exact nomatch hc2
      · refine List.Perm.trans ?_ hperm
        unfold heartsIds
        simp only []
        rw [List.perm_iff_count]
        intro x
        have h1 := hcred x
        simp only [] at h1
        simp only [List.map_nil, List.count_append, List.count_nil]
        omega

theorem playCard_inv {s s' : HeartsState} {pid : String} {card : Card}
    {fresh : List Card}
    (h4 : s.players.length = 4)
    (hphase : s.phase = HPhase.playing)
    (hperm : List.Perm (heartsIds s) deckIds)
    (hfresh : List.Perm fresh createDeck)
    (hstep : playCard s pid card fresh = some s') :
    s'.players.length = 4 ∧
      ((s'.phase ≠ HPhase.gameEnd ∧ List.Perm (heartsIds s') deckIds) ∨
        (s'.phase = HPhase.gameEnd ∧
          List.Perm (heartsIdsNoTrick s') deckIds)) := by
  rcases hfi : s.players.findIdx? (fun p => p.id == pid) with _ | pi
  · simp only [playCard, hfi] at hstep
    by_cases hv : isValidPlay s pid card = true
    · rw [if_neg (by rw [hv]; decide)] at hstep
      cases hstep
    · rw [if_pos (by rw [Bool.eq_false_iff.mpr hv]; rfl)] at hstep
      cases hstep
  · simp only [playCard, hfi] at hstep
    by_cases hv : isValidPlay s pid card = true
    case neg =>
      rw [if_pos (by rw [Bool.eq_false_iff.mpr hv]; rfl)] at hstep
      cases hstep
    case pos =>
    rw [if_neg (by rw [hv]; decide)] at hstep
    have hlt : pi < s.players.length := findIdx?_lt_len hfi
    have hnd := hand_ids_nodup hperm pi hlt
    have hmem : card.id ∈ idsOf (s.players.getD pi default).hand := by
      have hv2 := hv
      simp [isValidPlay, hfi] at hv2
      obtain ⟨x0, hx0, hxid⟩ := hv2.1
      rw [← hxid]
      unfold idsOf
      rw [List.getD_eq_getElem?_getD]
      exact List.mem_map_of_mem (fun c => c.id) hx0
    have hcnt : ∀ x : Nat, ((s.players.set pi { s.players.getD pi default with
        hand := (s.players.getD pi default).hand.filter
          fun h => !(h.id == card.id) }).flatMap
        fun p => idsOf p.hand ++ idsOf p.passedCards ++
          p.tricks.flatMap idsOf).count x +
        ((s.currentTrick ++ [({ playerId := pid, card := card } : TrickEntry)]).map
          (fun e => e.card.id)).count x =
        (heartsIds s).count x := by
      intro x
      have h1 := removeCard_trick_count s.players pi card hlt hnd hmem x
      simp only [] at h1
      unfold heartsIds
      simp only [List.map_append, List.count_append, List.map_cons,
        List.map_nil] at h1 ⊢
      omega
    by_cases hlen4 :
        (s.currentTrick ++ [({ playerId := pid, card := card } : TrickEntry)]).length = 4
    · rw [if_pos hlen4] at hstep
      injection hstep with hs
      subst hs
      refine completeTrick_inv _ fresh ?_ ?_ ?_ hfresh
      · simp only [List.length_set]
        exact h4
      · exact hphase
      · refine List.Perm.trans ?_ hperm
        unfold heartsIds
        simp only []
        rw [List.perm_iff_count]
        intro x
        have h1 := hcnt x
        simp only [] at h1
        unfold heartsIds at h1
        simp only [List.count_append] at h1 ⊢
        omega
    · rw [if_neg hlen4] at hstep
      injection hstep with hs
      subst hs
      refine ⟨?_, Or.inl ⟨?_, ?_⟩⟩
      · simp only [List.length_set]
        exact h4
      · intro hc
        have hc2 : s.phase = HPhase.gameEnd := hc
        rw [hphase] at hc2
        exact nomatch hc2
      · refine List.Perm.trans ?_ hperm
        unfold heartsIds
        simp only []
        rw [List.perm_iff_count]
        intro x
        have h1 := hcnt x
        simp only [] at h1
        unfold heartsIds at h1
        simp only [List.count_append] at h1 ⊢
        omega

/-- Hearts conserves the 52 card ids in every reachable state; at `gameEnd`
the collection without the stale final trick is the conserved one. -/
theorem hearts_reach_inv {s : HeartsState} (h : Reach s) :
    s.players.length = 4 ∧
      ((s.phase ≠ HPhase.gameEnd ∧ List.Perm (heartsIds s) deckIds) ∨
        (s.phase = HPhase.gameEnd ∧ List.Perm (heartsIdsNoTrick s) deckIds)) := by
  induction h with
  | init deck names types hdeck hnames =>
    have hdl : deck.length = 52 := by
      rw [hdeck.length_eq]
      rfl
    obtain ⟨hp, hl⟩ := createHeartsGame_ids deck names types hdl hnames
    refine ⟨hl, Or.inl ⟨?_, hp.trans ?_⟩⟩
    · intro hc
      exact nomatch hc
    · have h2 := idsOf_perm hdeck
      rw [idsOf_createDeck] at h2
      exact h2
  | @passStep s s' pid cards pi h hphase hpi hsub hnotyet hstep ih =>
    obtain ⟨hl, hd⟩ := ih
    have hperm : List.Perm (heartsIds s) deckIds :=
      perm_of_inv (by rw [hphase]; decide) hd
    obtain ⟨hp', hl', hph'⟩ := passCards_inv hperm hpi hsub hnotyet hstep
    refine ⟨hl'.trans hl, Or.inl ⟨?_, hp'⟩⟩
    intro hc
    rw [hph', hphase] at hc
    exact nomatch hc
  | @execStep s h hphase ih =>
    obtain ⟨hl, hd⟩ := ih
    have hperm : List.Perm (heartsIds s) deckIds :=
      perm_of_inv (by rw [hphase]; decide) hd
    obtain ⟨hp2, hl2⟩ := executePassPhase_inv s hl hperm
    refine ⟨hl2, Or.inl ⟨?_, hp2⟩⟩
    rcases executePassPhase_phase s with hph | hph
    · intro hc
      rw [hph] at hc
      exact nomatch hc
    · intro hc
      rw [hph, hphase] at hc
      exact nomatch hc
  | @playStep s s' pid card fresh h hphase hfresh hstep ih =>
    obtain ⟨hl, hd⟩ := ih
    have hperm : List.Perm (heartsIds s) deckIds :=
      perm_of_inv (by rw [hphase]; decide) hd
    exact playCard_inv hl hphase hperm hfresh hstep

end Hearts

/-! ## President conservation (Claim C2) -/

namespace Asshole

theorem createAssholeGame_ids (deck : List Card) (names : List String)
    (types : List PlayerType) :
    List.Perm (assholeIds (createAssholeGame deck names types))
      (idsOf (deck.take (names.length * (52 / names.length)))) := by
  unfold assholeIds createAssholeGame
  simp only []
  rw [flatMap_mapIdx_eq]
  simp only [List.flatMap_nil, List.append_nil]
  exact flatMap_slices_ids deck (52 / names.length) names.length
    (fun i c => { c with faceUp := true }) (fun i c => rfl)

theorem createAssholeGame_len (deck : List Card) (names : List String)
    (types : List PlayerType) (hdeck : deck.length = 52) :
    (assholeIds (createAssholeGame deck names types)).length =
      names.length * (52 / names.length) := by
  rw [(createAssholeGame_ids deck names types).length_eq]
  unfold idsOf
  rw [List.length_map, List.length_take, hdeck]
  have hle : names.length * (52 / names.length) ≤ 52 := by
    rw [Nat.mul_comm]
    exact Nat.div_mul_le_self 52 names.length
  omega

theorem asshole_hand_nodup {s : AssholeState}
    (hsp : List.Subperm (assholeIds s) deckIds)
    (pi : Nat) (hlt : pi < s.players.length) :
    (idsOf (s.players.getD pi default).hand).Nodup := by
  have hnd : (assholeIds s).Nodup := nodup_of_subperm hsp deckIds_nodup
  have hsub : (idsOf (s.players.getD pi default).hand).Sublist (assholeIds s) := by
    unfold assholeIds
    exact (sublist_flatMap_getD (fun p => idsOf p.hand) s.players pi hlt).trans
      (List.sublist_append_left _ _)
  exact hsub.nodup hnd

/-- Count bound for a normal play: the played cards move from the hand onto
the pile. -/
theorem playBranch_count_le (players : List AssholePlayer)
    (pile : List (List Card)) (pi : Nat) (a : AssholePlayer) (cards : List Card)
    (hi : pi < players.length)
    (hc : ∀ x, (idsOf a.hand).count x + (idsOf cards).count x =
      (idsOf (players.getD pi default).hand).count x) (x : Nat) :
    (((players.set pi a).flatMap fun p => idsOf p.hand) ++
      (pile ++ [cards]).flatMap idsOf).count x ≤
    ((players.flatMap fun p => idsOf p.hand) ++ pile.flatMap idsOf).count x := by
  have h := count_flatMap_set (fun p => idsOf p.hand) players pi a hi x
  simp only [] at h
  have h2 := hc x
  simp only [List.flatMap_append, List.flatMap_cons, List.flatMap_nil,
    List.append_nil, List.count_append] at h ⊢
  omega

/-- Count bound for a round-ending play: the final cards are dropped. -/
theorem endBranch_count_le (players : List AssholePlayer)
    (pile : List (List Card)) (pi : Nat) (a : AssholePlayer)
    (hi : pi < players.length)
    (hc : ∀ x, (idsOf a.hand).count x ≤
      (idsOf (players.getD pi default).hand).count x) (x : Nat) :
    (((players.set pi a).flatMap fun p => idsOf p.hand) ++
      pile.flatMap idsOf).count x ≤
    ((players.flatMap fun p => idsOf p.hand) ++ pile.flatMap idsOf).count x := by
  have h := count_flatMap_set (fun p => idsOf p.hand) players pi a hi x
  simp only [] at h
  have h2 := hc x
  simp only [List.count_append] at h ⊢
  omega

theorem playCards_inv {s s' : AssholeState} {pid : String} {cards : List Card}
    {pi : Nat}
    (hsp : List.Subperm (assholeIds s) deckIds)
    (hpi : s.players.findIdx? (fun p => p.id == pid) = some pi)
    (hsub : cards.Sublist (s.players.getD pi default).hand)
    (hstep : playCards s pid cards = some s') :
    List.Subperm (assholeIds s') deckIds := by
  have hlt : pi < s.players.length := findIdx?_lt_len hpi
  have hnd := asshole_hand_nodup hsp pi hlt
  have hcEq : ∀ x, (idsOf ((s.players.getD pi default).hand.filter
        fun h => !(cards.any fun c => c.id == h.id))).count x +
      (idsOf cards).count x =
      (idsOf (s.players.getD pi default).hand).count x := by
    intro x
    have h := (filter_out_sublist_perm (s.players.getD pi default).hand
      cards hsub hnd).count_eq x
    simp only [List.count_append] at h
    exact h
  have hcLe : ∀ x, (idsOf ((s.players.getD pi default).hand.filter
        fun h => !(cards.any fun c => c.id == h.id))).count x ≤
      (idsOf (s.players.getD pi default).hand).count x := by
    intro x
    have := hcEq x
    omega
  by_cases hv : isValidPlay s pid cards = true
  case neg =>
    simp only [playCards] at hstep
    rw [if_pos (by rw [Bool.eq_false_iff.mpr hv]; rfl)] at hstep
    cases hstep
  case pos =>
  simp only [playCards, hpi] at hstep
  rw [if_neg (by rw [hv]; decide)] at hstep
  split at hstep
  all_goals try split at hstep
  all_goals try split at hstep
  all_goals try split at hstep
  all_goals try split at hstep
  all_goals try split at hstep
  all_goals try split at hstep
  all_goals try split at hstep
  all_goals try split at hstep
  all_goals injection hstep with hs
  all_goals subst hs
  all_goals refine subperm_of_count_le (fun x => le_trans ?_ (subperm_count_le hsp x))
  all_goals unfold assholeIds
  all_goals simp only []
  all_goals first
    | (refine playBranch_count_le _ _ _ _ _ hlt ?_ x
       exact hcEq)
    | (refine endBranch_count_le _ _ _ _ hlt ?_ x
       exact hcLe)
    | (refine le_trans (le_of_eq ((List.Perm.append_right _
        (flatMap_set_perm_of_perm (fun (p : AssholePlayer) => idsOf p.hand)
          _ _ _ ?_)).count_eq x)) ?_
       exact List.Perm.refl _
       refine endBranch_count_le _ _ _ _ hlt ?_ x
       exact hcLe)

theorem assholePass_inv {s s' : AssholeState} {pid : String}
    (hsp : List.Subperm (assholeIds s) deckIds)
    (hstep : pass s pid = some s') :
    List.Subperm (assholeIds s') deckIds := by
  rcases hfi : s.players.findIdx? (fun p => p.id == pid) with _ | pi
  · simp only [pass, hfi] at hstep
    cases hstep
  · simp only [pass, hfi] at hstep
    rcases hcr : s.currentRank with _ | cr
    · simp only [hcr] at hstep
      cases hstep
    · simp only [hcr] at hstep
      have hlt : pi < s.players.length := findIdx?_lt_len hfi
      split at hstep
      · injection hstep with hs
        subst hs
        refine subperm_of_count_le (fun x => ?_)
        refine le_trans ?_ (subperm_count_le hsp x)
        unfold assholeIds
        simp only [List.count_append, List.flatMap_nil, List.count_nil]
        have h1 := flatMap_map_eq_of
          (fun (p : AssholePlayer) => { p with hasPassed := false })
          (fun (p : AssholePlayer) => idsOf p.hand) (fun a => rfl)
          (s.players.set pi { s.players.getD pi default with hasPassed := true })
        simp only [] at h1
        rw [h1]
        have h2 := (flatMap_set_perm_of_eq
          (fun (p : AssholePlayer) => idsOf p.hand) s.players pi
          { s.players.getD pi default with hasPassed := true } rfl).count_eq x
        simp only [] at h2
        omega
      · injection hstep with hs
        subst hs
        refine List.Subperm.trans (List.Perm.subperm ?_) hsp
        unfold assholeIds
        simp only []
        refine List.Perm.append ?_ (List.Perm.refl _)
        exact flatMap_set_perm_of_eq
          (fun (p : AssholePlayer) => idsOf p.hand) s.players pi
          { s.players.getD pi default with hasPassed := true } rfl

theorem assholeNewRound_subperm (s : AssholeState) (deck : List Card)
    (hdeck : List.Perm deck createDeck) :
    List.Subperm (assholeIds (startNewRound s deck)) deckIds := by
  refine List.Subperm.trans (List.Perm.subperm ?_) (subperm_deck_of_take deck
    (s.players.length * (52 / s.players.length)) hdeck)
  unfold assholeIds startNewRound
  simp only []
  rw [flatMap_mapIdx_eq]
  simp only [List.flatMap_nil, List.append_nil]
  exact flatMap_slices_ids deck (52 / s.players.length) s.players.length
    (fun i c => { c with faceUp := true }) (fun i c => rfl)

/-- President only ever holds a sub-multiset of the 52 deck ids: creation
already drops the `52 mod n` remainder cards, and discarded piles and
round-ending plays are dropped outright. -/
theorem asshole_reach_subperm {s : AssholeState} (h : Reach s) :
    List.Subperm (assholeIds s) deckIds := by
  induction h with
  | init deck names types hdeck =>
    exact ((createAssholeGame_ids deck names types).subperm).trans
      (subperm_deck_of_take deck _ hdeck)
  | playStep pid cards pi h hpi hsub hstep ih =>
    exact playCards_inv ih hpi hsub hstep
  | passStep pid h hstep ih =>
    exact assholePass_inv ih hstep
  | newRoundStep deck h hdeck ih =>
    exact assholeNewRound_subperm _ deck hdeck

end Asshole

/-! ## Claim C2 -/

/-- Claim C2 (corrected): conservation of card identifiers over reachable
states.  Blackjack (within a round), Solitaire and Texas Hold'em keep the
multiset of card ids across deck + hands + piles exactly equal to the 52
distinct deck ids; Blackjack's round reset instead drops the previous hands,
keeping only the (possibly depleted) deck.  Hearts keeps exactly the 52 ids
away from `gameEnd`; at `gameEnd` the final trick is retained both in the
winner's tricks and in `currentTrick`, and the collection without that stale
trick is the exact 52.  President holds a sub-multiset of the 52 ids (each at
most once), but `createAssholeGame` deals only `n * (52 / n)` cards, silently
dropping the `52 mod n` remainder — so for player counts not dividing 52 the
ids are never all 52. -/
theorem C2_conservation :
    (∀ s : Blackjack.BlackjackState, Blackjack.Reach s →
      List.Perm (Blackjack.bjIds s) deckIds) ∧
    (∀ (s : Blackjack.BlackjackState) (fresh : List Card),
      Blackjack.bjIds (Blackjack.bjStartNewRound s fresh) =
        idsOf (if s.deck.length < 15 then fresh else s.deck)) ∧
    (∀ s : Solitaire.SolitaireState, Solitaire.Reach s →
      List.Perm (Solitaire.solIds s) deckIds) ∧
    (∀ s : Poker.PokerState, Poker.Reach s →
      List.Perm (Poker.pokerIds s) deckIds) ∧
    (∀ s : Hearts.HeartsState, Hearts.Reach s →
      s.phase ≠ Hearts.HPhase.gameEnd → List.Perm (Hearts.heartsIds s) deckIds) ∧
    (∀ s : Hearts.HeartsState, Hearts.Reach s →
      s.phase = Hearts.HPhase.gameEnd →
      List.Perm (Hearts.heartsIdsNoTrick s) deckIds) ∧
    (∀ s : Asshole.AssholeState, Asshole.Reach s →
      List.Subperm (Asshole.assholeIds s) deckIds) ∧
    (∀ (deck : List Card) (names : List String) (types : List PlayerType),
      deck.length = 52 →
      (Asshole.assholeIds (Asshole.createAssholeGame deck names types)).length =
        names.length * (52 / names.length)) := by
  refine ⟨fun s h => Blackjack.bj_reach_perm h, Blackjack.bjStartNewRound_ids,
    fun s h => (Solitaire.sol_reach_inv h).1,
    fun s h => (Poker.poker_reach_inv h).1,
    fun s h hph => ?_, fun s h hph => ?_,
    fun s h => Asshole.asshole_reach_subperm h,
    fun deck names types hdl => Asshole.createAssholeGame_len deck names types hdl⟩
  · rcases (Hearts.hearts_reach_inv h).2 with ⟨_, hp⟩ | ⟨hg, _⟩
    · exact hp
    · exact absurd hg hph
  · rcases (Hearts.hearts_reach_inv h).2 with ⟨hne, _⟩ | ⟨_, hp⟩
    · exact absurd hph hne
    · exact hp

/-- Claim C2 counterexample: a three-player President game created on the
full deck is reachable (it is the constructor itself), yet its card ids are
not a permutation of the 52 deck ids — each player gets ⌊52/3⌋ = 17 cards
and the 52nd card is dropped, leaving 51 ids. -/
theorem C2_counterexample :
    Asshole.Reach (Asshole.createAssholeGame createDeck ["A", "B", "C"] []) ∧
    ¬ List.Perm
      (Asshole.assholeIds (Asshole.createAssholeGame createDeck ["A", "B", "C"] []))
      deckIds :=
  ⟨Asshole.Reach.init createDeck ["A", "B", "C"] [] (List.Perm.refl _),
   fun h => absurd h.length_eq (by decide)⟩

/-- Claim C2 witness: the President conservation statement applied to the
concrete three-player creation. -/
theorem C2_witness :
    List.Subperm
      (Asshole.assholeIds (Asshole.createAssholeGame createDeck ["A", "B", "C"] []))
      deckIds :=
  C2_conservation.2.2.2.2.2.2.1 _
    (Asshole.Reach.init createDeck ["A", "B", "C"] [] (List.Perm.refl _))

end CardGames
